import Mathlib

/-!
# CustomMemManager (include/custom_storage.hpp): a free-list allocator

Shallow embedding of `ChronusQ::CustomMemManager`.

* Addresses and sizes are natural numbers; `nullptr` is address `0`.
* The two header fields that the C++ code overlays on a free block
  (`get_next(p)`, `get_size(p)`) are two maps from the block address to the
  stored word.  Writing a header at `p` changes the maps at exactly `p`.
* `alloc_blocks` (a `std::unordered_map<void*, size_t>`) is an association
  list with at most one entry per key.
* Loops that follow `next` pointers take a fuel argument; `Res.diverge` is
  the answer when the fuel runs out.
* A `throw` is modelled by `Res.raise`, which carries the state at the moment
  of the throw.
* `size_t` products and round-ups in `malloc` are taken modulo `2 ^ 64`.
  `char*` arithmetic on a block (`block + block_size`) and sums of sizes of
  blocks are not reduced: blocks lie inside the address space.

The two maps describe the memory exactly as long as the 16 header bytes of
every free block lie inside the block and the free blocks are pairwise
disjoint: then no write to one header changes a word of another.  The general
theorems on this model carry hypotheses that keep the state in that range.
`malloc` can leave a remainder of fewer than 16 bytes, whose header reaches
into the bytes behind it.  The section `Bytes` therefore gives the same member
functions over a single byte-addressed memory, with every read and write in
program order; the calls that leave the range are evaluated there, and the
last part of the file shows that inside the range the header words of the
byte memory change as the two maps do (`add_block_agree`,
`add_block_fast_agree`, `malloc_take_agree`, `bytes_reach`).

Two smaller embeddings follow the allocator: `Comb` of `include/util/math.hpp`
(`size_t` arithmetic modulo `2 ^ 64`, `CErr` ends the computation), and the
`dealloc` members of the result records of `include/response/results.hpp`
(a record is its pointer members, `dealloc` is the list of pointers it hands
to `mem.free`, in call order; every such call is taken to return).
-/

namespace ChronusQ

/-- The four kinds of exception thrown by `CustomMemManager`. -/
inductive Err where
  /-- `throw "Bad alignment of pointer in MemManager"` -/
  | bad_alignment
  /-- `throw "Blocks need to be large enough to hold the linked list header"` -/
  | block_too_small
  /-- `throw std::bad_alloc()` -/
  | bad_alloc
  /-- `throw "Pointer was not allocated by MemManager"` -/
  | not_allocated
  deriving DecidableEq

/-- `sizeof(void*)` on a 64-bit target. -/
def sizeof_ptr : Nat := 8

/-- `sizeof(size_t)` on a 64-bit target. -/
def sizeof_size_t : Nat := 8

/-- Number of values of a `size_t`. -/
def size_t_range : Nat := 2 ^ 64

/-- Pointwise update of a header-field map. -/
def upd (f : Nat → Nat) (a v : Nat) : Nat → Nat := fun x => if x = a then v else f x

/-- The members of `CustomMemManager` together with the header words stored
in memory: `mem_next p` is `get_next(p)`, `mem_size p` is `get_size(p)`.  The
two maps are independent, whereas in the C++ code `get_size(p)` and
`get_next(p + 8)` are the same 8 bytes: this state describes the memory while
the headers in use start at least 16 bytes apart; `Bytes.CustomMemManager` is
the state with the single byte memory. -/
structure CustomMemManager where
  top : Nat
  align_size : Nat
  alloc_blocks : List (Nat × Nat)
  mem_next : Nat → Nat
  mem_size : Nat → Nat

/-- Outcome of a member function: normal return with a value, a throw, or
no answer within the fuel. -/
inductive Res (α : Type) where
  | ok (v : α) (s : CustomMemManager)
  | raise (e : Err) (s : CustomMemManager)
  | diverge

/-- The constructor: `top(nullptr), align_size(align_size_)`, empty map; the
memory contents are whatever they are. -/
def fresh (align_size_ : Nat) (mem_next mem_size : Nat → Nat) : CustomMemManager :=
  { top := 0, align_size := align_size_, alloc_blocks := [],
    mem_next := mem_next, mem_size := mem_size }

/-- Lookup in `alloc_blocks` (`alloc_blocks.find(ptr)`). -/
def tbl_find : List (Nat × Nat) → Nat → Option Nat
  | [], _ => none
  | (k, v) :: t, p => if k = p then some v else tbl_find t p

/-- Removal of a key from `alloc_blocks` (`alloc_blocks.erase(entry)`). -/
def tbl_erase : List (Nat × Nat) → Nat → List (Nat × Nat)
  | [], _ => []
  | (k, v) :: t, p => if k = p then tbl_erase t p else (k, v) :: tbl_erase t p

/-- Insert-or-assign (`alloc_blocks[ptr] = req_size`). -/
def tbl_assign (t : List (Nat × Nat)) (p v : Nat) : List (Nat × Nat) :=
  (p, v) :: tbl_erase t p

/-- `check_alignment(ptr)`: `true` when it throws. -/
def check_alignment (s : CustomMemManager) (ptr : Nat) : Bool :=
  ptr % s.align_size != 0

/-- The `while` loop of `get_prev`, started at `ret`. -/
def get_prev_loop (s : CustomMemManager) (ptr : Nat) : Nat → Nat → Option Nat
  | 0, _ => none
  | fuel + 1, ret =>
    if s.mem_next ret ≠ 0 then
      if s.mem_next ret > ptr then some ret
      else get_prev_loop s ptr fuel (s.mem_next ret)
    else some ret

/-- `get_prev(ptr)`: `0` (nullptr) when `top > ptr`, otherwise the element
reached by the scan. -/
def get_prev (fuel : Nat) (s : CustomMemManager) (ptr : Nat) : Option Nat :=
  if s.top > ptr then some 0 else get_prev_loop s ptr fuel s.top

/-- The two linking steps of `add_block` once `prev` is known
(lines 143 to 165).  A write to the header of one block leaves the header
words at every other address as they are, as the code does when `block`,
`prev` and `next` are blocks of at least 16 bytes that do not overlap
(`add_block_link_agree`); `Bytes.add_block_link` is the same code over the
byte memory. -/
def add_block_link (s : CustomMemManager) (block block_size prev : Nat) : CustomMemManager :=
  let next := if prev ≠ 0 then s.mem_next prev else s.top
  -- Append or link next to block
  let s1 : CustomMemManager :=
    if block + block_size = next then
      { s with mem_next := upd s.mem_next block (s.mem_next next),
               mem_size := upd s.mem_size block (block_size + s.mem_size next) }
    else
      { s with mem_next := upd s.mem_next block next,
               mem_size := upd s.mem_size block block_size }
  -- Append or link block to prev
  if prev = 0 then
    { s1 with top := block }
  else if prev + s1.mem_size prev = block then
    { s1 with mem_next := upd s1.mem_next prev (s1.mem_next block),
              mem_size := upd s1.mem_size prev (s1.mem_size prev + s1.mem_size block) }
  else
    { s1 with mem_next := upd s1.mem_next prev block }

/-- `add_block(block, block_size)`. -/
def add_block (fuel : Nat) (s : CustomMemManager) (block block_size : Nat) : Res Unit :=
  if block_size = 0 then Res.ok () s
  else if block_size < sizeof_ptr + sizeof_size_t then Res.raise Err.block_too_small s
  else if check_alignment s block then Res.raise Err.bad_alignment s
  else if s.top = 0 then
    Res.ok () { s with mem_next := upd s.mem_next block s.top,
                       mem_size := upd s.mem_size block block_size,
                       top := block }
  else
    match get_prev fuel s block with
    | none => Res.diverge
    | some prev => Res.ok () (add_block_link s block block_size prev)

/-- `add_block_fast(block, block_size)`.  The header written at `block`
leaves the header words at every other address as they are, as the code does
when no header in use starts within 16 bytes of `block`
(`add_block_fast_agree`); `Bytes.add_block_fast` is the same code over the
byte memory. -/
def add_block_fast (s : CustomMemManager) (block block_size : Nat) : Res Unit :=
  if block_size = 0 then Res.ok () s
  else if block_size < sizeof_ptr + sizeof_size_t then Res.raise Err.block_too_small s
  else if check_alignment s block then Res.raise Err.bad_alignment s
  else
    Res.ok () { s with mem_next := upd s.mem_next block s.top,
                       mem_size := upd s.mem_size block block_size,
                       top := block }

/-- The padded request size computed at the start of `malloc<T>(N)`
(lines 208 to 212), with `sizeofT = sizeof(T)`. -/
def req_size_of (align_size N sizeofT : Nat) : Nat :=
  let nbytes := (N * sizeofT) % size_t_range
  let mod_size := nbytes % align_size
  let req_size := if mod_size = 0 then nbytes
                  else (nbytes + align_size - mod_size) % size_t_range
  let min_size := sizeof_ptr + sizeof_size_t
  if req_size > min_size then req_size else min_size

/-- The search loop of `malloc`; the loop variables are
`(prev, ptr, block_size)`. -/
def malloc_search (s : CustomMemManager) (req_size : Nat) :
    Nat → Nat → Nat → Nat → Option (Nat × Nat × Nat)
  | 0, _, _, _ => none
  | fuel + 1, prev, ptr, block_size =>
    if ptr ≠ 0 ∧ block_size < req_size then
      malloc_search s req_size fuel ptr (s.mem_next ptr)
        (if s.mem_next ptr ≠ 0 then s.mem_size (s.mem_next ptr) else 0)
    else some (prev, ptr, block_size)

/-- The unlink-or-split step of `malloc` (lines 232 to 258) for the block
`ptr` found by the search.  The header of the remainder, written at
`ptr + req_size`, leaves the header words at every other address as they are,
as the code does when the remainder has at least 16 bytes
(`malloc_take_agree`); with a smaller remainder the size word lies behind the
block, and `Bytes.malloc_take` is the same code over the byte memory. -/
def malloc_take (s : CustomMemManager) (req_size prev ptr block_size : Nat) :
    CustomMemManager :=
  let s1 : CustomMemManager :=
    if req_size = block_size then
      if prev ≠ 0 then { s with mem_next := upd s.mem_next prev (s.mem_next ptr) }
      else if ptr ≠ 0 then { s with top := s.mem_next ptr }
      else { s with top := 0 }
    else
      let new_free := ptr + req_size
      let s0 : CustomMemManager :=
        { s with mem_next := upd s.mem_next new_free (s.mem_next ptr) }
      let s0 : CustomMemManager :=
        { s0 with mem_size := upd s0.mem_size new_free (s0.mem_size ptr - req_size) }
      if s0.top = ptr then { s0 with top := new_free }
      else { s0 with mem_next := upd s0.mem_next prev new_free }
  { s1 with alloc_blocks := tbl_assign s1.alloc_blocks ptr req_size }

/-- `malloc<T>(N)` with `sizeofT = sizeof(T)`; the value is the returned
pointer. -/
def malloc (fuel : Nat) (s : CustomMemManager) (N sizeofT : Nat) : Res Nat :=
  let req_size := req_size_of s.align_size N sizeofT
  if s.top = 0 then Res.raise Err.bad_alloc s
  else
    match malloc_search s req_size fuel 0 s.top (s.mem_size s.top) with
    | none => Res.diverge
    | some (prev, ptr, block_size) =>
      if ptr = 0 then Res.raise Err.bad_alloc s
      else Res.ok ptr (malloc_take s req_size prev ptr block_size)

/-- `free(ptr)`: `add_block` first, then the erase. -/
def free (fuel : Nat) (s : CustomMemManager) (ptr : Nat) : Res Unit :=
  match tbl_find s.alloc_blocks ptr with
  | none => Res.raise Err.not_allocated s
  | some n =>
    match add_block fuel s ptr n with
    | Res.ok _ s1 => Res.ok () { s1 with alloc_blocks := tbl_erase s1.alloc_blocks ptr }
    | Res.raise e s1 => Res.raise e s1
    | Res.diverge => Res.diverge

/-- `free_fast(ptr)`: `add_block_fast` first, then the erase. -/
def free_fast (s : CustomMemManager) (ptr : Nat) : Res Unit :=
  match tbl_find s.alloc_blocks ptr with
  | none => Res.raise Err.not_allocated s
  | some n =>
    match add_block_fast s ptr n with
    | Res.ok _ s1 => Res.ok () { s1 with alloc_blocks := tbl_erase s1.alloc_blocks ptr }
    | Res.raise e s1 => Res.raise e s1
    | Res.diverge => Res.diverge

/-- The `while (ptr)` loop of `defrag`; `afuel` is the fuel handed to each
`add_block`. -/
def defrag_loop (afuel : Nat) : Nat → CustomMemManager → Nat → Res Unit
  | 0, _, _ => Res.diverge
  | fuel + 1, s, ptr =>
    if ptr ≠ 0 then
      match add_block afuel s ptr (s.mem_size ptr) with
      | Res.ok _ s1 => defrag_loop afuel fuel s1 (s.mem_next ptr)
      | Res.raise e s1 => Res.raise e s1
      | Res.diverge => Res.diverge
    else Res.ok () s

/-- `defrag()`. -/
def defrag (fuel : Nat) (s : CustomMemManager) : Res Unit :=
  defrag_loop fuel fuel { s with top := 0 } s.top

/-- The free list read off the memory by following `next` from `p`:
the `(start, size)` pairs in list order. -/
def free_list_from (s : CustomMemManager) : Nat → Nat → Option (List (Nat × Nat))
  | 0, _ => none
  | fuel + 1, p =>
    if p = 0 then some []
    else (free_list_from s fuel (s.mem_next p)).map (fun l => (p, s.mem_size p) :: l)

/-- The free list of a state, from `top`. -/
def free_list (fuel : Nat) (s : CustomMemManager) : Option (List (Nat × Nat)) :=
  free_list_from s fuel s.top

/-- A call of one of the public member functions. -/
inductive Call where
  | add_block (block block_size : Nat)
  | add_block_fast (block block_size : Nat)
  | malloc (N sizeofT : Nat)
  | free (ptr : Nat)
  | free_fast (ptr : Nat)
  | defrag
  deriving DecidableEq

/-- Run one call; the value is the pointer for `malloc` and `0` otherwise. -/
def exec (fuel : Nat) (s : CustomMemManager) : Call → Res Nat
  | Call.add_block b n =>
    match add_block fuel s b n with
    | Res.ok _ s1 => Res.ok 0 s1
    | Res.raise e s1 => Res.raise e s1
    | Res.diverge => Res.diverge
  | Call.add_block_fast b n =>
    match add_block_fast s b n with
    | Res.ok _ s1 => Res.ok 0 s1
    | Res.raise e s1 => Res.raise e s1
    | Res.diverge => Res.diverge
  | Call.malloc N sizeofT => malloc fuel s N sizeofT
  | Call.free p =>
    match free fuel s p with
    | Res.ok _ s1 => Res.ok 0 s1
    | Res.raise e s1 => Res.raise e s1
    | Res.diverge => Res.diverge
  | Call.free_fast p =>
    match free_fast s p with
    | Res.ok _ s1 => Res.ok 0 s1
    | Res.raise e s1 => Res.raise e s1
    | Res.diverge => Res.diverge
  | Call.defrag =>
    match defrag fuel s with
    | Res.ok _ s1 => Res.ok 0 s1
    | Res.raise e s1 => Res.raise e s1
    | Res.diverge => Res.diverge

/-- Run a sequence of calls, all of which must return normally; the result is
the final state and the pointers returned by the `malloc` calls, latest
first. -/
def run (fuel : Nat) : CustomMemManager → List Call → Option (CustomMemManager × List Nat)
  | s, [] => some (s, [])
  | s, c :: cs =>
    match exec fuel s c with
    | Res.ok v s1 =>
      match run fuel s1 cs with
      | some (s2, ps) =>
        match c with
        | Call.malloc _ _ => some (s2, ps ++ [v])
        | _ => some (s2, ps)
      | none => none
    | _ => none

/-! ## Observations used to state the properties -/

/-- The state carried by an outcome (`d` when there is none). -/
def Res.state {α : Type} (r : Res α) (d : CustomMemManager) : CustomMemManager :=
  match r with
  | Res.ok _ s => s
  | Res.raise _ s => s
  | Res.diverge => d

/-- The exception of an outcome, if it is a throw. -/
def Res.err {α : Type} (r : Res α) : Option Err :=
  match r with
  | Res.raise e _ => some e
  | _ => none

/-- The value of an outcome, if it is a normal return. -/
def Res.val {α : Type} (r : Res α) : Option α :=
  match r with
  | Res.ok v _ => some v
  | _ => none

/-- Memory in which every header word is zero. -/
def zero_mem : Nat → Nat := fun _ => 0

/-- The memory represents the list: following `next` from `p` visits exactly
the blocks of the list, with their recorded sizes, and ends at `nullptr`. -/
def IsList (s : CustomMemManager) : Nat → List (Nat × Nat) → Prop
  | p, [] => p = 0
  | p, b :: l => p = b.1 ∧ b.1 ≠ 0 ∧ s.mem_size b.1 = b.2 ∧ IsList s (s.mem_next b.1) l

/-- Start addresses of a list of blocks. -/
def starts (l : List (Nat × Nat)) : List Nat := l.map Prod.fst

/-- Sum of the sizes of a list of blocks. -/
def total (l : List (Nat × Nat)) : Nat := (l.map Prod.snd).sum

/-- Number of blocks of the list whose byte range `[start, start+size)`
contains the byte `x`. -/
def cnt : List (Nat × Nat) → Nat → Nat
  | [], _ => 0
  | b :: l, x => (if b.1 ≤ x ∧ x < b.1 + b.2 then 1 else 0) + cnt l x

/-- Two byte ranges `[start, start+size)` have no byte in common. -/
def Disj (b c : Nat × Nat) : Prop :=
  b.2 = 0 ∨ c.2 = 0 ∨ b.1 + b.2 ≤ c.1 ∨ c.1 + c.2 ≤ b.1

instance (b c : Nat × Nat) : Decidable (Disj b c) :=
  inferInstanceAs (Decidable (b.2 = 0 ∨ c.2 = 0 ∨ b.1 + b.2 ≤ c.1 ∨ c.1 + c.2 ≤ b.1))

/-- The regions donated by a sequence of calls, in call order. -/
def donated : List Call → List (Nat × Nat)
  | [] => []
  | Call.add_block b n :: cs => (b, n) :: donated cs
  | Call.add_block_fast b n :: cs => (b, n) :: donated cs
  | _ :: cs => donated cs

/-- Strictly ascending by start address, and no two list-adjacent blocks are
memory-adjacent. -/
def ordered_ok (l : List (Nat × Nat)) : Prop :=
  l.Chain' (fun b c => b.1 < c.1 ∧ b.1 + b.2 ≠ c.1)

/-- Whether the ordered discipline holds at the end of a sequence of calls:
`add_block_fast` and `free_fast` leave it, `defrag` restores it. -/
def ordered_path : Bool → List Call → Bool
  | b, [] => b
  | _, Call.add_block_fast _ _ :: cs => ordered_path false cs
  | _, Call.free_fast _ :: cs => ordered_path false cs
  | _, Call.defrag :: cs => ordered_path true cs
  | b, _ :: cs => ordered_path b cs

/-! ## List-level counterparts of the linking code, used in the proofs -/

/-- What `add_block` does to the list when the scan has reached the
element `(a, s)` and `r` is the rest of the list behind it. -/
def ins_after (b n a s : Nat) : List (Nat × Nat) → List (Nat × Nat)
  | [] => if a + s = b then [(a, s + n)] else [(a, s), (b, n)]
  | c :: r =>
    if c.1 > b then
      if b + n = c.1 then
        if a + s = b then (a, s + (n + c.2)) :: r else (a, s) :: (b, n + c.2) :: r
      else
        if a + s = b then (a, s + n) :: c :: r else (a, s) :: (b, n) :: c :: r
    else (a, s) :: ins_after b n c.1 c.2 r

/-- What `add_block` does to the list. -/
def ins (b n : Nat) : List (Nat × Nat) → List (Nat × Nat)
  | [] => [(b, n)]
  | c :: r =>
    if c.1 > b then
      if b + n = c.1 then (b, n + c.2) :: r else (b, n) :: c :: r
    else ins_after b n c.1 c.2 r

/-- What `malloc` does to the list: the start of the first block of size at
least `req` and the list left behind. -/
def take_fit (req : Nat) : List (Nat × Nat) → Option (Nat × List (Nat × Nat))
  | [] => none
  | b :: r =>
    if b.2 < req then (take_fit req r).map (fun q => (q.1, b :: q.2))
    else if b.2 = req then some (b.1, r)
    else some (b.1, (b.1 + req, b.2 - req) :: r)

/-- What `defrag` does to the list: the blocks are inserted one at a time. -/
def reinsert (acc : List (Nat × Nat)) : List (Nat × Nat) → List (Nat × Nat)
  | [] => acc
  | b :: r => reinsert (ins b.1 b.2 acc) r

/-- Canonical form of a free list: every block ends strictly below the start
of its successor (ascending, disjoint, and not memory-adjacent). -/
def Gap (l : List (Nat × Nat)) : Prop :=
  l.Chain' (fun b c => b.1 + b.2 < c.1)

/-- The invariant of the states reached from a fresh allocator when the
donated regions `D` are pairwise disjoint and do not contain address `0`:
the memory represents the free list `l`, no block is empty, and every byte is
counted as often in the free list and the allocation table together as in the
donated regions. -/
def Inv (D : List (Nat × Nat)) (s : CustomMemManager) (l : List (Nat × Nat)) : Prop :=
  IsList s s.top l ∧ (∀ c ∈ l, 0 < c.2) ∧ (∀ c ∈ s.alloc_blocks, 0 < c.2) ∧
  (∀ x, cnt l x + cnt s.alloc_blocks x = cnt D x) ∧ (∀ x, cnt D x ≤ 1) ∧ cnt D 0 = 0 ∧
  total l + total s.alloc_blocks = total D

/-- The state at the end of a sequence of calls (`s` itself when the run
does not complete). -/
def run_state (fuel : Nat) (s : CustomMemManager) (cs : List Call) : CustomMemManager :=
  match run fuel s cs with
  | some r => r.1
  | none => s

/-- The pointers returned by the `malloc` calls of a sequence, latest first. -/
def run_ptrs (fuel : Nat) (s : CustomMemManager) (cs : List Call) : List Nat :=
  match run fuel s cs with
  | some r => r.2
  | none => []

/-- Whether every call of the sequence is an `add_block`. -/
def only_add_block : List Call → Bool
  | [] => true
  | Call.add_block _ _ :: cs => only_add_block cs
  | _ :: _ => false

/-- Alignment side of the invariant: every free block and every allocated
block starts at a multiple of `align_size`, and every allocated block can hold
a header. -/
def Aligned (s : CustomMemManager) (l : List (Nat × Nat)) : Prop :=
  (∀ b ∈ l, b.1 % s.align_size = 0) ∧
  (∀ b ∈ s.alloc_blocks, b.1 % s.align_size = 0 ∧ sizeof_ptr + sizeof_size_t ≤ b.2)

/-- `add_ordered_block(block, nsz, dummy)`: the mimic of
`boost::simple_segregated_storage::add_ordered_block`. -/
def add_ordered_block (fuel : Nat) (s : CustomMemManager) (block nsz _dummy : Nat) : Res Unit :=
  add_block fuel s block nsz

/-- `malloc_n(n, block_size)`: `malloc<char>(n * block_size)`, the product
being a `size_t` product and `sizeof(char)` being 1. -/
def malloc_n (fuel : Nat) (s : CustomMemManager) (n block_size : Nat) : Res Nat :=
  malloc fuel s ((n * block_size) % size_t_range) 1

/-- `ordered_free_n(chunks, dummy1, dummy2)`: `free(chunks)`. -/
def ordered_free_n (fuel : Nat) (s : CustomMemManager) (chunks _dummy1 _dummy2 : Nat) :
    Res Unit :=
  free fuel s chunks

/-- Whether every call of the sequence is an `add_block_fast`. -/
def only_add_block_fast : List Call → Bool
  | [] => true
  | Call.add_block_fast _ _ :: cs => only_add_block_fast cs
  | _ :: _ => false

/-- Every block of the list can hold a header and starts at a multiple of
`align_size`: what `add_block` and `add_block_fast` check before they admit a
block. -/
def Admitted (s : CustomMemManager) (l : List (Nat × Nat)) : Prop :=
  ∀ c ∈ l, sizeof_ptr + sizeof_size_t ≤ c.2 ∧ c.1 % s.align_size = 0

/-! ## `Comb` (include/util/math.hpp) -/

/-- The two calls of `CErr` in `Comb`; `CErr` ends the computation. -/
inductive CombErr where
  /-- `CErr("Can not do combinations of choosing a K larger than N")` -/
  | k_larger_than_n
  /-- `CErr("Overflow of long unsign int detected in Comb")` -/
  | overflow
  deriving DecidableEq

/-- The `for` loop of `Comb`; the loop variables are `i` and `Comb`, both
`size_t`. -/
def Comb_loop (N KMin : Nat) : Nat → Nat → Nat → Option (Except CombErr Nat)
  | 0, _, _ => none
  | fuel + 1, i, comb =>
    if i ≤ KMin then
      let comb_tmp := comb
      let comb1 := (comb * ((N - KMin + i) % size_t_range)) % size_t_range
      let comb2 := comb1 / i
      if comb2 < comb_tmp then some (Except.error CombErr.overflow)
      else Comb_loop N KMin fuel ((i + 1) % size_t_range) comb2
    else some (Except.ok comb)

/-- `Comb(N, K)` on `size_t` arguments; `none` when the fuel runs out. -/
def Comb (fuel N K : Nat) : Option (Except CombErr Nat) :=
  if K > N then some (Except.error CombErr.k_larger_than_n)
  else
    let KMin := min K (N - K)
    Comb_loop N KMin fuel 1 1

/-- The value returned by `Comb`, if it returns one. -/
def Comb_value (r : Option (Except CombErr Nat)) : Option Nat :=
  match r with
  | some (Except.ok v) => some v
  | _ => none

/-- The error raised by `Comb`, if it raises one. -/
def Comb_error (r : Option (Except CombErr Nat)) : Option CombErr :=
  match r with
  | some (Except.error e) => some e
  | _ => none

/-! ## The result records (include/response/results.hpp) -/

/-- The statement `if(p) mem.free(p);`: the pointers handed to `mem.free` so
far are kept in call order. -/
def free_if_set (log : List Nat) (p : Nat) : List Nat :=
  if p ≠ 0 then log ++ [p] else log

/-- The pointer members of `ResidueResponseResults<T>`, in declaration
order. -/
structure ResidueResponseResults where
  W : Nat
  VR : Nat
  VL : Nat
  tLenElecDipole_ge : Nat
  tLenElecQuadrupole_ge : Nat
  tLenElecOctupole_ge : Nat
  tVelElecDipole_ge : Nat
  tVelElecQuadrupole_ge : Nat
  tVelElecOctupole_ge : Nat
  tMagDipole_ge : Nat
  tMagQuadrupole_ge : Nat
  tMagOctupole_ge : Nat

/-- `ResidueResponseResults::dealloc(mem)`: the pointers handed to
`mem.free`, in call order. -/
def ResidueResponseResults.dealloc (r : ResidueResponseResults) : List Nat :=
  let log := free_if_set [] r.W
  let log := free_if_set log r.VR
  let log := free_if_set log r.VL
  let log := free_if_set log r.tLenElecDipole_ge
  let log := free_if_set log r.tLenElecQuadrupole_ge
  let log := free_if_set log r.tLenElecOctupole_ge
  let log := free_if_set log r.tVelElecDipole_ge
  let log := free_if_set log r.tVelElecQuadrupole_ge
  let log := free_if_set log r.tVelElecOctupole_ge
  let log := free_if_set log r.tMagDipole_ge
  free_if_set log r.tMagQuadrupole_ge

/-- The storage pointers of a `ResidueResponseResults`, in declaration
order. -/
def ResidueResponseResults.storage (r : ResidueResponseResults) : List Nat :=
  [r.W, r.VR, r.VL, r.tLenElecDipole_ge, r.tLenElecQuadrupole_ge, r.tLenElecOctupole_ge,
   r.tVelElecDipole_ge, r.tVelElecQuadrupole_ge, r.tVelElecOctupole_ge,
   r.tMagDipole_ge, r.tMagQuadrupole_ge, r.tMagOctupole_ge]

/-- The members of `FDResponseResults<T, U>`, in declaration order; `shifts`
is a `std::vector`, the others are pointers. -/
structure FDResponseResults where
  shifts : List Nat
  RHS : Nat
  SOL : Nat
  ed_ed_Polar : Nat
  eq_ed_Polar : Nat
  eo_ed_Polar : Nat
  eq_eq_Polar : Nat
  eo_eq_Polar : Nat
  eo_eo_Polar : Nat
  md_ed_Polar : Nat
  md_md_Polar : Nat

/-- `FDResponseResults::dealloc(mem)`: the pointers handed to `mem.free`, in
call order. -/
def FDResponseResults.dealloc (r : FDResponseResults) : List Nat :=
  let log := free_if_set [] r.RHS
  let log := free_if_set log r.SOL
  let log := free_if_set log r.ed_ed_Polar
  let log := free_if_set log r.eq_ed_Polar
  let log := free_if_set log r.eo_ed_Polar
  let log := free_if_set log r.eq_eq_Polar
  let log := free_if_set log r.eo_eq_Polar
  let log := free_if_set log r.eo_eo_Polar
  free_if_set log r.md_ed_Polar

/-- The storage pointers of a `FDResponseResults`, in declaration order. -/
def FDResponseResults.storage (r : FDResponseResults) : List Nat :=
  [r.RHS, r.SOL, r.ed_ed_Polar, r.eq_ed_Polar, r.eo_ed_Polar, r.eq_eq_Polar,
   r.eo_eq_Polar, r.eo_eo_Polar, r.md_ed_Polar, r.md_md_Polar]

/-- The pointer members of `FDObservables`, in declaration order. -/
structure FDObservables where
  edStrength : Nat
  opaCross_eda : Nat
  ecd_len_RM : Nat
  ecd_vel_PMQ : Nat

/-- `FDObservables::dealloc(mem)`: the pointers handed to `mem.free`, in call
order. -/
def FDObservables.dealloc (r : FDObservables) : List Nat :=
  let log := free_if_set [] r.edStrength
  let log := free_if_set log r.opaCross_eda
  let log := free_if_set log r.ecd_len_RM
  free_if_set log r.ecd_vel_PMQ

/-- The storage pointers of a `FDObservables`, in declaration order. -/
def FDObservables.storage (r : FDObservables) : List Nat :=
  [r.edStrength, r.opaCross_eda, r.ecd_len_RM, r.ecd_vel_PMQ]

/-- The pointer members of `ResObservables`, in declaration order. -/
structure ResObservables where
  oscStrength : Nat
  rotatory_len_RM : Nat
  rotatory_vel_PMQ : Nat

/-- `ResObservables::dealloc(mem)`: the pointers handed to `mem.free`, in
call order. -/
def ResObservables.dealloc (r : ResObservables) : List Nat :=
  let log := free_if_set [] r.oscStrength
  let log := free_if_set log r.rotatory_len_RM
  free_if_set log r.rotatory_vel_PMQ

/-- The storage pointers of a `ResObservables`, in declaration order. -/
def ResObservables.storage (r : ResObservables) : List Nat :=
  [r.oscStrength, r.rotatory_len_RM, r.rotatory_vel_PMQ]

/-! ## Free blocks that can hold their header -/

/-- Whether the memory of the state holds a finite free list (read within
the fuel `f`) each of whose blocks is large enough for the 16-byte list
header. -/
def blocks_hold_header (f : Nat) (s : CustomMemManager) : Bool :=
  match free_list f s with
  | some l => l.all (fun c => decide (sizeof_ptr + sizeof_size_t ≤ c.2))
  | none => false

/-- Whether every free block is large enough for the list header in every
state that the sequence of calls passes through, the first and the last
included. -/
def headers_fit (f fuel : Nat) : CustomMemManager → List Call → Bool
  | s, [] => blocks_hold_header f s
  | s, c :: cs =>
    blocks_hold_header f s &&
      match exec fuel s c with
      | Res.ok _ s1 => headers_fit f fuel s1 cs
      | _ => true

/-! ## The same member functions over byte-addressed memory

The header of a free block is 16 raw bytes at the start of the block:
`get_next(p)` is the 8-byte word at `p` and `get_size(p)` the 8-byte word at
`p + 8`, so `get_size(p)` and `get_next(p + 8)` are the same bytes.  The
definitions of this section keep one byte map and perform the reads and
writes of the C++ code in program order; words are little-endian and `size_t`
and pointer arithmetic is taken modulo `2 ^ 64`. -/

namespace Bytes

/-- The 8-byte word stored at address `a`. -/
def load64 (mem : Nat → Nat) (a : Nat) : Nat :=
  mem a % 256 + 256 * (mem (a + 1) % 256 + 256 * (mem (a + 2) % 256 +
    256 * (mem (a + 3) % 256 + 256 * (mem (a + 4) % 256 + 256 * (mem (a + 5) % 256 +
    256 * (mem (a + 6) % 256 + 256 * (mem (a + 7) % 256)))))))

/-- Memory after the 8-byte word `v` is stored at address `a`. -/
def store64 (mem : Nat → Nat) (a v : Nat) : Nat → Nat :=
  fun x => if a ≤ x ∧ x < a + 8 then (v / 256 ^ (x - a)) % 256 else mem x

/-- The members of `CustomMemManager` and the memory its pointers point
into. -/
structure CustomMemManager where
  top : Nat
  align_size : Nat
  alloc_blocks : List (Nat × Nat)
  mem : Nat → Nat

/-- Outcome of a member function: normal return with a value, a throw, or
no answer within the fuel. -/
inductive Res (α : Type) where
  | ok (v : α) (s : CustomMemManager)
  | raise (e : Err) (s : CustomMemManager)
  | diverge

/-- The constructor: `top(nullptr), align_size(align_size_)`, empty map. -/
def fresh (align_size_ : Nat) (mem : Nat → Nat) : CustomMemManager :=
  { top := 0, align_size := align_size_, alloc_blocks := [], mem := mem }

/-- Read of `get_next(ptr)`: `*(static_cast<void **>(ptr))`. -/
def get_next (s : CustomMemManager) (ptr : Nat) : Nat := load64 s.mem ptr

/-- Read of `get_size(ptr)`: `*(static_cast<void **>(ptr) + 1)`. -/
def get_size (s : CustomMemManager) (ptr : Nat) : Nat := load64 s.mem (ptr + sizeof_ptr)

/-- The assignment `get_next(ptr) = v`. -/
def set_next (s : CustomMemManager) (ptr v : Nat) : CustomMemManager :=
  { s with mem := store64 s.mem ptr v }

/-- The assignment `get_size(ptr) = v`. -/
def set_size (s : CustomMemManager) (ptr v : Nat) : CustomMemManager :=
  { s with mem := store64 s.mem (ptr + sizeof_ptr) v }

/-- `check_alignment(ptr)`: `true` when it throws. -/
def check_alignment (s : CustomMemManager) (ptr : Nat) : Bool :=
  ptr % s.align_size != 0

/-- The `while` loop of `get_prev`, started at `ret`. -/
def get_prev_loop (s : CustomMemManager) (ptr : Nat) : Nat → Nat → Option Nat
  | 0, _ => none
  | fuel + 1, ret =>
    if get_next s ret ≠ 0 then
      if get_next s ret > ptr then some ret
      else get_prev_loop s ptr fuel (get_next s ret)
    else some ret

/-- `get_prev(ptr)`. -/
def get_prev (fuel : Nat) (s : CustomMemManager) (ptr : Nat) : Option Nat :=
  if s.top > ptr then some 0 else get_prev_loop s ptr fuel s.top

/-- The two linking steps of `add_block` once `prev` is known (lines 143 to
165), statement by statement. -/
def add_block_link (s : CustomMemManager) (block block_size prev : Nat) : CustomMemManager :=
  let next := if prev ≠ 0 then get_next s prev else s.top
  -- Append or link next to block
  let s1 : CustomMemManager :=
    if (block + block_size) % size_t_range = next then
      let s0 := set_next s block (get_next s next)
      set_size s0 block ((block_size + get_size s0 next) % size_t_range)
    else
      let s0 := set_next s block next
      set_size s0 block block_size
  -- Append or link block to prev
  if prev = 0 then
    { s1 with top := block }
  else if (prev + get_size s1 prev) % size_t_range = block then
    let s2 := set_next s1 prev (get_next s1 block)
    set_size s2 prev ((get_size s2 prev + get_size s2 block) % size_t_range)
  else
    set_next s1 prev block

/-- `add_block(block, block_size)`. -/
def add_block (fuel : Nat) (s : CustomMemManager) (block block_size : Nat) : Res Unit :=
  if block_size = 0 then Res.ok () s
  else if block_size < sizeof_ptr + sizeof_size_t then Res.raise Err.block_too_small s
  else if check_alignment s block then Res.raise Err.bad_alignment s
  else if s.top = 0 then
    let s0 := set_next s block s.top
    let s0 := set_size s0 block block_size
    Res.ok () { s0 with top := block }
  else
    match get_prev fuel s block with
    | none => Res.diverge
    | some prev => Res.ok () (add_block_link s block block_size prev)

/-- `add_block_fast(block, block_size)`. -/
def add_block_fast (s : CustomMemManager) (block block_size : Nat) : Res Unit :=
  if block_size = 0 then Res.ok () s
  else if block_size < sizeof_ptr + sizeof_size_t then Res.raise Err.block_too_small s
  else if check_alignment s block then Res.raise Err.bad_alignment s
  else
    let s0 := set_next s block s.top
    let s0 := set_size s0 block block_size
    Res.ok () { s0 with top := block }

/-- The search loop of `malloc`; the loop variables are
`(prev, ptr, block_size)`. -/
def malloc_search (s : CustomMemManager) (req_size : Nat) :
    Nat → Nat → Nat → Nat → Option (Nat × Nat × Nat)
  | 0, _, _, _ => none
  | fuel + 1, prev, ptr, block_size =>
    if ptr ≠ 0 ∧ block_size < req_size then
      malloc_search s req_size fuel ptr (get_next s ptr)
        (if get_next s ptr ≠ 0 then get_size s (get_next s ptr) else 0)
    else some (prev, ptr, block_size)

/-- The unlink-or-split step of `malloc` (lines 232 to 258), statement by
statement. -/
def malloc_take (s : CustomMemManager) (req_size prev ptr block_size : Nat) :
    CustomMemManager :=
  let s1 : CustomMemManager :=
    if req_size = block_size then
      if prev ≠ 0 then set_next s prev (get_next s ptr)
      else if ptr ≠ 0 then { s with top := get_next s ptr }
      else { s with top := 0 }
    else
      let new_free := (ptr + req_size) % size_t_range
      let s0 := set_next s new_free (get_next s ptr)
      let s0 := set_size s0 new_free ((get_size s0 ptr + size_t_range - req_size) % size_t_range)
      if s0.top = ptr then { s0 with top := new_free }
      else set_next s0 prev new_free
  { s1 with alloc_blocks := tbl_assign s1.alloc_blocks ptr req_size }

/-- `malloc<T>(N)` with `sizeofT = sizeof(T)`. -/
def malloc (fuel : Nat) (s : CustomMemManager) (N sizeofT : Nat) : Res Nat :=
  let req_size := req_size_of s.align_size N sizeofT
  if s.top = 0 then Res.raise Err.bad_alloc s
  else
    match malloc_search s req_size fuel 0 s.top (get_size s s.top) with
    | none => Res.diverge
    | some (prev, ptr, block_size) =>
      if ptr = 0 then Res.raise Err.bad_alloc s
      else Res.ok ptr (malloc_take s req_size prev ptr block_size)

/-- `free(ptr)`. -/
def free (fuel : Nat) (s : CustomMemManager) (ptr : Nat) : Res Unit :=
  match tbl_find s.alloc_blocks ptr with
  | none => Res.raise Err.not_allocated s
  | some n =>
    match add_block fuel s ptr n with
    | Res.ok _ s1 => Res.ok () { s1 with alloc_blocks := tbl_erase s1.alloc_blocks ptr }
    | Res.raise e s1 => Res.raise e s1
    | Res.diverge => Res.diverge

/-- `free_fast(ptr)`. -/
def free_fast (s : CustomMemManager) (ptr : Nat) : Res Unit :=
  match tbl_find s.alloc_blocks ptr with
  | none => Res.raise Err.not_allocated s
  | some n =>
    match add_block_fast s ptr n with
    | Res.ok _ s1 => Res.ok () { s1 with alloc_blocks := tbl_erase s1.alloc_blocks ptr }
    | Res.raise e s1 => Res.raise e s1
    | Res.diverge => Res.diverge

/-- The `while (ptr)` loop of `defrag`. -/
def defrag_loop (afuel : Nat) : Nat → CustomMemManager → Nat → Res Unit
  | 0, _, _ => Res.diverge
  | fuel + 1, s, ptr =>
    if ptr ≠ 0 then
      match add_block afuel s ptr (get_size s ptr) with
      | Res.ok _ s1 => defrag_loop afuel fuel s1 (get_next s ptr)
      | Res.raise e s1 => Res.raise e s1
      | Res.diverge => Res.diverge
    else Res.ok () s

/-- `defrag()`. -/
def defrag (fuel : Nat) (s : CustomMemManager) : Res Unit :=
  defrag_loop fuel fuel { s with top := 0 } s.top

/-- The free list read off the memory by following `get_next` from `p`. -/
def free_list_from (s : CustomMemManager) : Nat → Nat → Option (List (Nat × Nat))
  | 0, _ => none
  | fuel + 1, p =>
    if p = 0 then some []
    else (free_list_from s fuel (get_next s p)).map (fun l => (p, get_size s p) :: l)

/-- The free list of a state, from `top`. -/
def free_list (fuel : Nat) (s : CustomMemManager) : Option (List (Nat × Nat)) :=
  free_list_from s fuel s.top

/-- Run one call; the value is the pointer for `malloc` and `0` otherwise. -/
def exec (fuel : Nat) (s : CustomMemManager) : Call → Res Nat
  | Call.add_block b n =>
    match add_block fuel s b n with
    | Res.ok _ s1 => Res.ok 0 s1
    | Res.raise e s1 => Res.raise e s1
    | Res.diverge => Res.diverge
  | Call.add_block_fast b n =>
    match add_block_fast s b n with
    | Res.ok _ s1 => Res.ok 0 s1
    | Res.raise e s1 => Res.raise e s1
    | Res.diverge => Res.diverge
  | Call.malloc N sizeofT => malloc fuel s N sizeofT
  | Call.free p =>
    match free fuel s p with
    | Res.ok _ s1 => Res.ok 0 s1
    | Res.raise e s1 => Res.raise e s1
    | Res.diverge => Res.diverge
  | Call.free_fast p =>
    match free_fast s p with
    | Res.ok _ s1 => Res.ok 0 s1
    | Res.raise e s1 => Res.raise e s1
    | Res.diverge => Res.diverge
  | Call.defrag =>
    match defrag fuel s with
    | Res.ok _ s1 => Res.ok 0 s1
    | Res.raise e s1 => Res.raise e s1
    | Res.diverge => Res.diverge

/-- Run a sequence of calls, all of which must return normally; the result is
the final state and the pointers returned by the `malloc` calls, latest
first. -/
def run (fuel : Nat) : CustomMemManager → List Call → Option (CustomMemManager × List Nat)
  | s, [] => some (s, [])
  | s, c :: cs =>
    match exec fuel s c with
    | Res.ok v s1 =>
      match run fuel s1 cs with
      | some (s2, ps) =>
        match c with
        | Call.malloc _ _ => some (s2, ps ++ [v])
        | _ => some (s2, ps)
      | none => none
    | _ => none

/-- The state at the end of a sequence of calls (`s` itself when the run
does not complete). -/
def run_state (fuel : Nat) (s : CustomMemManager) (cs : List Call) : CustomMemManager :=
  match run fuel s cs with
  | some r => r.1
  | none => s

/-- Whether the call, when it is a `malloc` whose search ends at a block
(`ptr` is not `nullptr`), takes the whole block or leaves a remainder large
enough for the list header. -/
def remainder_fits (fuel : Nat) (s : CustomMemManager) : Call → Bool
  | Call.malloc N sizeofT =>
    match malloc_search s (req_size_of s.align_size N sizeofT) fuel 0 s.top
        (get_size s s.top) with
    | some (_, ptr, block_size) =>
      decide (ptr = 0 ∨ req_size_of s.align_size N sizeofT = block_size ∨
        req_size_of s.align_size N sizeofT + (sizeof_ptr + sizeof_size_t) ≤ block_size)
    | none => true
  | _ => true

/-- Whether `remainder_fits` holds for every call of the sequence, each in
the state in which it is made. -/
def remainders_fit (fuel : Nat) : CustomMemManager → List Call → Bool
  | _, [] => true
  | s, c :: cs =>
    remainder_fits fuel s c &&
      match exec fuel s c with
      | Res.ok _ s1 => remainders_fit fuel s1 cs
      | _ => true

end Bytes

/-! ## The two header maps as a view of the byte memory -/

/-- The two header maps read off the byte memory: `get_next(p)` and
`get_size(p)` taken at every address `p`. -/
def header_maps (bs : Bytes.CustomMemManager) : CustomMemManager :=
  { top := bs.top, align_size := bs.align_size, alloc_blocks := bs.alloc_blocks,
    mem_next := fun p => Bytes.load64 bs.mem p,
    mem_size := fun p => Bytes.load64 bs.mem (p + sizeof_ptr) }

/-- Two states have the same members and the same header words at the
addresses of `A`. -/
def AgreeOn (A : List Nat) (s1 s2 : CustomMemManager) : Prop :=
  s1.top = s2.top ∧ s1.align_size = s2.align_size ∧ s1.alloc_blocks = s2.alloc_blocks ∧
  ∀ a ∈ A, s1.mem_next a = s2.mem_next a ∧ s1.mem_size a = s2.mem_size a

/-- The 16-byte headers that start at the addresses of `A` do not overlap. -/
def Separated (A : List Nat) : Prop :=
  ∀ a ∈ A, ∀ b ∈ A, a ≠ b → a + 16 ≤ b ∨ b + 16 ≤ a

/-- The invariant of the byte memory on runs whose free blocks all hold their
header: the header words read off the bytes satisfy `Inv`, every free block
has at least 16 bytes, and the donated regions end inside the address
space. -/
def Fit (D : List (Nat × Nat)) (bs : Bytes.CustomMemManager) (l : List (Nat × Nat)) : Prop :=
  Inv D (header_maps bs) l ∧ (∀ c ∈ l, 16 ≤ c.2) ∧ (∀ d ∈ D, d.1 + d.2 < size_t_range)

/-! ## Failure atomicity and the allocation table -/

theorem add_block_raise (fuel : Nat) (s s1 : CustomMemManager) (b n : Nat) (e : Err)
    (h : add_block fuel s b n = Res.raise e s1) : s1 = s := by
  unfold add_block at h
  split_ifs at h
  · cases h; rfl
  · cases h; rfl
  · split at h <;> cases h

theorem add_block_fast_raise (s s1 : CustomMemManager) (b n : Nat) (e : Err)
    (h : add_block_fast s b n = Res.raise e s1) : s1 = s := by
  unfold add_block_fast at h
  split_ifs at h
  · cases h; rfl
  · cases h; rfl

theorem malloc_raise (fuel : Nat) (s s1 : CustomMemManager) (N k : Nat) (e : Err)
    (h : malloc fuel s N k = Res.raise e s1) : s1 = s := by
  unfold malloc at h
  simp only at h
  split_ifs at h
  · cases h; rfl
  · split at h
    · cases h
    · split_ifs at h
      cases h; rfl

theorem free_raise (fuel : Nat) (s s1 : CustomMemManager) (p : Nat) (e : Err)
    (h : free fuel s p = Res.raise e s1) : s1 = s := by
  unfold free at h
  split at h
  · cases h; rfl
  · split at h
    · cases h
    · rename_i h1
      cases h
      exact add_block_raise _ _ _ _ _ _ h1
    · cases h

theorem free_fast_raise (s s1 : CustomMemManager) (p : Nat) (e : Err)
    (h : free_fast s p = Res.raise e s1) : s1 = s := by
  unfold free_fast at h
  split at h
  · cases h; rfl
  · split at h
    · cases h
    · rename_i h1
      cases h
      exact add_block_fast_raise _ _ _ _ _ h1
    · cases h

/-- C4. Failure atomicity: when a call of add_block, add_block_fast, malloc,
free or free_fast throws, the state at the throw (free list, memory headers
and allocation table) is the state before the call. -/
theorem C4_failure_atomicity (fuel : Nat) (s s1 : CustomMemManager) (c : Call) (e : Err)
    (hc : c ≠ Call.defrag) (h : exec fuel s c = Res.raise e s1) : s1 = s := by
  cases c with
  | add_block b n =>
    simp only [exec] at h
    split at h
    · cases h
    · rename_i h1; cases h; exact add_block_raise _ _ _ _ _ _ h1
    · cases h
  | add_block_fast b n =>
    simp only [exec] at h
    split at h
    · cases h
    · rename_i h1; cases h; exact add_block_fast_raise _ _ _ _ _ h1
    · cases h
  | malloc N k => exact malloc_raise _ _ _ _ _ _ h
  | free p =>
    simp only [exec] at h
    split at h
    · cases h
    · rename_i h1; cases h; exact free_raise _ _ _ _ _ h1
    · cases h
  | free_fast p =>
    simp only [exec] at h
    split at h
    · cases h
    · rename_i h1; cases h; exact free_fast_raise _ _ _ _ h1
    · cases h
  | defrag => exact absurd rfl hc

/-- Witness for C4: a donation of 8 bytes throws and leaves the state as it was. -/
theorem C4_failure_atomicity_witness :
    (exec 4 (fresh 8 zero_mem zero_mem) (Call.add_block 4096 8)).err = some Err.block_too_small ∧
    (exec 4 (fresh 8 zero_mem zero_mem) (Call.add_block 4096 8)).state
      (fresh 1 zero_mem zero_mem) = fresh 8 zero_mem zero_mem :=
  ⟨rfl, C4_failure_atomicity 4 (fresh 8 zero_mem zero_mem) _ (Call.add_block 4096 8)
    Err.block_too_small (by decide) rfl⟩

theorem tbl_find_erase (t : List (Nat × Nat)) (p : Nat) : tbl_find (tbl_erase t p) p = none := by
  induction t with
  | nil => rfl
  | cons b t ih =>
    obtain ⟨k, v⟩ := b
    by_cases hk : k = p
    · simp [tbl_erase, hk, ih]
    · simp [tbl_erase, tbl_find, hk, ih]

theorem free_ok_alloc (fuel : Nat) (s s1 : CustomMemManager) (p : Nat)
    (h : free fuel s p = Res.ok () s1) : tbl_find s1.alloc_blocks p = none := by
  unfold free at h
  split at h
  · cases h
  · split at h
    · cases h; exact tbl_find_erase _ _
    · cases h
    · cases h

/-- C5. Safety net: a pointer that is not a key of the allocation table makes
free and free_fast throw the not-allocated error with the state unchanged, and
a free that follows a successful free of the same pointer throws it. -/
theorem C5_invalid_free (fuel fuel0 : Nat) (s s0 : CustomMemManager) (p : Nat) :
    (tbl_find s.alloc_blocks p = none →
      free fuel s p = Res.raise Err.not_allocated s ∧
      free_fast s p = Res.raise Err.not_allocated s) ∧
    (free fuel0 s0 p = Res.ok () s → free fuel s p = Res.raise Err.not_allocated s) := by
  have key : tbl_find s.alloc_blocks p = none →
      free fuel s p = Res.raise Err.not_allocated s ∧
      free_fast s p = Res.raise Err.not_allocated s := by
    intro h
    constructor
    · unfold free; rw [h]
    · unfold free_fast; rw [h]
  exact ⟨key, fun h => (key (free_ok_alloc _ _ _ _ h)).1⟩

/-! ## Counting bytes -/

theorem cnt_append (l1 l2 : List (Nat × Nat)) (x : Nat) :
    cnt (l1 ++ l2) x = cnt l1 x + cnt l2 x := by
  induction l1 with
  | nil => simp [cnt]
  | cons b l ih => simp [cnt, ih]; omega

theorem total_cons (b : Nat × Nat) (l : List (Nat × Nat)) : total (b :: l) = b.2 + total l := by
  simp [total]

theorem total_append (l1 l2 : List (Nat × Nat)) : total (l1 ++ l2) = total l1 + total l2 := by
  simp [total]

theorem cnt_ins_after (b n a s : Nat) (r : List (Nat × Nat)) (x : Nat) :
    cnt (ins_after b n a s r) x = cnt ((a, s) :: r) x + cnt [(b, n)] x := by
  induction r generalizing a s with
  | nil =>
    simp only [ins_after, cnt]
    split_ifs <;> simp only [cnt] <;> split_ifs <;> omega
  | cons c r ih =>
    simp only [ins_after]
    split_ifs
    all_goals first
      | (simp only [cnt]; split_ifs <;> omega)
      | (simp only [cnt, ih c.1 c.2]; split_ifs <;> omega)

theorem cnt_ins (b n : Nat) (l : List (Nat × Nat)) (x : Nat) :
    cnt (ins b n l) x = cnt l x + cnt [(b, n)] x := by
  cases l with
  | nil => simp [ins, cnt]
  | cons c r =>
    simp only [ins]
    split_ifs
    all_goals first
      | (simp only [cnt]; split_ifs <;> omega)
      | rw [cnt_ins_after]

theorem total_ins_after (b n a s : Nat) (r : List (Nat × Nat)) :
    total (ins_after b n a s r) = total ((a, s) :: r) + n := by
  induction r generalizing a s with
  | nil => simp only [ins_after]; split_ifs <;> simp [total]
  | cons c r ih =>
    simp only [ins_after]
    split_ifs
    all_goals first
      | (rw [total_cons, ih c.1 c.2]; simp only [total_cons]; omega)
      | (simp only [total_cons]; omega)

theorem total_ins (b n : Nat) (l : List (Nat × Nat)) : total (ins b n l) = total l + n := by
  cases l with
  | nil => simp [ins, total]
  | cons c r =>
    simp only [ins]
    split_ifs
    all_goals first
      | (simp [total]; omega)
      | (rw [total_ins_after])

theorem pos_ins_after (b n a s : Nat) (r : List (Nat × Nat)) (hn : 0 < n) (hs : 0 < s)
    (hr : ∀ c ∈ r, 0 < c.2) : ∀ c ∈ ins_after b n a s r, 0 < c.2 := by
  induction r generalizing a s with
  | nil =>
    simp only [ins_after]
    split_ifs <;> simp <;> omega
  | cons c r ih =>
    have hc : 0 < c.2 := hr c (List.mem_cons_self _ _)
    have hr' : ∀ d ∈ r, 0 < d.2 := fun d hd => hr d (List.mem_cons_of_mem _ hd)
    have ih' := ih c.1 c.2 hc hr'
    simp only [ins_after]
    split_ifs
    all_goals
      simp only [List.forall_mem_cons]
      refine ⟨by omega, ?_⟩
      first
        | exact ih'
        | exact hr'
        | exact ⟨hc, hr'⟩
        | exact ⟨by omega, hr'⟩
        | exact ⟨by omega, hc, hr'⟩

theorem pos_ins (b n : Nat) (l : List (Nat × Nat)) (hn : 0 < n)
    (hl : ∀ c ∈ l, 0 < c.2) : ∀ c ∈ ins b n l, 0 < c.2 := by
  cases l with
  | nil => simp [ins]; omega
  | cons c r =>
    have hc : 0 < c.2 := hl c (List.mem_cons_self _ _)
    have hr' : ∀ d ∈ r, 0 < d.2 := fun d hd => hl d (List.mem_cons_of_mem _ hd)
    simp only [ins]
    split_ifs
    · simp only [List.forall_mem_cons]; exact ⟨by omega, hr'⟩
    · simp only [List.forall_mem_cons]; exact ⟨by omega, hc, hr'⟩
    · exact pos_ins_after b n c.1 c.2 r hn hc hr'

theorem take_fit_cnt (req : Nat) (l l' : List (Nat × Nat)) (p : Nat)
    (h : take_fit req l = some (p, l')) (x : Nat) :
    cnt l x = cnt l' x + cnt [(p, req)] x := by
  induction l generalizing l' with
  | nil => simp [take_fit] at h
  | cons b r ih =>
    simp only [take_fit] at h
    split_ifs at h with h1 h2
    · cases hq : take_fit req r with
      | none => simp [hq] at h
      | some q =>
        obtain ⟨q1, q2⟩ := q
        simp only [hq, Option.map_some', Option.some.injEq, Prod.mk.injEq] at h
        obtain ⟨rfl, rfl⟩ := h
        have := ih q2 hq
        simp only [cnt] at this ⊢
        omega
    · simp only [Option.some.injEq, Prod.mk.injEq] at h
      obtain ⟨rfl, rfl⟩ := h
      simp only [cnt]
      split_ifs <;> omega
    · simp only [Option.some.injEq, Prod.mk.injEq] at h
      obtain ⟨rfl, rfl⟩ := h
      simp only [cnt]
      split_ifs <;> omega

theorem take_fit_total (req : Nat) (l l' : List (Nat × Nat)) (p : Nat)
    (h : take_fit req l = some (p, l')) : total l = total l' + req := by
  induction l generalizing l' with
  | nil => simp [take_fit] at h
  | cons b r ih =>
    simp only [take_fit] at h
    split_ifs at h with h1 h2
    · cases hq : take_fit req r with
      | none => simp [hq] at h
      | some q =>
        obtain ⟨q1, q2⟩ := q
        simp only [hq, Option.map_some', Option.some.injEq, Prod.mk.injEq] at h
        obtain ⟨rfl, rfl⟩ := h
        have := ih q2 hq
        simp only [total_cons] at this ⊢
        omega
    · simp only [Option.some.injEq, Prod.mk.injEq] at h
      obtain ⟨rfl, rfl⟩ := h
      simp only [total_cons]
      omega
    · simp only [Option.some.injEq, Prod.mk.injEq] at h
      obtain ⟨rfl, rfl⟩ := h
      simp only [total_cons]
      omega

theorem take_fit_pos (req : Nat) (l l' : List (Nat × Nat)) (p : Nat)
    (h : take_fit req l = some (p, l')) (hl : ∀ c ∈ l, 0 < c.2) : ∀ c ∈ l', 0 < c.2 := by
  induction l generalizing l' with
  | nil => simp [take_fit] at h
  | cons b r ih =>
    have hb : 0 < b.2 := hl b (List.mem_cons_self _ _)
    have hr : ∀ d ∈ r, 0 < d.2 := fun d hd => hl d (List.mem_cons_of_mem _ hd)
    simp only [take_fit] at h
    split_ifs at h with h1 h2
    · cases hq : take_fit req r with
      | none => simp [hq] at h
      | some q =>
        obtain ⟨q1, q2⟩ := q
        simp only [hq, Option.map_some', Option.some.injEq, Prod.mk.injEq] at h
        obtain ⟨rfl, rfl⟩ := h
        simp only [List.forall_mem_cons]
        exact ⟨hb, ih q2 hq hr⟩
    · simp only [Option.some.injEq, Prod.mk.injEq] at h
      obtain ⟨rfl, rfl⟩ := h
      exact hr
    · simp only [Option.some.injEq, Prod.mk.injEq] at h
      obtain ⟨rfl, rfl⟩ := h
      simp only [List.forall_mem_cons]
      exact ⟨by show 0 < b.2 - req; omega, hr⟩

theorem cnt_pos_of_mem (l : List (Nat × Nat)) (b : Nat × Nat) (hb : b ∈ l) (x : Nat)
    (h1 : b.1 ≤ x) (h2 : x < b.1 + b.2) : 0 < cnt l x := by
  induction l with
  | nil => simp at hb
  | cons c r ih =>
    simp only [List.mem_cons] at hb
    simp only [cnt]
    rcases hb with rfl | hb
    · rw [if_pos ⟨h1, h2⟩]; omega
    · have := ih hb; omega

theorem cnt_zero_of_forall (l : List (Nat × Nat)) (x : Nat)
    (h : ∀ c ∈ l, ¬ (c.1 ≤ x ∧ x < c.1 + c.2)) : cnt l x = 0 := by
  induction l with
  | nil => rfl
  | cons c r ih =>
    simp only [cnt]
    rw [if_neg (h c (List.mem_cons_self _ _)), ih (fun d hd => h d (List.mem_cons_of_mem _ hd))]

theorem not_mem_starts_of_cnt_zero (l : List (Nat × Nat)) (hpos : ∀ c ∈ l, 0 < c.2) (p : Nat)
    (h : cnt l p = 0) : p ∉ starts l := by
  intro hp
  simp only [starts, List.mem_map] at hp
  obtain ⟨b, hb, rfl⟩ := hp
  have := cnt_pos_of_mem l b hb b.1 (le_refl _) (by have := hpos b hb; omega)
  omega

theorem nodup_starts (l : List (Nat × Nat)) (hpos : ∀ c ∈ l, 0 < c.2)
    (h1 : ∀ x, cnt l x ≤ 1) : (starts l).Nodup := by
  induction l with
  | nil => simp [starts]
  | cons b r ih =>
    have hb : 0 < b.2 := hpos b (List.mem_cons_self _ _)
    have hr : ∀ d ∈ r, 0 < d.2 := fun d hd => hpos d (List.mem_cons_of_mem _ hd)
    simp only [starts, List.map_cons, List.nodup_cons]
    constructor
    · apply not_mem_starts_of_cnt_zero r hr
      have := h1 b.1
      simp only [cnt] at this
      rw [if_pos ⟨le_refl _, by omega⟩] at this
      omega
    · apply ih hr
      intro x
      have := h1 x
      simp only [cnt] at this
      omega

theorem cnt_le_one_of_pairwise (l : List (Nat × Nat)) (h : l.Pairwise Disj) (x : Nat) :
    cnt l x ≤ 1 := by
  induction l with
  | nil => simp [cnt]
  | cons b r ih =>
    rw [List.pairwise_cons] at h
    have ih' := ih h.2
    simp only [cnt]
    split_ifs with hx
    · have : cnt r x = 0 := by
        apply cnt_zero_of_forall
        intro c hc hcx
        have := h.1 c hc
        unfold Disj at this
        omega
      omega
    · omega

theorem pairwise_of_cnt_le_one (l : List (Nat × Nat)) (h : ∀ x, cnt l x ≤ 1) :
    l.Pairwise Disj := by
  induction l with
  | nil => exact List.Pairwise.nil
  | cons b r ih =>
    rw [List.pairwise_cons]
    constructor
    · intro c hc
      by_contra hd
      unfold Disj at hd
      have h1 := h (max b.1 c.1)
      simp only [cnt] at h1
      rw [if_pos ⟨le_max_left _ _, by omega⟩] at h1
      have := cnt_pos_of_mem r c hc (max b.1 c.1) (le_max_right _ _) (by omega)
      omega
    · apply ih
      intro x
      have := h x
      simp only [cnt] at this
      omega

theorem tbl_erase_of_not_mem (t : List (Nat × Nat)) (p : Nat) (h : p ∉ starts t) :
    tbl_erase t p = t := by
  induction t with
  | nil => rfl
  | cons b t ih =>
    obtain ⟨k, v⟩ := b
    simp only [starts, List.map_cons, List.mem_cons, not_or] at h
    have hk : ¬ k = p := fun e => h.1 e.symm
    simp only [tbl_erase, if_neg hk]
    rw [ih h.2]

theorem tbl_erase_mem (t : List (Nat × Nat)) (p : Nat) : ∀ c ∈ tbl_erase t p, c ∈ t := by
  induction t with
  | nil => simp [tbl_erase]
  | cons b t ih =>
    obtain ⟨k, v⟩ := b
    intro c hc
    simp only [tbl_erase] at hc
    split_ifs at hc
    · exact List.mem_cons_of_mem _ (ih c hc)
    · simp only [List.mem_cons] at hc ⊢
      rcases hc with rfl | hc
      · exact Or.inl rfl
      · exact Or.inr (ih c hc)

theorem tbl_find_mem (t : List (Nat × Nat)) (p n : Nat) (h : tbl_find t p = some n) :
    (p, n) ∈ t := by
  induction t with
  | nil => simp [tbl_find] at h
  | cons b t ih =>
    obtain ⟨k, v⟩ := b
    simp only [tbl_find] at h
    split_ifs at h with hk
    · cases h; subst hk; exact List.mem_cons_self _ _
    · exact List.mem_cons_of_mem _ (ih h)

theorem tbl_find_none_of_not_mem (t : List (Nat × Nat)) (p : Nat) (h : p ∉ starts t) :
    tbl_find t p = none := by
  induction t with
  | nil => rfl
  | cons b t ih =>
    obtain ⟨k, v⟩ := b
    simp only [starts, List.map_cons, List.mem_cons, not_or] at h
    have hk : ¬ k = p := fun e => h.1 e.symm
    simp only [tbl_find, if_neg hk]
    exact ih h.2

theorem tbl_find_cnt (t : List (Nat × Nat)) (p n : Nat) (hnd : (starts t).Nodup)
    (h : tbl_find t p = some n) (x : Nat) :
    cnt t x = cnt (tbl_erase t p) x + cnt [(p, n)] x := by
  induction t with
  | nil => simp [tbl_find] at h
  | cons b t ih =>
    obtain ⟨k, v⟩ := b
    simp only [starts, List.map_cons, List.nodup_cons] at hnd
    simp only [tbl_find] at h
    split_ifs at h with hk
    · cases h; subst hk
      simp only [tbl_erase, if_true]
      rw [tbl_erase_of_not_mem t k hnd.1]
      simp only [cnt]; omega
    · simp only [tbl_erase, if_neg hk]
      have := ih hnd.2 h
      simp only [cnt] at this ⊢
      omega

theorem tbl_find_total (t : List (Nat × Nat)) (p n : Nat) (hnd : (starts t).Nodup)
    (h : tbl_find t p = some n) : total t = total (tbl_erase t p) + n := by
  induction t with
  | nil => simp [tbl_find] at h
  | cons b t ih =>
    obtain ⟨k, v⟩ := b
    simp only [starts, List.map_cons, List.nodup_cons] at hnd
    simp only [tbl_find] at h
    split_ifs at h with hk
    · cases h; subst hk
      simp only [tbl_erase, if_true]
      rw [tbl_erase_of_not_mem t k hnd.1]
      simp only [total_cons]; omega
    · simp only [tbl_erase, if_neg hk]
      have := ih hnd.2 h
      simp only [total_cons] at this ⊢
      omega

theorem cnt_reinsert (acc l : List (Nat × Nat)) (x : Nat) :
    cnt (reinsert acc l) x = cnt acc x + cnt l x := by
  induction l generalizing acc with
  | nil => simp [reinsert, cnt]
  | cons b r ih =>
    simp only [reinsert]
    rw [ih, cnt_ins]
    simp only [cnt]; omega

theorem total_reinsert (acc l : List (Nat × Nat)) :
    total (reinsert acc l) = total acc + total l := by
  induction l generalizing acc with
  | nil => simp [reinsert, total]
  | cons b r ih =>
    simp only [reinsert]
    rw [ih, total_ins, total_cons]
    omega

theorem pos_reinsert (acc l : List (Nat × Nat)) (ha : ∀ c ∈ acc, 0 < c.2)
    (hl : ∀ c ∈ l, 0 < c.2) : ∀ c ∈ reinsert acc l, 0 < c.2 := by
  induction l generalizing acc with
  | nil => exact ha
  | cons b r ih =>
    simp only [reinsert]
    exact ih _ (pos_ins _ _ _ (hl b (List.mem_cons_self _ _)) ha)
      (fun d hd => hl d (List.mem_cons_of_mem _ hd))

theorem upd_same (f : Nat → Nat) (a v : Nat) : upd f a v a = v := by simp [upd]

theorem upd_other (f : Nat → Nat) (a v x : Nat) (h : x ≠ a) : upd f a v x = f x := by
  simp [upd, h]

theorem IsList_congr (s s' : CustomMemManager) (l : List (Nat × Nat)) (p : Nat)
    (h : ∀ x ∈ starts l, s'.mem_next x = s.mem_next x ∧ s'.mem_size x = s.mem_size x)
    (hl : IsList s p l) : IsList s' p l := by
  induction l generalizing p with
  | nil => exact hl
  | cons b r ih =>
    obtain ⟨h1, h2, h3, h4⟩ := hl
    have hb := h b.1 (by simp [starts])
    refine ⟨h1, h2, by rw [hb.2]; exact h3, ?_⟩
    rw [hb.1]
    exact ih _ (fun x hx => h x (by simp only [starts, List.map_cons, List.mem_cons]; exact Or.inr hx)) h4

theorem IsList_zero (s : CustomMemManager) (l : List (Nat × Nat)) (h : IsList s 0 l) : l = [] := by
  cases l with
  | nil => rfl
  | cons b r => exact absurd h.1.symm h.2.1

theorem IsList_unique (s : CustomMemManager) (l1 l2 : List (Nat × Nat)) (p : Nat)
    (h1 : IsList s p l1) (h2 : IsList s p l2) : l1 = l2 := by
  induction l1 generalizing p l2 with
  | nil =>
    have : p = 0 := h1
    subst this
    exact (IsList_zero s l2 h2).symm
  | cons b r ih =>
    cases l2 with
    | nil =>
      have : p = 0 := h2
      exact absurd (h1.1.symm.trans this) h1.2.1
    | cons c r2 =>
      obtain ⟨a1, a2, a3, a4⟩ := h1
      obtain ⟨b1, b2, b3, b4⟩ := h2
      have e : b.1 = c.1 := a1.symm.trans b1
      have e2 : b.2 = c.2 := by rw [← a3, ← b3, e]
      have : b = c := Prod.ext e e2
      subst this
      rw [ih _ _ a4 b4]

theorem free_list_from_of_IsList (s : CustomMemManager) (l : List (Nat × Nat)) (p fuel : Nat)
    (hl : IsList s p l) (hf : l.length < fuel) : free_list_from s fuel p = some l := by
  induction l generalizing p fuel with
  | nil =>
    have : p = 0 := hl
    subst this
    cases fuel with
    | zero => simp at hf
    | succ f => simp [free_list_from]
  | cons b r ih =>
    obtain ⟨h1, h2, h3, h4⟩ := hl
    cases fuel with
    | zero => simp at hf
    | succ f =>
      simp only [List.length_cons, Nat.add_lt_add_iff_right] at hf
      subst h1
      simp only [free_list_from, if_neg h2, ih _ _ h4 hf, Option.map_some', h3]

theorem IsList_of_free_list_from (s : CustomMemManager) (l : List (Nat × Nat)) (p fuel : Nat)
    (h : free_list_from s fuel p = some l) : IsList s p l := by
  induction fuel generalizing p l with
  | zero => simp [free_list_from] at h
  | succ f ih =>
    simp only [free_list_from] at h
    split_ifs at h with hp
    · cases h; exact hp
    · cases hq : free_list_from s f (s.mem_next p) with
      | none => simp [hq] at h
      | some q =>
        simp only [hq, Option.map_some', Option.some.injEq] at h
        subst h
        exact ⟨rfl, hp, rfl, ih _ _ hq⟩

/-- The writes of the linking step touch only the headers of `block` and `prev`. -/
theorem add_block_link_frame (st : CustomMemManager) (b n prev : Nat) (hp : prev ≠ 0) :
    (∀ x, x ≠ b → x ≠ prev →
      (add_block_link st b n prev).mem_next x = st.mem_next x ∧
      (add_block_link st b n prev).mem_size x = st.mem_size x) ∧
    (add_block_link st b n prev).top = st.top ∧
    (add_block_link st b n prev).alloc_blocks = st.alloc_blocks ∧
    (add_block_link st b n prev).align_size = st.align_size := by
  unfold add_block_link
  simp only [if_neg hp]
  refine ⟨?_, ?_, ?_, ?_⟩
  · intro x hxb hxp
    split_ifs <;> simp [upd, hxb, hxp]
  all_goals split_ifs <;> rfl

theorem get_prev_loop_mem (st : CustomMemManager) (b : Nat) (r : List (Nat × Nat))
    (a fuel prev : Nat) (ha : a ≠ 0) (hl : IsList st (st.mem_next a) r)
    (h : get_prev_loop st b fuel a = some prev) : prev ∈ a :: starts r := by
  induction r generalizing a fuel with
  | nil =>
    have h0 : st.mem_next a = 0 := hl
    cases fuel with
    | zero => simp [get_prev_loop] at h
    | succ f =>
      simp [get_prev_loop, h0] at h
      simp [h]
  | cons c r ih =>
    obtain ⟨h1, h2, h3, h4⟩ := hl
    cases fuel with
    | zero => simp [get_prev_loop] at h
    | succ f =>
      simp only [get_prev_loop] at h
      rw [h1] at h
      simp only [ne_eq, h2, not_false_eq_true, if_true] at h
      split_ifs at h
      · cases h; simp
      · have := ih c.1 f h2 h4 h
        simp only [starts, List.map_cons, List.mem_cons] at this ⊢
        exact Or.inr this

theorem get_prev_loop_some (st : CustomMemManager) (b : Nat) (r : List (Nat × Nat))
    (a fuel : Nat) (hl : IsList st (st.mem_next a) r) (hf : r.length < fuel) :
    ∃ prev, get_prev_loop st b fuel a = some prev := by
  induction r generalizing a fuel with
  | nil =>
    have h0 : st.mem_next a = 0 := hl
    cases fuel with
    | zero => simp at hf
    | succ f => exact ⟨a, by simp [get_prev_loop, h0]⟩
  | cons c r ih =>
    obtain ⟨h1, h2, h3, h4⟩ := hl
    cases fuel with
    | zero => simp at hf
    | succ f =>
      simp only [List.length_cons, Nat.add_lt_add_iff_right] at hf
      simp only [get_prev_loop]
      rw [h1]
      simp only [ne_eq, h2, not_false_eq_true, if_true]
      split_ifs
      · exact ⟨a, rfl⟩
      · exact ih c.1 f h4 hf

theorem IsList_zero_not_mem (st : CustomMemManager) (l : List (Nat × Nat)) (p : Nat)
    (h : IsList st p l) : 0 ∉ starts l := by
  induction l generalizing p with
  | nil => simp [starts]
  | cons d l ih =>
    simp only [starts, List.map_cons, List.mem_cons, not_or]
    exact ⟨fun e => h.2.1 e.symm, ih _ h.2.2.2⟩

theorem link_after_sim (st : CustomMemManager) (b n : Nat) (hn : 0 < n) (hb0 : b ≠ 0)
    (r : List (Nat × Nat)) (a s fuel prev : Nat)
    (ha : a ≠ 0) (hs : st.mem_size a = s) (hl : IsList st (st.mem_next a) r)
    (hb : b ∉ starts ((a, s) :: r)) (hnd : (starts ((a, s) :: r)).Nodup)
    (h : get_prev_loop st b fuel a = some prev) :
    IsList (add_block_link st b n prev) a (ins_after b n a s r) := by
  induction r generalizing a s fuel with
  | nil =>
    have h0 : st.mem_next a = 0 := hl
    cases fuel with
    | zero => simp [get_prev_loop] at h
    | succ f =>
      simp [get_prev_loop, h0] at h
      subst h
      simp only [starts, List.map_cons, List.map_nil, List.mem_cons, List.mem_singleton,
        List.not_mem_nil, or_false] at hb
      have hab : a ≠ b := fun e => hb e.symm
      simp only [ins_after]
      unfold add_block_link
      simp only [ne_eq, ha, not_false_eq_true, if_true, h0, if_false]
      have hbn : ¬ b + n = 0 := by omega
      simp only [hbn, if_false, upd_other _ _ _ _ hab, hs]
      split_ifs with h1
      · simp [IsList, upd, ha, hab]
      · simp [IsList, upd, ha, hab, hb, hb0, hs]
  | cons c r ih =>
    obtain ⟨h1, h2, h3, h4⟩ := hl
    simp only [starts, List.map_cons, List.mem_cons, not_or] at hb
    simp only [starts, List.map_cons, List.nodup_cons, List.mem_cons, not_or] at hnd
    obtain ⟨hba, hbc, hbr⟩ := hb
    obtain ⟨⟨hac, har⟩, hcr, hndr⟩ := hnd
    cases fuel with
    | zero => simp [get_prev_loop] at h
    | succ f =>
      simp only [get_prev_loop] at h
      rw [h1] at h
      simp only [ne_eq, h2, not_false_eq_true, if_true] at h
      split_ifs at h with hgt
      · -- the scan stops at `a`
        have e : a = prev := Option.some.inj h
        subst e
        have hab : a ≠ b := fun e => hba e.symm
        have hcb : c.1 ≠ b := fun e => hbc e.symm
        have hca : c.1 ≠ a := fun e => hac e.symm
        have frame : ∀ (st' : CustomMemManager),
            (∀ x, x ≠ a → x ≠ b → st'.mem_next x = st.mem_next x ∧
              st'.mem_size x = st.mem_size x) →
            IsList st' (st.mem_next c.1) r := by
          intro st' hst'
          apply IsList_congr st st' r _ _ h4
          intro x hx
          exact hst' x (fun e => har (e ▸ hx)) (fun e => hbr (e ▸ hx))
        simp only [ins_after, if_pos hgt]
        unfold add_block_link
        simp only [ne_eq, ha, not_false_eq_true, if_true, h1, if_false]
        by_cases hm : b + n = c.1
        · simp only [hm, if_true, upd_other _ _ _ _ hab, hs, upd_same]
          by_cases hp : a + s = b
          · simp only [hp, if_true]
            refine ⟨rfl, ha, by simp [upd, h3], ?_⟩
            simp only [upd_same]
            apply frame
            intro x hxa hxb
            simp [upd, hxa, hxb]
          · simp only [hp, if_false]
            refine ⟨rfl, ha, by simp [upd, hab, hs], ?_⟩
            simp only [upd_same]
            refine ⟨rfl, hb0, by simp [upd, h3], ?_⟩
            simp only [upd_other _ _ _ _ hab.symm, upd_same]
            apply frame
            intro x hxa hxb
            simp [upd, hxa, hxb]
        · simp only [hm, if_false, upd_other _ _ _ _ hab, hs, upd_same]
          by_cases hp : a + s = b
          · simp only [hp, if_true]
            refine ⟨rfl, ha, by simp [upd], ?_⟩
            simp only [upd_same]
            refine ⟨rfl, h2, by simp [upd, hca, hcb, h3], ?_⟩
            simp only [upd_other _ _ _ _ hca, upd_other _ _ _ _ hcb]
            apply frame
            intro x hxa hxb
            simp [upd, hxa, hxb]
          · simp only [hp, if_false]
            refine ⟨rfl, ha, by simp [upd, hab, hs], ?_⟩
            simp only [upd_same]
            refine ⟨rfl, hb0, by simp [upd], ?_⟩
            simp only [upd_other _ _ _ _ hab.symm, upd_same]
            refine ⟨rfl, h2, by simp [upd, hcb, h3], ?_⟩
            simp only [upd_other _ _ _ _ hca, upd_other _ _ _ _ hcb]
            apply frame
            intro x hxa hxb
            simp [upd, hxa, hxb]
      · -- the scan moves on to `c`
        simp only [ins_after, if_neg hgt]
        have hmem := get_prev_loop_mem st b r c.1 f prev h2 h4 h
        have hpa : a ≠ prev := by
          intro e
          rw [← e] at hmem
          simp only [List.mem_cons] at hmem
          rcases hmem with e2 | e2
          · exact hac e2
          · exact har e2
        have hp0 : prev ≠ 0 := by
          intro e
          rw [e] at hmem
          simp only [List.mem_cons] at hmem
          rcases hmem with e2 | e2
          · exact h2 e2.symm
          · exact IsList_zero_not_mem st r _ h4 e2
        have hfr := (add_block_link_frame st b n prev hp0).1 a (fun e => hba e.symm) hpa
        refine ⟨rfl, ha, by rw [hfr.2]; exact hs, ?_⟩
        rw [hfr.1]
        show IsList (add_block_link st b n prev) (st.mem_next a) (ins_after b n c.1 c.2 r)
        rw [h1]
        exact ih c.1 c.2 f h2 h3 h4
          (by simp only [starts, List.map_cons, List.mem_cons, not_or]; exact ⟨hbc, hbr⟩)
          (by simp only [starts, List.map_cons, List.nodup_cons]; exact ⟨hcr, hndr⟩) h

theorem add_block_zero (fuel : Nat) (st : CustomMemManager) (b : Nat) :
    add_block fuel st b 0 = Res.ok () st := by
  simp [add_block]

theorem add_block_ok_guard (fuel : Nat) (st st' : CustomMemManager) (b n : Nat) (hn : 0 < n)
    (h : add_block fuel st b n = Res.ok () st') :
    sizeof_ptr + sizeof_size_t ≤ n ∧ b % st.align_size = 0 := by
  unfold add_block at h
  have hn0 : ¬ n = 0 := by omega
  simp only [hn0, if_false] at h
  split_ifs at h with h1 h2 h3
  · refine ⟨by omega, ?_⟩
    simpa [check_alignment] using h2
  · refine ⟨by omega, ?_⟩
    simpa [check_alignment] using h2

theorem add_block_sim (fuel : Nat) (st st' : CustomMemManager) (b n : Nat)
    (l : List (Nat × Nat)) (hl : IsList st st.top l) (hb0 : b ≠ 0) (hn : 0 < n)
    (hb : b ∉ starts l) (hnd : (starts l).Nodup)
    (h : add_block fuel st b n = Res.ok () st') :
    IsList st' st'.top (ins b n l) ∧
    st'.alloc_blocks = st.alloc_blocks ∧ st'.align_size = st.align_size ∧
    (∀ x, x ≠ b → x ∉ starts l →
      st'.mem_next x = st.mem_next x ∧ st'.mem_size x = st.mem_size x) := by
  unfold add_block at h
  have hn0 : ¬ n = 0 := by omega
  simp only [hn0, if_false] at h
  split_ifs at h with h1 h2 h3
  · -- empty free list
    cases h
    rw [h3] at hl
    have : l = [] := IsList_zero st l hl
    subst this
    refine ⟨?_, rfl, rfl, ?_⟩
    · simp [IsList, ins, upd, hb0, h3]
    · intro x hx _
      simp [upd, hx]
  · cases l with
    | nil => exact absurd hl h3
    | cons c r =>
      obtain ⟨e1, e2, e3, e4⟩ := hl
      simp only [starts, List.map_cons, List.mem_cons, not_or] at hb
      simp only [starts, List.map_cons, List.nodup_cons] at hnd
      obtain ⟨hbc, hbr⟩ := hb
      have hcb : c.1 ≠ b := fun e => hbc e.symm
      unfold get_prev at h
      split_ifs at h with hgt
      · -- the block goes in front of the head
        simp only [Option.some.injEq] at h
        cases h
        rw [e1] at hgt
        have frame : ∀ (st1 : CustomMemManager),
            (∀ x, x ≠ b → st1.mem_next x = st.mem_next x ∧
              st1.mem_size x = st.mem_size x) →
            IsList st1 (st.mem_next c.1) r := by
          intro st1 hst1
          apply IsList_congr st st1 r _ _ e4
          intro x hx
          exact hst1 x (fun e => hbr (e ▸ hx))
        unfold add_block_link
        simp only [ne_eq, not_true_eq_false, if_false, if_true, e1]
        simp only [ins, if_pos hgt]
        by_cases hm : b + n = c.1
        · simp only [hm, if_true]
          refine ⟨⟨rfl, hb0, by simp [upd, e3], ?_⟩, trivial, trivial, ?_⟩
          · simp only [upd_same]
            apply frame
            intro x hxb
            simp [upd, hxb]
          · intro x hx _
            simp [upd, hx]
        · simp only [hm, if_false]
          refine ⟨⟨rfl, hb0, by simp [upd], ?_⟩, trivial, trivial, ?_⟩
          · simp only [upd_same]
            refine ⟨rfl, e2, by simp [upd, hcb, e3], ?_⟩
            simp only [upd_other _ _ _ _ hcb]
            apply frame
            intro x hxb
            simp [upd, hxb]
          · intro x hx _
            simp [upd, hx]
      · -- the scan starts at the head
        rw [e1] at hgt h
        cases hq : get_prev_loop st b fuel c.1 with
        | none => simp [hq] at h
        | some prev =>
          simp only [hq, Res.ok.injEq, true_and] at h
          subst h
          have hmem := get_prev_loop_mem st b r c.1 fuel prev e2 e4 hq
          have hp0 : prev ≠ 0 := by
            intro e
            rw [e] at hmem
            simp only [List.mem_cons] at hmem
            rcases hmem with e5 | e5
            · exact e2 e5.symm
            · exact IsList_zero_not_mem st r _ e4 e5
          obtain ⟨f1, f2, f3, f4⟩ := add_block_link_frame st b n prev hp0
          refine ⟨?_, f3, f4, ?_⟩
          · rw [f2, e1]
            simp only [ins, if_neg hgt]
            exact link_after_sim st b n hn hb0 r c.1 c.2 fuel prev e2 e3 e4
              (by simp only [starts, List.map_cons, List.mem_cons, not_or]; exact ⟨hbc, hbr⟩)
              (by simp only [starts, List.map_cons, List.nodup_cons]; exact hnd) hq
          · intro x hxb hxl
            apply f1 x hxb
            intro e
            apply hxl
            rw [e]
            simpa [starts] using hmem

theorem add_block_total (fuel : Nat) (st : CustomMemManager) (b n : Nat)
    (l : List (Nat × Nat)) (hl : IsList st st.top l) (hf : l.length < fuel)
    (hn : sizeof_ptr + sizeof_size_t ≤ n) (hal : b % st.align_size = 0) :
    ∃ st', add_block fuel st b n = Res.ok () st' := by
  unfold add_block
  have hn0 : ¬ n = 0 := by simp [sizeof_ptr, sizeof_size_t] at hn; omega
  have hn1 : ¬ n < sizeof_ptr + sizeof_size_t := by omega
  have hn2 : check_alignment st b = false := by simp [check_alignment, hal]
  simp only [hn0, hn1, hn2, if_false, Bool.false_eq_true]
  split_ifs with h3
  · exact ⟨_, rfl⟩
  · cases l with
    | nil => exact absurd hl h3
    | cons c r =>
      obtain ⟨e1, e2, e3, e4⟩ := hl
      unfold get_prev
      split_ifs
      · exact ⟨_, rfl⟩
      · rw [e1]
        obtain ⟨prev, hp⟩ := get_prev_loop_some st b r c.1 fuel e4
          (by simp only [List.length_cons] at hf; omega)
        rw [hp]
        exact ⟨_, rfl⟩

theorem add_block_fast_zero (st : CustomMemManager) (b : Nat) :
    add_block_fast st b 0 = Res.ok () st := by
  simp [add_block_fast]

theorem add_block_fast_sim (st st' : CustomMemManager) (b n : Nat)
    (l : List (Nat × Nat)) (hl : IsList st st.top l) (hb0 : b ≠ 0) (hn : 0 < n)
    (hb : b ∉ starts l) (h : add_block_fast st b n = Res.ok () st') :
    IsList st' st'.top ((b, n) :: l) ∧
    st'.alloc_blocks = st.alloc_blocks ∧ st'.align_size = st.align_size ∧
    (∀ x, x ≠ b → st'.mem_next x = st.mem_next x ∧ st'.mem_size x = st.mem_size x) := by
  unfold add_block_fast at h
  have hn0 : ¬ n = 0 := by omega
  simp only [hn0, if_false] at h
  split_ifs at h with h1 h2
  cases h
  refine ⟨⟨rfl, hb0, by simp [upd], ?_⟩, rfl, rfl, ?_⟩
  · simp only [upd_same]
    apply IsList_congr st _ l _ _ hl
    intro x hx
    have : x ≠ b := fun e => hb (e ▸ hx)
    simp [upd, this]
  · intro x hx
    simp [upd, hx]

theorem malloc_take_frame (st : CustomMemManager) (req prev ptr bs : Nat) (x : Nat)
    (h1 : x ≠ prev) (h2 : x ≠ ptr + req ∨ req = bs) :
    (malloc_take st req prev ptr bs).mem_next x = st.mem_next x ∧
    (malloc_take st req prev ptr bs).mem_size x = st.mem_size x := by
  unfold malloc_take
  by_cases hb : req = bs
  · simp only [hb, if_true]
    split_ifs <;> simp [upd, h1]
  · have h3 : x ≠ ptr + req := by
      rcases h2 with h2 | h2
      · exact h2
      · exact absurd h2 hb
    simp only [hb, if_false]
    split_ifs <;> simp [upd, h1, h3]

theorem malloc_take_fields (st : CustomMemManager) (req prev ptr bs : Nat) :
    (malloc_take st req prev ptr bs).alloc_blocks = tbl_assign st.alloc_blocks ptr req ∧
    (malloc_take st req prev ptr bs).align_size = st.align_size := by
  unfold malloc_take
  constructor
  · simp only
    split_ifs <;> rfl
  · simp only
    split_ifs <;> rfl

theorem malloc_take_top (st : CustomMemManager) (req prev ptr bs : Nat)
    (hp : prev ≠ 0) (ht : st.top ≠ ptr) :
    (malloc_take st req prev ptr bs).top = st.top := by
  unfold malloc_take
  simp only [ne_eq, hp, not_false_eq_true, if_true, ht, if_false]
  split_ifs <;> rfl

theorem malloc_search_after (st : CustomMemManager) (req : Nat) (hreq : 0 < req)
    (r : List (Nat × Nat)) (a s fuel prev p bs : Nat)
    (ha : a ≠ 0) (hs : st.mem_size a = s) (hl : IsList st (st.mem_next a) r)
    (hnd : (starts ((a, s) :: r)).Nodup)
    (hin : ∀ blk ∈ r, ∀ x ∈ starts ((a, s) :: r), ¬ (blk.1 < x ∧ x < blk.1 + blk.2))
    (htop : st.top ∉ starts r) (hp : p ≠ 0)
    (h : malloc_search st req fuel a (st.mem_next a)
      (if st.mem_next a ≠ 0 then st.mem_size (st.mem_next a) else 0) = some (prev, p, bs)) :
    prev ∈ starts ((a, s) :: r) ∧ (p, bs) ∈ r ∧ req ≤ bs ∧
    ∃ r', take_fit req r = some (p, r') ∧
      IsList (malloc_take st req prev p bs) a ((a, s) :: r') := by
  induction r generalizing a s fuel with
  | nil =>
    have h0 : st.mem_next a = 0 := hl
    cases fuel with
    | zero => simp [malloc_search] at h
    | succ f =>
      simp only [malloc_search, h0, ne_eq, not_true_eq_false, false_and, if_false,
        Option.some.injEq, Prod.mk.injEq] at h
      exact absurd h.2.1.symm hp
  | cons c r ih =>
    obtain ⟨e1, e2, e3, e4⟩ := hl
    simp only [starts, List.map_cons, List.nodup_cons, List.mem_cons, not_or] at hnd
    obtain ⟨⟨hac, har⟩, hcr, hndr⟩ := hnd
    simp only [starts, List.map_cons, List.mem_cons, not_or] at htop
    cases fuel with
    | zero => simp [malloc_search] at h
    | succ f =>
      rw [e1] at h
      simp only [ne_eq, e2, not_false_eq_true, if_true, e3] at h
      simp only [malloc_search, ne_eq, e2, not_false_eq_true, true_and] at h
      by_cases hlt : c.2 < req
      · -- too small: the search moves on
        simp only [hlt, if_true] at h
        have ih' := ih c.1 c.2 f e2 e3 e4
          (by simp only [starts, List.map_cons, List.nodup_cons]; exact ⟨hcr, hndr⟩)
          (by
            intro blk hblk x hx
            apply hin blk (List.mem_cons_of_mem _ hblk) x
            simp only [starts, List.map_cons, List.mem_cons] at hx ⊢
            exact Or.inr hx)
          htop.2 h
        obtain ⟨i1, i2, i3, r', i4, i5⟩ := ih'
        have hpa : a ≠ prev := by
          intro e
          rw [← e] at i1
          simp only [starts, List.map_cons, List.mem_cons] at i1
          rcases i1 with e5 | e5
          · exact hac e5
          · exact har e5
        have hnf : a ≠ p + req ∨ req = bs := by
          by_cases hb : req = bs
          · exact Or.inr hb
          · left
            intro e
            have := hin (p, bs) (List.mem_cons_of_mem _ i2) a
              (by simp [starts])
            apply this
            simp only
            omega
        have hfr := malloc_take_frame st req prev p bs a hpa hnf
        refine ⟨?_, List.mem_cons_of_mem _ i2, i3, c :: r', ?_, ?_⟩
        · simp only [starts, List.map_cons, List.mem_cons] at i1 ⊢
          exact Or.inr i1
        · simp only [take_fit, hlt, if_true, i4, Option.map_some']
        · refine ⟨rfl, ha, by rw [hfr.2]; exact hs, ?_⟩
          rw [hfr.1]
          show IsList (malloc_take st req prev p bs) (st.mem_next a) (c :: r')
          rw [e1]
          exact i5
      · -- the block `c` is taken
        simp only [hlt, if_false, Option.some.injEq, Prod.mk.injEq] at h
        obtain ⟨h1, h2, h3⟩ := h
        subst h1 h2 h3
        have hca : c.1 ≠ a := fun e => hac e.symm
        have frame : ∀ (st' : CustomMemManager),
            (∀ x, x ∈ starts r → st'.mem_next x = st.mem_next x ∧
              st'.mem_size x = st.mem_size x) →
            IsList st' (st.mem_next c.1) r := by
          intro st' hst'
          exact IsList_congr st st' r _ hst' e4
        refine ⟨by simp [starts], List.mem_cons_self _ _, by omega, ?_⟩
        by_cases heq : c.2 = req
        · refine ⟨r, by simp [take_fit, heq], ?_⟩
          unfold malloc_take
          simp only [heq, if_true, ne_eq, ha, not_false_eq_true]
          refine ⟨rfl, ha, hs, ?_⟩
          simp only [upd_same]
          apply frame
          intro x hx
          have : x ≠ a := fun e => har (e ▸ hx)
          simp [upd, this]
        · have hgt : req < c.2 := by omega
          have hnf0 : c.1 + req ≠ 0 := by omega
          have hnfa : c.1 + req ≠ a := by
            intro e
            apply hin c (List.mem_cons_self _ _) a (by simp [starts])
            omega
          have hnfr : c.1 + req ∉ starts r := by
            intro e
            apply hin c (List.mem_cons_self _ _) (c.1 + req)
              (by simp only [starts, List.map_cons, List.mem_cons]; exact Or.inr (Or.inr e))
            omega
          have hne : ¬ req = c.2 := fun e => heq e.symm
          refine ⟨(c.1 + req, c.2 - req) :: r, by simp [take_fit, hlt, heq], ?_⟩
          unfold malloc_take
          simp only [hne, if_false, htop.1]
          refine ⟨rfl, ha, by simp [upd, hnfa.symm, hs], ?_⟩
          simp only [upd_same]
          refine ⟨rfl, hnf0, by simp [upd, e3], ?_⟩
          simp only [upd_other _ _ _ _ hnfa, upd_same]
          apply frame
          intro x hx
          have h1 : x ≠ a := fun e => har (e ▸ hx)
          have h2 : x ≠ c.1 + req := fun e => hnfr (e ▸ hx)
          simp [upd, h1, h2]

theorem req_size_of_ge (a N k : Nat) : sizeof_ptr + sizeof_size_t ≤ req_size_of a N k := by
  unfold req_size_of
  simp only
  split_ifs <;> omega

theorem malloc_sim (fuel : Nat) (st st' : CustomMemManager) (N k p : Nat)
    (l : List (Nat × Nat)) (hl : IsList st st.top l) (hnd : (starts l).Nodup)
    (hin : ∀ blk ∈ l, ∀ x ∈ starts l, ¬ (blk.1 < x ∧ x < blk.1 + blk.2))
    (h : malloc fuel st N k = Res.ok p st') :
    ∃ l', take_fit (req_size_of st.align_size N k) l = some (p, l') ∧
      IsList st' st'.top l' ∧
      st'.alloc_blocks = tbl_assign st.alloc_blocks p (req_size_of st.align_size N k) ∧
      st'.align_size = st.align_size := by
  have hreq : 0 < req_size_of st.align_size N k := by
    have := req_size_of_ge st.align_size N k
    simp only [sizeof_ptr, sizeof_size_t] at this
    omega
  unfold malloc at h
  simp only at h
  generalize req_size_of st.align_size N k = req at *
  split_ifs at h with h0
  cases l with
  | nil => exact absurd hl h0
  | cons c r =>
    obtain ⟨e1, e2, e3, e4⟩ := hl
    have hnd' := hnd
    simp only [starts, List.map_cons, List.nodup_cons] at hnd'
    obtain ⟨hcr, hndr⟩ := hnd'
    cases fuel with
    | zero => simp [malloc_search] at h
    | succ f =>
      simp only [malloc_search, ne_eq, h0, not_false_eq_true, true_and] at h
      rw [e1, e3] at h
      by_cases hlt : c.2 < req
      · simp only [hlt, if_true] at h
        cases hq : malloc_search st req f c.1 (st.mem_next c.1)
            (if st.mem_next c.1 ≠ 0 then st.mem_size (st.mem_next c.1) else 0) with
        | none =>
          simp only [ne_eq] at hq
          simp only [hq] at h
          cases h
        | some q =>
          obtain ⟨prev, ptr, bs⟩ := q
          have hq' := hq
          simp only [ne_eq] at hq'
          simp only [hq'] at h
          split_ifs at h with hp0
          simp only [Res.ok.injEq] at h
          obtain ⟨h1, h2⟩ := h
          subst h1 h2
          have key := malloc_search_after st req hreq r c.1 c.2 f prev ptr bs e2 e3 e4 hnd
            (fun blk hblk x hx => hin blk (List.mem_cons_of_mem _ hblk) x hx)
            (by rw [e1]; exact hcr) hp0 hq
          obtain ⟨k1, k2, k3, r', k4, k5⟩ := key
          have hprev0 : prev ≠ 0 := by
            intro e
            rw [e] at k1
            have hz : (0 : Nat) ∉ starts (c :: r) :=
              IsList_zero_not_mem st (c :: r) c.1 ⟨rfl, e2, e3, e4⟩
            exact hz k1
          have htp : st.top ≠ ptr := by
            intro e
            apply hcr
            rw [← e1, e]
            simp only [List.mem_map]
            exact ⟨(ptr, bs), k2, rfl⟩
          refine ⟨c :: r', by simp [take_fit, hlt, k4], ?_,
            (malloc_take_fields st req prev ptr bs).1, (malloc_take_fields st req prev ptr bs).2⟩
          rw [malloc_take_top st req prev ptr bs hprev0 htp, e1]
          exact k5
      · simp only [hlt, if_false] at h
        simp only [e2, if_false, Res.ok.injEq] at h
        obtain ⟨h1, h2⟩ := h
        subst h1 h2
        by_cases heq : c.2 = req
        · refine ⟨r, by simp [take_fit, heq], ?_,
            (malloc_take_fields st req 0 c.1 c.2).1, (malloc_take_fields st req 0 c.1 c.2).2⟩
          unfold malloc_take
          simp only [heq, if_true, ne_eq, not_true_eq_false, if_false, e2, not_false_eq_true]
          exact IsList_congr st _ r _ (fun x _ => ⟨rfl, rfl⟩) e4
        · have hgt : req < c.2 := by omega
          have hnf0 : c.1 + req ≠ 0 := by omega
          have hnfr : c.1 + req ∉ starts r := by
            intro e
            apply hin c (List.mem_cons_self _ _) (c.1 + req)
              (by simp only [starts, List.map_cons, List.mem_cons]; exact Or.inr e)
            omega
          have hne : ¬ req = c.2 := fun e => heq e.symm
          refine ⟨(c.1 + req, c.2 - req) :: r, by simp [take_fit, hlt, heq], ?_,
            (malloc_take_fields st req 0 c.1 c.2).1, (malloc_take_fields st req 0 c.1 c.2).2⟩
          unfold malloc_take
          simp only [hne, if_false, e1, if_true]
          refine ⟨rfl, hnf0, by simp [upd, e3], ?_⟩
          simp only [upd_same]
          apply IsList_congr st _ r _ _ e4
          intro x hx
          have h2 : x ≠ c.1 + req := fun e => hnfr (e ▸ hx)
          simp [upd, h2]

theorem IsList_top_irrelevant (st st' : CustomMemManager) (l : List (Nat × Nat)) (p : Nat)
    (h1 : st'.mem_next = st.mem_next) (h2 : st'.mem_size = st.mem_size)
    (hl : IsList st p l) : IsList st' p l :=
  IsList_congr st st' l p (fun x _ => by rw [h1, h2]; exact ⟨rfl, rfl⟩) hl

theorem defrag_loop_sim (afuel : Nat) (rem : List (Nat × Nat)) :
    ∀ (fuel : Nat) (st st' : CustomMemManager) (ptr : Nat) (acc : List (Nat × Nat)),
    IsList st ptr rem → IsList st st.top acc →
    (∀ c ∈ rem, 0 < c.2) → (∀ c ∈ acc, 0 < c.2) →
    (∀ x, cnt acc x + cnt rem x ≤ 1) →
    defrag_loop afuel fuel st ptr = Res.ok () st' →
    IsList st' st'.top (reinsert acc rem) ∧
    st'.alloc_blocks = st.alloc_blocks ∧ st'.align_size = st.align_size := by
  induction rem with
  | nil =>
    intro fuel st st' ptr acc hrem hacc _ _ _ h
    have hp : ptr = 0 := hrem
    subst hp
    cases fuel with
    | zero => simp [defrag_loop] at h
    | succ f =>
      simp only [defrag_loop, ne_eq, not_true_eq_false, if_false, Res.ok.injEq, true_and] at h
      subst h
      exact ⟨hacc, rfl, rfl⟩
  | cons b r ih =>
    intro fuel st st' ptr acc hrem hacc hprem hpacc hcnt h
    obtain ⟨e1, e2, e3, e4⟩ := hrem
    have hb : 0 < b.2 := hprem b (List.mem_cons_self _ _)
    have hpr : ∀ d ∈ r, 0 < d.2 := fun d hd => hprem d (List.mem_cons_of_mem _ hd)
    cases fuel with
    | zero => simp [defrag_loop] at h
    | succ f =>
      subst e1
      simp only [defrag_loop, ne_eq, e2, not_false_eq_true, if_true, e3] at h
      cases hq : add_block afuel st b.1 b.2 with
      | diverge => simp [hq] at h
      | raise e s1 => simp [hq] at h
      | ok v s1 =>
        simp only [hq] at h
        have hacc1 : ∀ x, cnt acc x ≤ 1 := fun x => by have := hcnt x; omega
        have hb_acc : b.1 ∉ starts acc := by
          apply not_mem_starts_of_cnt_zero acc hpacc
          have := hcnt b.1
          simp only [cnt] at this
          rw [if_pos ⟨le_refl _, by omega⟩] at this
          omega
        obtain ⟨s1a, s1b, s1c, s1d⟩ := add_block_sim afuel st s1 b.1 b.2 acc hacc e2 hb hb_acc
          (nodup_starts acc hpacc hacc1) hq
        have hcnt' : ∀ x, cnt (ins b.1 b.2 acc) x + cnt r x ≤ 1 := by
          intro x
          have := hcnt x
          rw [cnt_ins]
          simp only [cnt] at this ⊢
          omega
        have hr1 : IsList s1 (st.mem_next b.1) r := by
          apply IsList_congr st s1 r _ _ e4
          intro x hx
          simp only [starts, List.mem_map] at hx
          obtain ⟨d, hd, rfl⟩ := hx
          have hd2 := hpr d hd
          have hdc := cnt_pos_of_mem r d hd d.1 (le_refl _) (by omega)
          apply s1d
          · intro e
            have := hcnt d.1
            simp only [cnt] at this
            rw [if_pos ⟨by omega, by omega⟩] at this
            omega
          · apply not_mem_starts_of_cnt_zero acc hpacc
            have := hcnt d.1
            simp only [cnt] at this
            omega
        obtain ⟨k1, k2, k3⟩ := ih f s1 st' (st.mem_next b.1) (ins b.1 b.2 acc) hr1 s1a hpr
          (pos_ins b.1 b.2 acc hb hpacc) hcnt' h
        exact ⟨k1, k2.trans s1b, k3.trans s1c⟩

theorem defrag_sim (fuel : Nat) (st st' : CustomMemManager) (l : List (Nat × Nat))
    (hl : IsList st st.top l) (hpos : ∀ c ∈ l, 0 < c.2) (hcnt : ∀ x, cnt l x ≤ 1)
    (h : defrag fuel st = Res.ok () st') :
    IsList st' st'.top (reinsert [] l) ∧
    st'.alloc_blocks = st.alloc_blocks ∧ st'.align_size = st.align_size := by
  unfold defrag at h
  have := defrag_loop_sim fuel l fuel { st with top := 0 } st' st.top []
    (IsList_top_irrelevant st _ l _ rfl rfl hl) rfl hpos (by simp)
    (by intro x; simp only [cnt]; have := hcnt x; omega) h
  exact this

theorem disj_of_cnt (l : List (Nat × Nat)) (b : Nat × Nat)
    (h : ∀ x, cnt l x + cnt [b] x ≤ 1) : ∀ c ∈ l, Disj b c := by
  intro c hc
  by_contra hd
  unfold Disj at hd
  have h1 := h (max b.1 c.1)
  simp only [cnt] at h1
  rw [if_pos ⟨le_max_left _ _, by omega⟩] at h1
  have := cnt_pos_of_mem l c hc (max b.1 c.1) (le_max_right _ _) (by omega)
  omega

theorem chain_end_congr (c c' : Nat × Nat) (r : List (Nat × Nat))
    (h : List.Chain (fun b c => b.1 + b.2 < c.1) c r) (he : c'.1 + c'.2 ≤ c.1 + c.2) :
    List.Chain (fun b c => b.1 + b.2 < c.1) c' r := by
  cases r with
  | nil => exact List.Chain.nil
  | cons d r =>
    rw [List.chain_cons] at h ⊢
    exact ⟨by omega, h.2⟩

theorem gap_ins_after (b n : Nat) (hn : 0 < n) (r : List (Nat × Nat)) (a s : Nat)
    (hc : List.Chain (fun b c => b.1 + b.2 < c.1) (a, s) r)
    (hab : a + s ≤ b) (hd : ∀ c ∈ r, Disj (b, n) c) (hpos : ∀ c ∈ r, 0 < c.2) :
    Gap (ins_after b n a s r) ∧ ∃ s' t, ins_after b n a s r = (a, s') :: t := by
  induction r generalizing a s with
  | nil =>
    simp only [ins_after]
    split_ifs with h1
    · exact ⟨by simp [Gap], _, _, rfl⟩
    · refine ⟨?_, _, _, rfl⟩
      simp only [Gap, List.chain'_cons, List.chain'_singleton, and_true]
      omega
  | cons c r ih =>
    rw [List.chain_cons] at hc
    obtain ⟨hc1, hc2⟩ := hc
    have hdc := hd c (List.mem_cons_self _ _)
    have hpc := hpos c (List.mem_cons_self _ _)
    unfold Disj at hdc
    simp only at hdc hc1
    simp only [ins_after]
    split_ifs with h1 h2 h3 h4
    · refine ⟨?_, _, _, rfl⟩
      exact chain_end_congr c _ r hc2 (by simp only; omega)
    · refine ⟨?_, _, _, rfl⟩
      simp only [Gap, List.chain'_cons]
      exact ⟨by omega, chain_end_congr c _ r hc2 (by simp only; omega)⟩
    · refine ⟨?_, _, _, rfl⟩
      simp only [Gap, List.chain'_cons]
      exact ⟨by omega, hc2⟩
    · refine ⟨?_, _, _, rfl⟩
      simp only [Gap, List.chain'_cons]
      exact ⟨by omega, by omega, hc2⟩
    · obtain ⟨g1, s', t, g2⟩ := ih c.1 c.2 hc2 (by omega)
        (fun d hd' => hd d (List.mem_cons_of_mem _ hd'))
        (fun d hd' => hpos d (List.mem_cons_of_mem _ hd'))
      refine ⟨?_, _, _, rfl⟩
      rw [g2] at g1 ⊢
      simp only [Gap, List.chain'_cons] at g1 ⊢
      exact ⟨by omega, g1⟩

theorem gap_ins (b n : Nat) (hn : 0 < n) (l : List (Nat × Nat)) (hg : Gap l)
    (hd : ∀ c ∈ l, Disj (b, n) c) (hpos : ∀ c ∈ l, 0 < c.2) : Gap (ins b n l) := by
  cases l with
  | nil => simp [ins, Gap]
  | cons c r =>
    have hdc := hd c (List.mem_cons_self _ _)
    have hpc := hpos c (List.mem_cons_self _ _)
    unfold Disj at hdc
    simp only at hdc
    have hc2 : List.Chain (fun b c => b.1 + b.2 < c.1) c r := hg
    simp only [ins]
    split_ifs with h1 h2
    · exact chain_end_congr c _ r hc2 (by simp only; omega)
    · simp only [Gap, List.chain'_cons]
      exact ⟨by omega, hc2⟩
    · exact (gap_ins_after b n hn r c.1 c.2 hc2 (by omega)
        (fun d hd' => hd d (List.mem_cons_of_mem _ hd'))
        (fun d hd' => hpos d (List.mem_cons_of_mem _ hd'))).1

theorem chain_take_fit (req : Nat) (l l' : List (Nat × Nat)) (p : Nat) (x : Nat × Nat)
    (h : take_fit req l = some (p, l'))
    (hc : List.Chain (fun b c => b.1 + b.2 < c.1) x l) :
    List.Chain (fun b c => b.1 + b.2 < c.1) x l' := by
  induction l generalizing l' x with
  | nil => simp [take_fit] at h
  | cons b r ih =>
    rw [List.chain_cons] at hc
    obtain ⟨hc1, hc2⟩ := hc
    simp only [take_fit] at h
    split_ifs at h with h1 h2
    · cases hq : take_fit req r with
      | none => simp [hq] at h
      | some q =>
        obtain ⟨q1, q2⟩ := q
        simp only [hq, Option.map_some', Option.some.injEq, Prod.mk.injEq] at h
        obtain ⟨rfl, rfl⟩ := h
        rw [List.chain_cons]
        exact ⟨hc1, ih q2 b hq hc2⟩
    · simp only [Option.some.injEq, Prod.mk.injEq] at h
      obtain ⟨rfl, rfl⟩ := h
      cases hc2 with
      | nil => exact List.Chain.nil
      | cons hd1 hd2 =>
        rw [List.chain_cons]
        exact ⟨by omega, hd2⟩
    · simp only [Option.some.injEq, Prod.mk.injEq] at h
      obtain ⟨rfl, rfl⟩ := h
      rw [List.chain_cons]
      exact ⟨by simp only; omega, chain_end_congr b _ r hc2 (by simp only; omega)⟩

theorem gap_take_fit (req : Nat) (l l' : List (Nat × Nat)) (p : Nat)
    (h : take_fit req l = some (p, l')) (hg : Gap l) : Gap l' := by
  cases l with
  | nil => simp [take_fit] at h
  | cons b r =>
    have hc2 : List.Chain (fun b c => b.1 + b.2 < c.1) b r := hg
    simp only [take_fit] at h
    split_ifs at h with h1 h2
    · cases hq : take_fit req r with
      | none => simp [hq] at h
      | some q =>
        obtain ⟨q1, q2⟩ := q
        simp only [hq, Option.map_some', Option.some.injEq, Prod.mk.injEq] at h
        obtain ⟨rfl, rfl⟩ := h
        exact chain_take_fit req r q2 q1 b hq hc2
    · simp only [Option.some.injEq, Prod.mk.injEq] at h
      obtain ⟨rfl, rfl⟩ := h
      exact List.Chain'.tail hg
    · simp only [Option.some.injEq, Prod.mk.injEq] at h
      obtain ⟨rfl, rfl⟩ := h
      exact chain_end_congr b _ r hc2 (by simp only; omega)

theorem gap_reinsert (acc l : List (Nat × Nat)) (hg : Gap acc)
    (hpa : ∀ c ∈ acc, 0 < c.2) (hpl : ∀ c ∈ l, 0 < c.2)
    (hcnt : ∀ x, cnt acc x + cnt l x ≤ 1) : Gap (reinsert acc l) := by
  induction l generalizing acc with
  | nil => exact hg
  | cons b r ih =>
    have hb : 0 < b.2 := hpl b (List.mem_cons_self _ _)
    simp only [reinsert]
    apply ih
    · apply gap_ins b.1 b.2 hb acc hg _ hpa
      apply disj_of_cnt
      intro x
      have := hcnt x
      simp only [cnt] at this ⊢
      omega
    · exact pos_ins _ _ _ hb hpa
    · exact fun d hd => hpl d (List.mem_cons_of_mem _ hd)
    · intro x
      have := hcnt x
      rw [cnt_ins]
      simp only [cnt] at this ⊢
      omega

theorem ordered_ok_of_gap (l : List (Nat × Nat)) (hg : Gap l) : ordered_ok l := by
  unfold ordered_ok
  unfold Gap at hg
  exact List.Chain'.imp (fun a b h => ⟨by omega, by omega⟩) hg

theorem cnt_two_of_mem (l : List (Nat × Nat)) (b c : Nat × Nat) (hb : b ∈ l) (hc : c ∈ l)
    (hne : b ≠ c) (x : Nat) (hxb : b.1 ≤ x ∧ x < b.1 + b.2) (hxc : c.1 ≤ x ∧ x < c.1 + c.2) :
    2 ≤ cnt l x := by
  induction l with
  | nil => simp at hb
  | cons d r ih =>
    simp only [List.mem_cons] at hb hc
    simp only [cnt]
    rcases hb with rfl | hb
    · rcases hc with rfl | hc
      · exact absurd rfl hne
      · rw [if_pos hxb]
        have := cnt_pos_of_mem r c hc x hxc.1 hxc.2
        omega
    · rcases hc with rfl | hc
      · rw [if_pos hxc]
        have := cnt_pos_of_mem r b hb x hxb.1 hxb.2
        omega
      · have := ih hb hc
        omega

theorem no_start_inside (l : List (Nat × Nat)) (hpos : ∀ c ∈ l, 0 < c.2)
    (h1 : ∀ x, cnt l x ≤ 1) :
    ∀ blk ∈ l, ∀ x ∈ starts l, ¬ (blk.1 < x ∧ x < blk.1 + blk.2) := by
  intro blk hblk x hx hcon
  simp only [starts, List.mem_map] at hx
  obtain ⟨d, hd, rfl⟩ := hx
  have hne : blk ≠ d := by
    intro e
    rw [e] at hcon
    omega
  have := cnt_two_of_mem l blk d hblk hd hne d.1 ⟨by omega, hcon.2⟩
    ⟨le_refl _, by have := hpos d hd; omega⟩
  have := h1 d.1
  omega

theorem take_fit_mem (req : Nat) (l l' : List (Nat × Nat)) (p : Nat)
    (h : take_fit req l = some (p, l')) : p ∈ starts l := by
  induction l generalizing l' with
  | nil => simp [take_fit] at h
  | cons b r ih =>
    simp only [take_fit] at h
    split_ifs at h with h1 h2
    · cases hq : take_fit req r with
      | none => simp [hq] at h
      | some q =>
        obtain ⟨q1, q2⟩ := q
        simp only [hq, Option.map_some', Option.some.injEq, Prod.mk.injEq] at h
        obtain ⟨rfl, rfl⟩ := h
        simp only [starts, List.map_cons, List.mem_cons]
        exact Or.inr (ih q2 hq)
    · simp only [Option.some.injEq, Prod.mk.injEq] at h
      obtain ⟨rfl, rfl⟩ := h
      simp [starts]
    · simp only [Option.some.injEq, Prod.mk.injEq] at h
      obtain ⟨rfl, rfl⟩ := h
      simp [starts]

theorem cnt_pos_of_mem_starts (l : List (Nat × Nat)) (hpos : ∀ c ∈ l, 0 < c.2) (p : Nat)
    (hp : p ∈ starts l) : 0 < cnt l p := by
  simp only [starts, List.mem_map] at hp
  obtain ⟨d, hd, rfl⟩ := hp
  exact cnt_pos_of_mem l d hd d.1 (le_refl _) (by have := hpos d hd; omega)

theorem cnt_single_zero (b n : Nat) (h : cnt [(b, n)] 0 = 0) (hn : 0 < n) : b ≠ 0 := by
  intro e
  subst e
  simp only [cnt] at h
  rw [if_pos ⟨le_refl _, by omega⟩] at h
  omega

theorem cnt_single_self (b n : Nat) (hn : 0 < n) : cnt [(b, n)] b = 1 := by
  simp only [cnt]
  rw [if_pos ⟨le_refl _, by omega⟩]

theorem cnt_single_empty (b x : Nat) : cnt [(b, 0)] x = 0 := by
  simp only [cnt]
  rw [if_neg (by omega)]

theorem Inv_empty_donation (D l : List (Nat × Nat)) (s : CustomMemManager) (b : Nat)
    (h : Inv D s l) : Inv (D ++ [(b, 0)]) s l := by
  obtain ⟨h1, h2, h3, h4, h5, h6, h7⟩ := h
  refine ⟨h1, h2, h3, ?_, ?_, ?_, ?_⟩
  · intro x; rw [cnt_append, cnt_single_empty]; exact h4 x
  · intro x; rw [cnt_append, cnt_single_empty]; exact h5 x
  · rw [cnt_append, cnt_single_empty]; exact h6
  · rw [total_append]; simp only [total, List.map_cons, List.map_nil, List.sum_cons,
      List.sum_nil] at h7 ⊢; omega

theorem inv_add_block (fuel : Nat) (s s' : CustomMemManager) (b n : Nat)
    (D l : List (Nat × Nat)) (hinv : Inv D s l)
    (hdon : ∀ x, cnt D x + cnt [(b, n)] x ≤ 1) (hnull : cnt [(b, n)] 0 = 0)
    (h : add_block fuel s b n = Res.ok () s') :
    Inv (D ++ [(b, n)]) s' (if n = 0 then l else ins b n l) ∧
    s'.align_size = s.align_size ∧ s'.alloc_blocks = s.alloc_blocks ∧
    (Gap l → Gap (if n = 0 then l else ins b n l)) := by
  by_cases hn0 : n = 0
  · subst hn0
    rw [add_block_zero] at h
    cases h
    rw [if_pos rfl]
    exact ⟨Inv_empty_donation D l s b hinv, rfl, rfl, fun hg => hg⟩
  · have hn : 0 < n := by omega
    simp only [hn0, if_false]
    obtain ⟨h1, h2, h3, h4, h5, h6, h7⟩ := hinv
    have hb0 : b ≠ 0 := cnt_single_zero b n hnull hn
    have hl1 : ∀ x, cnt l x ≤ 1 := fun x => by have := h4 x; have := h5 x; omega
    have hlb : cnt l b = 0 := by
      have := hdon b; have := h4 b; rw [cnt_single_self b n hn] at *; omega
    have hb : b ∉ starts l := not_mem_starts_of_cnt_zero l h2 b hlb
    obtain ⟨k1, k2, k3, _⟩ := add_block_sim fuel s s' b n l h1 hb0 hn hb
      (nodup_starts l h2 hl1) h
    refine ⟨⟨k1, pos_ins b n l hn h2, by rw [k2]; exact h3, ?_, ?_, ?_, ?_⟩, k3, k2, ?_⟩
    · intro x; rw [cnt_ins, cnt_append, k2]; have := h4 x; omega
    · intro x; rw [cnt_append]; exact hdon x
    · rw [cnt_append, hnull, h6]
    · rw [total_ins, total_append, k2]
      simp only [total, List.map_cons, List.map_nil, List.sum_cons, List.sum_nil] at h7 ⊢
      omega
    · intro hg
      apply gap_ins b n hn l hg _ h2
      apply disj_of_cnt
      intro x
      have := hdon x; have := h4 x; omega

theorem inv_add_block_fast (s s' : CustomMemManager) (b n : Nat)
    (D l : List (Nat × Nat)) (hinv : Inv D s l)
    (hdon : ∀ x, cnt D x + cnt [(b, n)] x ≤ 1) (hnull : cnt [(b, n)] 0 = 0)
    (h : add_block_fast s b n = Res.ok () s') :
    Inv (D ++ [(b, n)]) s' (if n = 0 then l else (b, n) :: l) ∧
    s'.align_size = s.align_size ∧ s'.alloc_blocks = s.alloc_blocks := by
  by_cases hn0 : n = 0
  · subst hn0
    rw [add_block_fast_zero] at h
    cases h
    rw [if_pos rfl]
    exact ⟨Inv_empty_donation D l s b hinv, rfl, rfl⟩
  · have hn : 0 < n := by omega
    simp only [hn0, if_false]
    obtain ⟨h1, h2, h3, h4, h5, h6, h7⟩ := hinv
    have hb0 : b ≠ 0 := cnt_single_zero b n hnull hn
    have hlb : cnt l b = 0 := by
      have := hdon b; have := h4 b; rw [cnt_single_self b n hn] at *; omega
    have hb : b ∉ starts l := not_mem_starts_of_cnt_zero l h2 b hlb
    obtain ⟨k1, k2, k3, _⟩ := add_block_fast_sim s s' b n l h1 hb0 hn hb h
    refine ⟨⟨k1, ?_, by rw [k2]; exact h3, ?_, ?_, ?_, ?_⟩, k3, k2⟩
    · simp only [List.forall_mem_cons]; exact ⟨hn, h2⟩
    · intro x; rw [cnt_append, k2]; have := h4 x; simp only [cnt] at this ⊢; omega
    · intro x; rw [cnt_append]; exact hdon x
    · rw [cnt_append, hnull, h6]
    · rw [total_cons, total_append, k2]
      simp only [total, List.map_cons, List.map_nil, List.sum_cons, List.sum_nil] at h7 ⊢
      omega

theorem inv_malloc (fuel : Nat) (s s' : CustomMemManager) (N k p : Nat)
    (D l : List (Nat × Nat)) (hinv : Inv D s l)
    (h : malloc fuel s N k = Res.ok p s') :
    ∃ l', take_fit (req_size_of s.align_size N k) l = some (p, l') ∧ Inv D s' l' ∧
    s'.align_size = s.align_size ∧
    s'.alloc_blocks = (p, req_size_of s.align_size N k) :: s.alloc_blocks ∧
    (Gap l → Gap l') := by
  obtain ⟨h1, h2, h3, h4, h5, h6, h7⟩ := hinv
  have hl1 : ∀ x, cnt l x ≤ 1 := fun x => by have := h4 x; have := h5 x; omega
  obtain ⟨l', k1, k2, k3, k4⟩ := malloc_sim fuel s s' N k p l h1 (nodup_starts l h2 hl1)
    (no_start_inside l h2 hl1) h
  have hreq := req_size_of_ge s.align_size N k
  simp only [sizeof_ptr, sizeof_size_t] at hreq
  have hp := cnt_pos_of_mem_starts l h2 p (take_fit_mem _ l l' p k1)
  have hpa : p ∉ starts s.alloc_blocks := by
    apply not_mem_starts_of_cnt_zero _ h3
    have := h4 p; have := h5 p; omega
  have k3' : s'.alloc_blocks = (p, req_size_of s.align_size N k) :: s.alloc_blocks := by
    rw [k3, tbl_assign, tbl_erase_of_not_mem _ _ hpa]
  refine ⟨l', k1, ⟨k2, take_fit_pos _ l l' p k1 h2, ?_, ?_, h5, h6, ?_⟩, k4, k3',
    gap_take_fit _ l l' p k1⟩
  · rw [k3']
    simp only [List.forall_mem_cons]
    exact ⟨by show 0 < req_size_of s.align_size N k; omega, h3⟩
  · intro x
    rw [k3']
    have := take_fit_cnt _ l l' p k1 x
    have := h4 x
    simp only [cnt] at *
    omega
  · rw [k3', total_cons]
    have := take_fit_total _ l l' p k1
    simp only at *
    omega

theorem inv_free_common (s : CustomMemManager) (p n : Nat) (D l : List (Nat × Nat))
    (hinv : Inv D s l) (hf : tbl_find s.alloc_blocks p = some n) :
    0 < n ∧ p ≠ 0 ∧ p ∉ starts l ∧ (starts l).Nodup ∧
    (∀ c ∈ tbl_erase s.alloc_blocks p, 0 < c.2) ∧
    (∀ x, cnt l x + cnt [(p, n)] x + cnt (tbl_erase s.alloc_blocks p) x = cnt D x) ∧
    total l + n + total (tbl_erase s.alloc_blocks p) = total D := by
  obtain ⟨h1, h2, h3, h4, h5, h6, h7⟩ := hinv
  have hmem := tbl_find_mem _ p n hf
  have hn : 0 < n := h3 _ hmem
  have hl1 : ∀ x, cnt l x ≤ 1 := fun x => by have := h4 x; have := h5 x; omega
  have ha1 : ∀ x, cnt s.alloc_blocks x ≤ 1 := fun x => by have := h4 x; have := h5 x; omega
  have hcp := cnt_pos_of_mem _ _ hmem p (le_refl _) (by simp only; omega)
  have hnd := nodup_starts _ h3 ha1
  refine ⟨hn, ?_, ?_, nodup_starts l h2 hl1, ?_, ?_, ?_⟩
  · intro e
    rw [e] at hcp
    have := h4 0
    omega
  · apply not_mem_starts_of_cnt_zero l h2
    have := h4 p; have := h5 p; omega
  · exact fun c hc => h3 c (tbl_erase_mem _ _ c hc)
  · intro x
    have := tbl_find_cnt _ p n hnd hf x
    have := h4 x
    omega
  · have := tbl_find_total _ p n hnd hf
    omega

theorem inv_free (fuel : Nat) (s s' : CustomMemManager) (p : Nat)
    (D l : List (Nat × Nat)) (hinv : Inv D s l)
    (h : free fuel s p = Res.ok () s') :
    ∃ n, tbl_find s.alloc_blocks p = some n ∧ Inv D s' (ins p n l) ∧
    s'.align_size = s.align_size ∧ s'.alloc_blocks = tbl_erase s.alloc_blocks p ∧
    (Gap l → Gap (ins p n l)) := by
  unfold free at h
  cases hf : tbl_find s.alloc_blocks p with
  | none => simp [hf] at h
  | some n =>
    simp only [hf] at h
    cases hq : add_block fuel s p n with
    | diverge => simp [hq] at h
    | raise e s1 => simp [hq] at h
    | ok v s1 =>
      simp only [hq, Res.ok.injEq, true_and] at h
      subst h
      obtain ⟨c1, c2, c3, c4, c5, c6, c7⟩ := inv_free_common s p n D l hinv hf
      obtain ⟨h1, h2, h3, h4, h5, h6, h7⟩ := hinv
      obtain ⟨k1, k2, k3, _⟩ := add_block_sim fuel s s1 p n l h1 c2 c1 c3 c4 hq
      refine ⟨n, rfl, ⟨?_, pos_ins p n l c1 h2, ?_, ?_, h5, h6, ?_⟩, k3, ?_, ?_⟩
      · exact IsList_top_irrelevant s1 _ _ _ rfl rfl k1
      · show ∀ c ∈ tbl_erase s1.alloc_blocks p, 0 < c.2
        rw [k2]; exact c5
      · intro x
        show cnt (ins p n l) x + cnt (tbl_erase s1.alloc_blocks p) x = cnt D x
        rw [k2, cnt_ins]; exact c6 x
      · show total (ins p n l) + total (tbl_erase s1.alloc_blocks p) = total D
        rw [k2, total_ins]; exact c7
      · show tbl_erase s1.alloc_blocks p = tbl_erase s.alloc_blocks p
        rw [k2]
      · intro hg
        apply gap_ins p n c1 l hg _ h2
        apply disj_of_cnt
        intro x
        have := c6 x; have := h5 x; omega

theorem inv_free_fast (s s' : CustomMemManager) (p : Nat)
    (D l : List (Nat × Nat)) (hinv : Inv D s l)
    (h : free_fast s p = Res.ok () s') :
    ∃ n, tbl_find s.alloc_blocks p = some n ∧ Inv D s' ((p, n) :: l) ∧
    s'.align_size = s.align_size ∧ s'.alloc_blocks = tbl_erase s.alloc_blocks p := by
  unfold free_fast at h
  cases hf : tbl_find s.alloc_blocks p with
  | none => simp [hf] at h
  | some n =>
    simp only [hf] at h
    cases hq : add_block_fast s p n with
    | diverge => simp [hq] at h
    | raise e s1 => simp [hq] at h
    | ok v s1 =>
      simp only [hq, Res.ok.injEq, true_and] at h
      subst h
      obtain ⟨c1, c2, c3, c4, c5, c6, c7⟩ := inv_free_common s p n D l hinv hf
      obtain ⟨h1, h2, h3, h4, h5, h6, h7⟩ := hinv
      obtain ⟨k1, k2, k3, _⟩ := add_block_fast_sim s s1 p n l h1 c2 c1 c3 hq
      refine ⟨n, rfl, ⟨?_, ?_, ?_, ?_, h5, h6, ?_⟩, k3, ?_⟩
      · exact IsList_top_irrelevant s1 _ _ _ rfl rfl k1
      · simp only [List.forall_mem_cons]; exact ⟨c1, h2⟩
      · show ∀ c ∈ tbl_erase s1.alloc_blocks p, 0 < c.2
        rw [k2]; exact c5
      · intro x
        show cnt ((p, n) :: l) x + cnt (tbl_erase s1.alloc_blocks p) x = cnt D x
        rw [k2]
        have := c6 x
        simp only [cnt] at this ⊢
        omega
      · show total ((p, n) :: l) + total (tbl_erase s1.alloc_blocks p) = total D
        rw [k2, total_cons]
        simp only
        omega
      · show tbl_erase s1.alloc_blocks p = tbl_erase s.alloc_blocks p
        rw [k2]

theorem inv_defrag (fuel : Nat) (s s' : CustomMemManager)
    (D l : List (Nat × Nat)) (hinv : Inv D s l)
    (h : defrag fuel s = Res.ok () s') :
    Inv D s' (reinsert [] l) ∧ s'.align_size = s.align_size ∧
    s'.alloc_blocks = s.alloc_blocks ∧ Gap (reinsert [] l) := by
  obtain ⟨h1, h2, h3, h4, h5, h6, h7⟩ := hinv
  have hl1 : ∀ x, cnt l x ≤ 1 := fun x => by have := h4 x; have := h5 x; omega
  obtain ⟨k1, k2, k3⟩ := defrag_sim fuel s s' l h1 h2 hl1 h
  refine ⟨⟨k1, pos_reinsert [] l (by simp) h2, by rw [k2]; exact h3, ?_, h5, h6, ?_⟩, k3, k2, ?_⟩
  · intro x
    rw [cnt_reinsert, k2]
    simp only [cnt]
    have := h4 x
    omega
  · rw [total_reinsert, k2]
    simp only [total, List.map_nil, List.sum_nil] at h7 ⊢
    omega
  · apply gap_reinsert [] l (by simp [Gap]) (by simp) h2
    intro x
    simp only [cnt]
    have := hl1 x
    omega

theorem donated_cons (c : Call) (cs : List Call) :
    donated (c :: cs) = donated [c] ++ donated cs := by
  cases c <;> simp [donated]

theorem ordered_path_cons (o : Bool) (c : Call) (cs : List Call) :
    ordered_path o (c :: cs) = ordered_path (ordered_path o [c]) cs := by
  cases c <;> simp [ordered_path]

theorem inv_exec (fuel : Nat) (s s' : CustomMemManager) (c : Call) (v : Nat)
    (D l : List (Nat × Nat)) (hinv : Inv D s l)
    (hdon : ∀ x, cnt D x + cnt (donated [c]) x ≤ 1) (hnull : cnt (donated [c]) 0 = 0)
    (h : exec fuel s c = Res.ok v s') :
    ∃ l', Inv (D ++ donated [c]) s' l' ∧ s'.align_size = s.align_size ∧
      (∀ o : Bool, (o = true → Gap l) → ordered_path o [c] = true → Gap l') := by
  cases c with
  | add_block b n =>
    simp only [exec] at h
    cases hq : add_block fuel s b n with
    | diverge => simp [hq] at h
    | raise e s1 => simp [hq] at h
    | ok u s1 =>
      simp only [hq, Res.ok.injEq] at h
      obtain ⟨-, rfl⟩ := h
      obtain ⟨k1, k2, -, k4⟩ := inv_add_block fuel s s1 b n D l hinv hdon hnull hq
      exact ⟨_, k1, k2, fun o ho hp => k4 (ho (by simpa [ordered_path] using hp))⟩
  | add_block_fast b n =>
    simp only [exec] at h
    cases hq : add_block_fast s b n with
    | diverge => simp [hq] at h
    | raise e s1 => simp [hq] at h
    | ok u s1 =>
      simp only [hq, Res.ok.injEq] at h
      obtain ⟨-, rfl⟩ := h
      obtain ⟨k1, k2, -⟩ := inv_add_block_fast s s1 b n D l hinv hdon hnull hq
      exact ⟨_, k1, k2, fun o _ hp => by simp [ordered_path] at hp⟩
  | malloc N k =>
    simp only [exec] at h
    obtain ⟨l', -, k1, k2, -, k4⟩ := inv_malloc fuel s s' N k v D l hinv h
    refine ⟨l', by simpa [donated] using k1, k2,
      fun o ho hp => k4 (ho (by simpa [ordered_path] using hp))⟩
  | free p =>
    simp only [exec] at h
    cases hq : free fuel s p with
    | diverge => simp [hq] at h
    | raise e s1 => simp [hq] at h
    | ok u s1 =>
      simp only [hq, Res.ok.injEq] at h
      obtain ⟨-, rfl⟩ := h
      obtain ⟨n, -, k1, k2, -, k4⟩ := inv_free fuel s s1 p D l hinv hq
      refine ⟨_, by simpa [donated] using k1, k2,
        fun o ho hp => k4 (ho (by simpa [ordered_path] using hp))⟩
  | free_fast p =>
    simp only [exec] at h
    cases hq : free_fast s p with
    | diverge => simp [hq] at h
    | raise e s1 => simp [hq] at h
    | ok u s1 =>
      simp only [hq, Res.ok.injEq] at h
      obtain ⟨-, rfl⟩ := h
      obtain ⟨n, -, k1, k2, -⟩ := inv_free_fast s s1 p D l hinv hq
      exact ⟨_, by simpa [donated] using k1, k2, fun o _ hp => by simp [ordered_path] at hp⟩
  | defrag =>
    simp only [exec] at h
    cases hq : defrag fuel s with
    | diverge => simp [hq] at h
    | raise e s1 => simp [hq] at h
    | ok u s1 =>
      simp only [hq, Res.ok.injEq] at h
      obtain ⟨-, rfl⟩ := h
      obtain ⟨k1, k2, -, k4⟩ := inv_defrag fuel s s1 D l hinv hq
      exact ⟨_, by simpa [donated] using k1, k2, fun _ _ _ => k4⟩

theorem run_cons_some (fuel : Nat) (s s' : CustomMemManager) (c : Call) (cs : List Call)
    (ps : List Nat) (h : run fuel s (c :: cs) = some (s', ps)) :
    ∃ v s1 ps1, exec fuel s c = Res.ok v s1 ∧ run fuel s1 cs = some (s', ps1) := by
  simp only [run] at h
  cases hq : exec fuel s c with
  | diverge => simp [hq] at h
  | raise e s1 => simp [hq] at h
  | ok v s1 =>
    simp only [hq] at h
    cases hr : run fuel s1 cs with
    | none => simp [hr] at h
    | some r =>
      obtain ⟨s2, ps1⟩ := r
      simp only [hr] at h
      refine ⟨v, s1, ps1, rfl, ?_⟩
      have : s2 = s' := by
        cases c <;> simp at h <;> exact h.1
      rw [hr, this]

theorem inv_run (fuel : Nat) (cs : List Call) :
    ∀ (s s' : CustomMemManager) (ps : List Nat) (D l : List (Nat × Nat)) (o : Bool),
    Inv D s l → (o = true → Gap l) →
    (∀ x, cnt D x + cnt (donated cs) x ≤ 1) → cnt (donated cs) 0 = 0 →
    run fuel s cs = some (s', ps) →
    ∃ l', Inv (D ++ donated cs) s' l' ∧ s'.align_size = s.align_size ∧
      (ordered_path o cs = true → Gap l') := by
  induction cs with
  | nil =>
    intro s s' ps D l o hinv hg _ _ h
    simp only [run, Option.some.injEq, Prod.mk.injEq] at h
    obtain ⟨rfl, -⟩ := h
    exact ⟨l, by simpa [donated] using hinv, rfl, fun ho => hg (by simpa [ordered_path] using ho)⟩
  | cons c cs ih =>
    intro s s' ps D l o hinv hg hdon hnull h
    obtain ⟨v, s1, ps1, h1, h2⟩ := run_cons_some fuel s s' c cs ps h
    rw [donated_cons] at hdon hnull
    have hdon1 : ∀ x, cnt D x + cnt (donated [c]) x ≤ 1 := by
      intro x; have := hdon x; rw [cnt_append] at this; omega
    have hnull1 : cnt (donated [c]) 0 = 0 := by
      rw [cnt_append] at hnull; omega
    obtain ⟨l1, k1, k2, k3⟩ := inv_exec fuel s s1 c v D l hinv hdon1 hnull1 h1
    obtain ⟨l2, m1, m2, m3⟩ := ih s1 s' ps1 (D ++ donated [c]) l1 (ordered_path o [c]) k1
      (fun ho => k3 o hg ho)
      (by intro x; have := hdon x; rw [cnt_append] at this ⊢; omega)
      (by rw [cnt_append] at hnull; omega) h2
    refine ⟨l2, ?_, m2.trans k2, ?_⟩
    · rw [donated_cons, ← List.append_assoc]; exact m1
    · rw [ordered_path_cons]; exact m3

theorem Inv_fresh (a : Nat) (mem_next mem_size : Nat → Nat) :
    Inv [] (fresh a mem_next mem_size) [] := by
  refine ⟨rfl, by simp, by simp [fresh], ?_, ?_, rfl, ?_⟩
  · intro x; simp [cnt, fresh]
  · intro x; simp [cnt]
  · simp [total, fresh]

theorem cnt_zero_of_nonnull (l : List (Nat × Nat)) (h : ∀ r ∈ l, r.2 ≠ 0 → r.1 ≠ 0) :
    cnt l 0 = 0 := by
  apply cnt_zero_of_forall
  intro c hc hx
  have := h c hc
  omega

/-- Every state reached from a fresh allocator by successful calls on
pairwise disjoint donated regions that do not start at the null address
satisfies the invariant for some free list. -/
theorem reach_inv (a fuel : Nat) (mem_next mem_size : Nat → Nat) (cs : List Call)
    (s : CustomMemManager) (ps : List Nat)
    (hnull : ∀ r ∈ donated cs, r.2 ≠ 0 → r.1 ≠ 0) (hdisj : (donated cs).Pairwise Disj)
    (hrun : run fuel (fresh a mem_next mem_size) cs = some (s, ps)) :
    ∃ l, Inv (donated cs) s l ∧ s.align_size = a ∧ (ordered_path true cs = true → Gap l) := by
  obtain ⟨l, h1, h2, h3⟩ := inv_run fuel cs (fresh a mem_next mem_size) s ps [] [] true
    (Inv_fresh a mem_next mem_size) (fun _ => by simp [Gap])
    (fun x => by simp only [cnt]; have := cnt_le_one_of_pairwise _ hdisj x; omega)
    (cnt_zero_of_nonnull _ hnull) hrun
  exact ⟨l, by simpa using h1, h2, h3⟩

theorem free_list_of_Inv (D l : List (Nat × Nat)) (s : CustomMemManager) (h : Inv D s l) :
    free_list (l.length + 1) s = some l :=
  free_list_from_of_IsList s l s.top _ h.1 (Nat.lt_succ_self _)

/-! ## The claims about reachable states -/

theorem donated_append (cs1 cs2 : List Call) :
    donated (cs1 ++ cs2) = donated cs1 ++ donated cs2 := by
  induction cs1 with
  | nil => rfl
  | cons c cs ih =>
    rw [List.cons_append, donated_cons, donated_cons c cs, ih, List.append_assoc]

theorem add_block_alloc (fuel : Nat) (s s' : CustomMemManager) (b n : Nat)
    (h : add_block fuel s b n = Res.ok () s') : s'.alloc_blocks = s.alloc_blocks := by
  unfold add_block at h
  split_ifs at h
  · cases h; rfl
  · cases h; rfl
  · split at h
    · cases h
    · cases h
      unfold add_block_link
      simp only
      split_ifs <;> rfl

theorem run_only_add_block_alloc (fuel : Nat) (cs : List Call) :
    ∀ (s s' : CustomMemManager) (ps : List Nat), only_add_block cs = true →
    run fuel s cs = some (s', ps) → s'.alloc_blocks = s.alloc_blocks := by
  induction cs with
  | nil =>
    intro s s' ps _ h
    simp only [run, Option.some.injEq, Prod.mk.injEq] at h
    rw [h.1]
  | cons c cs ih =>
    intro s s' ps ho h
    obtain ⟨v, s1, ps1, h1, h2⟩ := run_cons_some fuel s s' c cs ps h
    cases c with
    | add_block b n =>
      simp only [only_add_block] at ho
      simp only [exec] at h1
      cases hq : add_block fuel s b n with
      | diverge => simp [hq] at h1
      | raise e s2 => simp [hq] at h1
      | ok u s2 =>
        simp only [hq, Res.ok.injEq] at h1
        obtain ⟨-, rfl⟩ := h1
        rw [ih s2 s' ps1 ho h2, add_block_alloc fuel s s2 b n hq]
    | add_block_fast b n => simp [only_add_block] at ho
    | malloc N k => simp [only_add_block] at ho
    | free p => simp [only_add_block] at ho
    | free_fast p => simp [only_add_block] at ho
    | defrag => simp [only_add_block] at ho

/-- C2 (failing input). With alignment 32, a donation of 64 bytes at 4096
followed by malloc of 0 bytes and malloc of 1 byte returns 4096 and then 4112,
and 4112 is not a multiple of 32. With alignment 12, a donation of 64 bytes at
4104 followed by two malloc of 1 byte returns 4104 and then 4120, and 4120 is
not a multiple of 12. -/
theorem C2_misaligned_pointer_returned :
    (run_ptrs 8 (fresh 32 zero_mem zero_mem)
      [Call.add_block 4096 64, Call.malloc 0 1, Call.malloc 1 1] = [4112, 4096] ∧
     4112 % (fresh 32 zero_mem zero_mem).align_size ≠ 0) ∧
    (run_ptrs 8 (fresh 12 zero_mem zero_mem)
      [Call.add_block 4104 64, Call.malloc 1 1, Call.malloc 1 1] = [4120, 4104] ∧
     4120 % (fresh 12 zero_mem zero_mem).align_size ≠ 0) := by
  decide

/-- C3 (failing input). With alignment 8, a donation of 64 bytes at 4096
followed by malloc of 56 bytes leaves the free list with the single block
(4152, 8), which is smaller than the 16-byte header; a defrag in that state
throws the block-too-small error of add_block. -/
theorem C3_remainder_below_header :
    run_ptrs 8 (fresh 8 zero_mem zero_mem)
      [Call.add_block 4096 64, Call.malloc 56 1] = [4096] ∧
    free_list 8 (run_state 8 (fresh 8 zero_mem zero_mem)
      [Call.add_block 4096 64, Call.malloc 56 1]) = some [(4152, 8)] ∧
    8 < sizeof_ptr + sizeof_size_t ∧
    (defrag 8 (run_state 8 (fresh 8 zero_mem zero_mem)
      [Call.add_block 4096 64, Call.malloc 56 1])).err = some Err.block_too_small := by
  decide

/-- C6 (failing input). With alignment 32, after a donation of 64 bytes at
4096, malloc of 0 bytes and malloc of 1 byte, the pointer 4112 is a key of the
allocation table, and free of it throws the bad-alignment error. -/
theorem C6_free_of_live_pointer_throws :
    tbl_find (run_state 8 (fresh 32 zero_mem zero_mem)
      [Call.add_block 4096 64, Call.malloc 0 1, Call.malloc 1 1]).alloc_blocks 4112
      = some 32 ∧
    (free 8 (run_state 8 (fresh 32 zero_mem zero_mem)
      [Call.add_block 4096 64, Call.malloc 0 1, Call.malloc 1 1]) 4112).err
      = some Err.bad_alignment := by
  decide

/-- C7 (failing input). With alignment 32, in the state reached by a donation
of 64 bytes at 4096 and malloc of 0 bytes, malloc of 1 byte returns 4112, free
of 4112 throws the bad-alignment error, and the free list afterwards,
[(4144, 16)], is not the free list before the malloc, [(4112, 48)]. -/
theorem C7_round_trip_broken :
    free_list 8 (run_state 8 (fresh 32 zero_mem zero_mem)
      [Call.add_block 4096 64, Call.malloc 0 1]) = some [(4112, 48)] ∧
    (malloc 8 (run_state 8 (fresh 32 zero_mem zero_mem)
      [Call.add_block 4096 64, Call.malloc 0 1]) 1 1).val = some 4112 ∧
    (free 8 (run_state 8 (fresh 32 zero_mem zero_mem)
      [Call.add_block 4096 64, Call.malloc 0 1, Call.malloc 1 1]) 4112).err
      = some Err.bad_alignment ∧
    free_list 8 ((free 8 (run_state 8 (fresh 32 zero_mem zero_mem)
      [Call.add_block 4096 64, Call.malloc 0 1, Call.malloc 1 1]) 4112).state
        (fresh 32 zero_mem zero_mem)) = some [(4144, 16)] := by
  decide

/-- C9. Conservation: from a fresh allocator, after a sequence of successful
add_block calls on pairwise disjoint regions (not starting at the null
address), the sizes of the free blocks add up to the donated sizes, and every
byte lies in exactly as many free blocks as donated regions, which is at most
one. -/
theorem C9_conservation (a fuel : Nat) (mem_next mem_size : Nat → Nat)
    (cs : List Call) (s : CustomMemManager) (ps : List Nat)
    (hadd : only_add_block cs = true)
    (hnull : ∀ r ∈ donated cs, r.2 ≠ 0 → r.1 ≠ 0) (hdisj : (donated cs).Pairwise Disj)
    (hrun : run fuel (fresh a mem_next mem_size) cs = some (s, ps)) :
    ∃ f l, free_list f s = some l ∧ total l = total (donated cs) ∧
      ∀ x, cnt l x = cnt (donated cs) x ∧ cnt l x ≤ 1 := by
  obtain ⟨l, hinv, -, -⟩ := reach_inv a fuel mem_next mem_size cs s ps hnull hdisj hrun
  have hal : s.alloc_blocks = [] :=
    run_only_add_block_alloc fuel cs _ s ps hadd hrun
  have hfl := free_list_of_Inv _ l s hinv
  obtain ⟨-, -, -, h4, h5, -, h7⟩ := hinv
  rw [hal] at h4 h7
  refine ⟨_, l, hfl, ?_, ?_⟩
  · simpa [total] using h7
  · intro x
    have := h4 x; have := h5 x
    simp only [cnt] at *
    omega

/-- Witness for C9: three donations, out of address order, two of them adjacent. -/
theorem C9_conservation_witness :
    ∃ f l, free_list f (run_state 8 (fresh 8 zero_mem zero_mem)
        [Call.add_block 8192 32, Call.add_block 4096 64, Call.add_block 4160 16]) = some l ∧
      total l = total (donated
        [Call.add_block 8192 32, Call.add_block 4096 64, Call.add_block 4160 16]) ∧
      ∀ x, cnt l x = cnt (donated
        [Call.add_block 8192 32, Call.add_block 4096 64, Call.add_block 4160 16]) x ∧
        cnt l x ≤ 1 :=
  C9_conservation 8 8 zero_mem zero_mem
    [Call.add_block 8192 32, Call.add_block 4096 64, Call.add_block 4160 16] _
    (run_ptrs 8 (fresh 8 zero_mem zero_mem)
      [Call.add_block 8192 32, Call.add_block 4096 64, Call.add_block 4160 16])
    (by decide) (by decide) (by decide) rfl

/-- Witness for C5: free and free_fast on a fresh allocator, and a second
free after a donation, an allocation and a successful free. -/
theorem C5_invalid_free_witness :
    (free 8 (fresh 8 zero_mem zero_mem) 4096 =
        Res.raise Err.not_allocated (fresh 8 zero_mem zero_mem) ∧
      free_fast (fresh 8 zero_mem zero_mem) 4096 =
        Res.raise Err.not_allocated (fresh 8 zero_mem zero_mem)) ∧
    free 8 ((free 8 (run_state 8 (fresh 8 zero_mem zero_mem)
        [Call.add_block 4096 64, Call.malloc 32 1]) 4096).state (fresh 8 zero_mem zero_mem)) 4096 =
      Res.raise Err.not_allocated
        ((free 8 (run_state 8 (fresh 8 zero_mem zero_mem)
          [Call.add_block 4096 64, Call.malloc 32 1]) 4096).state (fresh 8 zero_mem zero_mem)) :=
  ⟨(C5_invalid_free 8 8 (fresh 8 zero_mem zero_mem) (fresh 8 zero_mem zero_mem) 4096).1 rfl,
   (C5_invalid_free 8 8 _ (run_state 8 (fresh 8 zero_mem zero_mem)
      [Call.add_block 4096 64, Call.malloc 32 1]) 4096).2 rfl⟩

/-! ## The round trip malloc / free on a canonical free list -/

theorem chain_lt_starts (b : Nat × Nat) (r : List (Nat × Nat))
    (h : List.Chain (fun b c => b.1 + b.2 < c.1) b r) : ∀ x ∈ starts r, b.1 + b.2 < x := by
  induction r generalizing b with
  | nil => intro x hx; simp [starts] at hx
  | cons c r ih =>
    rw [List.chain_cons] at h
    intro x hx
    simp only [starts, List.map_cons, List.mem_cons] at hx
    rcases hx with rfl | hx
    · exact h.1
    · have := ih c h.2 x hx
      omega

theorem ins_after_take_fit (req : Nat) (hreq : 0 < req) (r r' : List (Nat × Nat))
    (a s p : Nat) (hc : List.Chain (fun b c => b.1 + b.2 < c.1) (a, s) r)
    (h : take_fit req r = some (p, r')) : ins_after p req a s r' = (a, s) :: r := by
  induction r generalizing a s r' with
  | nil => simp [take_fit] at h
  | cons b r ih =>
    rw [List.chain_cons] at hc
    obtain ⟨hc1, hc2⟩ := hc
    simp only at hc1
    simp only [take_fit] at h
    split_ifs at h with h1 h2
    · cases hq : take_fit req r with
      | none => simp [hq] at h
      | some q =>
        obtain ⟨q1, q2⟩ := q
        simp only [hq, Option.map_some', Option.some.injEq, Prod.mk.injEq] at h
        obtain ⟨rfl, rfl⟩ := h
        have hp := chain_lt_starts b r hc2 q1 (take_fit_mem req r q2 q1 hq)
        have hng : ¬ b.1 > q1 := by omega
        simp only [ins_after, if_neg hng]
        rw [ih q2 b.1 b.2 hc2 hq]
    · simp only [Option.some.injEq, Prod.mk.injEq] at h
      obtain ⟨rfl, rfl⟩ := h
      cases r with
      | nil =>
        have hne : ¬ a + s = b.1 := by omega
        simp only [ins_after, if_neg hne]
        rw [← h2]
      | cons d r2 =>
        rw [List.chain_cons] at hc2
        have hgt : d.1 > b.1 := by omega
        have hm : ¬ b.1 + req = d.1 := by omega
        have hne : ¬ a + s = b.1 := by omega
        simp only [ins_after, if_pos hgt, if_neg hm, if_neg hne]
        rw [← h2]
    · simp only [Option.some.injEq, Prod.mk.injEq] at h
      obtain ⟨rfl, rfl⟩ := h
      have hgt : b.1 + req > b.1 := by omega
      have hne : ¬ a + s = b.1 := by omega
      simp only [ins_after, if_pos hgt, if_true, if_neg hne]
      have : req + (b.2 - req) = b.2 := by omega
      rw [this]

theorem ins_take_fit (req : Nat) (hreq : 0 < req) (l l' : List (Nat × Nat)) (p : Nat)
    (hg : Gap l) (h : take_fit req l = some (p, l')) : ins p req l' = l := by
  cases l with
  | nil => simp [take_fit] at h
  | cons b r =>
    have hc2 : List.Chain (fun b c => b.1 + b.2 < c.1) b r := hg
    simp only [take_fit] at h
    split_ifs at h with h1 h2
    · cases hq : take_fit req r with
      | none => simp [hq] at h
      | some q =>
        obtain ⟨q1, q2⟩ := q
        simp only [hq, Option.map_some', Option.some.injEq, Prod.mk.injEq] at h
        obtain ⟨rfl, rfl⟩ := h
        have hp := chain_lt_starts b r hc2 q1 (take_fit_mem req r q2 q1 hq)
        have hng : ¬ b.1 > q1 := by omega
        simp only [ins, if_neg hng]
        exact ins_after_take_fit req hreq r q2 b.1 b.2 q1 hc2 hq
    · simp only [Option.some.injEq, Prod.mk.injEq] at h
      obtain ⟨rfl, rfl⟩ := h
      cases r with
      | nil =>
        simp only [ins]
        rw [← h2]
      | cons d r2 =>
        rw [List.chain_cons] at hc2
        have hgt : d.1 > b.1 := by omega
        have hm : ¬ b.1 + req = d.1 := by omega
        simp only [ins, if_pos hgt, if_neg hm]
        rw [← h2]
    · simp only [Option.some.injEq, Prod.mk.injEq] at h
      obtain ⟨rfl, rfl⟩ := h
      have hgt : b.1 + req > b.1 := by omega
      simp only [ins, if_pos hgt, if_true]
      have : req + (b.2 - req) = b.2 := by omega
      rw [this]

/-- Round trip when both calls return: in a state reached from a fresh
allocator on the ordered path (no add_block_fast or free_fast after the last
defrag) with pairwise disjoint donated regions, a successful malloc followed
by a successful free of the returned pointer restores the free list and the
allocation table. -/
theorem round_trip_when_free_returns (a fuel f1 f2 : Nat) (mem_next mem_size : Nat → Nat)
    (cs : List Call) (s s1 s2 : CustomMemManager) (ps : List Nat) (N k p : Nat)
    (hnull : ∀ r ∈ donated cs, r.2 ≠ 0 → r.1 ≠ 0) (hdisj : (donated cs).Pairwise Disj)
    (hord : ordered_path true cs = true)
    (hrun : run fuel (fresh a mem_next mem_size) cs = some (s, ps))
    (hm : malloc f1 s N k = Res.ok p s1) (hf : free f2 s1 p = Res.ok () s2) :
    ∃ f l, free_list f s = some l ∧ free_list f s2 = some l ∧
      s2.alloc_blocks = s.alloc_blocks := by
  obtain ⟨l, hinv, -, hg⟩ := reach_inv a fuel mem_next mem_size cs s ps hnull hdisj hrun
  obtain ⟨l', k1, k2, -, k4, -⟩ := inv_malloc f1 s s1 N k p (donated cs) l hinv hm
  obtain ⟨n, m1, m2, -, m4, -⟩ := inv_free f2 s1 s2 p (donated cs) l' k2 hf
  have hreq := req_size_of_ge s.align_size N k
  simp only [sizeof_ptr, sizeof_size_t] at hreq
  rw [k4] at m1 m4
  simp only [tbl_find, if_true, Option.some.injEq] at m1
  subst m1
  have hpa : p ∉ starts s.alloc_blocks := by
    apply not_mem_starts_of_cnt_zero _ hinv.2.2.1
    have hp := cnt_pos_of_mem_starts l hinv.2.1 p (take_fit_mem _ l l' p k1)
    have := hinv.2.2.2.1 p
    have := hinv.2.2.2.2.1 p
    omega
  simp only [tbl_erase, if_true] at m4
  rw [tbl_erase_of_not_mem _ _ hpa] at m4
  rw [ins_take_fit _ (by omega) l l' p (hg hord) k1] at m2
  exact ⟨_, l, free_list_of_Inv _ l s hinv, free_list_of_Inv _ l s2 m2, m4⟩

/-! ## Alignment when `align_size` divides the header size -/

theorem req_size_of_mod (a N k : Nat) (ha : 16 % a = 0) : req_size_of a N k % a = 0 := by
  have ha16 : a ≤ 16 := by
    by_contra hgt
    rw [Nat.mod_eq_of_lt (by omega)] at ha
    omega
  unfold req_size_of
  simp only [sizeof_ptr, sizeof_size_t, size_t_range]
  generalize (N * k) % 2 ^ 64 = x
  interval_cases a <;> simp at ha <;> (split_ifs <;> omega)

theorem mem_starts_of_mem (c : Nat × Nat) (r : List (Nat × Nat)) (h : c ∈ r) :
    c.1 ∈ starts r := List.mem_map.mpr ⟨c, h, rfl⟩

theorem mem_ins_after_start (b n a s : Nat) (r : List (Nat × Nat)) :
    ∀ c ∈ ins_after b n a s r, c.1 = b ∨ c.1 = a ∨ c.1 ∈ starts r := by
  induction r generalizing a s with
  | nil =>
    simp only [ins_after]
    split_ifs <;> simp [starts]
  | cons d r ih =>
    simp only [ins_after]
    split_ifs
    all_goals
      intro c hc
      simp only [List.mem_cons] at hc
      simp only [starts, List.map_cons, List.mem_cons]
    · rcases hc with rfl | hc
      · simp
      · exact Or.inr (Or.inr (Or.inr (mem_starts_of_mem c r hc)))
    · rcases hc with rfl | rfl | hc
      · simp
      · simp
      · exact Or.inr (Or.inr (Or.inr (mem_starts_of_mem c r hc)))
    · rcases hc with rfl | rfl | hc
      · simp
      · simp
      · exact Or.inr (Or.inr (Or.inr (mem_starts_of_mem c r hc)))
    · rcases hc with rfl | rfl | rfl | hc
      · simp
      · simp
      · simp
      · exact Or.inr (Or.inr (Or.inr (mem_starts_of_mem c r hc)))
    · rcases hc with rfl | hc
      · simp
      · have := ih d.1 d.2 c hc
        tauto

theorem mem_ins_start (b n : Nat) (l : List (Nat × Nat)) :
    ∀ c ∈ ins b n l, c.1 = b ∨ c.1 ∈ starts l := by
  cases l with
  | nil => simp [ins, starts]
  | cons d r =>
    simp only [ins]
    split_ifs
    all_goals
      intro c hc
      simp only [starts, List.map_cons, List.mem_cons]
    · simp only [List.mem_cons] at hc
      rcases hc with rfl | hc
      · simp
      · exact Or.inr (Or.inr (mem_starts_of_mem c r hc))
    · simp only [List.mem_cons] at hc
      rcases hc with rfl | rfl | hc
      · simp
      · simp
      · exact Or.inr (Or.inr (mem_starts_of_mem c r hc))
    · have := mem_ins_after_start b n d.1 d.2 r c hc
      tauto

theorem take_fit_start (req : Nat) (l l' : List (Nat × Nat)) (p : Nat)
    (h : take_fit req l = some (p, l')) :
    ∀ c ∈ l', c.1 = p + req ∨ c.1 ∈ starts l := by
  induction l generalizing l' with
  | nil => simp [take_fit] at h
  | cons b r ih =>
    simp only [take_fit] at h
    split_ifs at h with h1 h2
    · cases hq : take_fit req r with
      | none => simp [hq] at h
      | some q =>
        obtain ⟨q1, q2⟩ := q
        simp only [hq, Option.map_some', Option.some.injEq, Prod.mk.injEq] at h
        obtain ⟨rfl, rfl⟩ := h
        intro c hc
        simp only [List.mem_cons] at hc
        rcases hc with rfl | hc
        · simp [starts]
        · have := ih q2 hq c hc
          simp only [starts, List.map_cons, List.mem_cons] at this ⊢
          tauto
    · simp only [Option.some.injEq, Prod.mk.injEq] at h
      obtain ⟨rfl, rfl⟩ := h
      intro c hc
      simp only [starts, List.map_cons, List.mem_cons, List.mem_map]
      exact Or.inr (Or.inr ⟨c, hc, rfl⟩)
    · simp only [Option.some.injEq, Prod.mk.injEq] at h
      obtain ⟨rfl, rfl⟩ := h
      intro c hc
      simp only [List.mem_cons] at hc
      rcases hc with rfl | hc
      · simp
      · simp only [starts, List.map_cons, List.mem_cons, List.mem_map]
        exact Or.inr (Or.inr ⟨c, hc, rfl⟩)

theorem mem_reinsert_start (acc l : List (Nat × Nat)) :
    ∀ c ∈ reinsert acc l, c.1 ∈ starts acc ∨ c.1 ∈ starts l := by
  induction l generalizing acc with
  | nil => intro c hc; exact Or.inl (List.mem_map.mpr ⟨c, hc, rfl⟩)
  | cons b r ih =>
    intro c hc
    simp only [reinsert] at hc
    rcases ih _ c hc with h | h
    · simp only [starts, List.mem_map] at h
      obtain ⟨d, hd, hdc⟩ := h
      rcases mem_ins_start b.1 b.2 acc d hd with h2 | h2
      · right
        simp only [starts, List.map_cons, List.mem_cons]
        left; rw [← hdc, h2]
      · left; rw [← hdc]; exact h2
    · right
      simp only [starts, List.map_cons, List.mem_cons]
      exact Or.inr h

theorem aligned_of_starts (a : Nat) (l : List (Nat × Nat)) (h : ∀ b ∈ l, b.1 % a = 0) :
    ∀ x ∈ starts l, x % a = 0 := by
  intro x hx
  simp only [starts, List.mem_map] at hx
  obtain ⟨d, hd, rfl⟩ := hx
  exact h d hd

theorem aligned_exec (fuel : Nat) (s s' : CustomMemManager) (c : Call) (v : Nat)
    (D l : List (Nat × Nat)) (hinv : Inv D s l) (hal : Aligned s l)
    (ha : 16 % s.align_size = 0)
    (hdon : ∀ x, cnt D x + cnt (donated [c]) x ≤ 1) (hnull : cnt (donated [c]) 0 = 0)
    (h : exec fuel s c = Res.ok v s') :
    ∃ l', Inv (D ++ donated [c]) s' l' ∧ Aligned s' l' ∧ s'.align_size = s.align_size ∧
      (∀ N k, c = Call.malloc N k → v % s.align_size = 0) := by
  obtain ⟨al1, al2⟩ := hal
  cases c with
  | add_block b n =>
    simp only [exec] at h
    cases hq : add_block fuel s b n with
    | diverge => simp [hq] at h
    | raise e s1 => simp [hq] at h
    | ok u s1 =>
      simp only [hq, Res.ok.injEq] at h
      obtain ⟨-, rfl⟩ := h
      obtain ⟨k1, k2, k3, -⟩ := inv_add_block fuel s s1 b n D l hinv hdon hnull hq
      refine ⟨_, k1, ⟨?_, by rw [k2, k3]; exact al2⟩, k2, by intro N k e; cases e⟩
      rw [k2]
      by_cases hn0 : n = 0
      · simp only [hn0, if_true]; exact al1
      · simp only [hn0, if_false]
        intro d hd
        rcases mem_ins_start b n l d hd with e | e
        · rw [e]; exact (add_block_ok_guard fuel s s1 b n (by omega) hq).2
        · exact aligned_of_starts _ l al1 _ e
  | add_block_fast b n =>
    simp only [exec] at h
    cases hq : add_block_fast s b n with
    | diverge => simp [hq] at h
    | raise e s1 => simp [hq] at h
    | ok u s1 =>
      simp only [hq, Res.ok.injEq] at h
      obtain ⟨-, rfl⟩ := h
      obtain ⟨k1, k2, k3⟩ := inv_add_block_fast s s1 b n D l hinv hdon hnull hq
      refine ⟨_, k1, ⟨?_, by rw [k2, k3]; exact al2⟩, k2, by intro N k e; cases e⟩
      rw [k2]
      by_cases hn0 : n = 0
      · simp only [hn0, if_true]; exact al1
      · simp only [hn0, if_false, List.forall_mem_cons]
        refine ⟨?_, al1⟩
        unfold add_block_fast at hq
        simp only [hn0, if_false] at hq
        split_ifs at hq with h1 h2
        simpa [check_alignment] using h2
  | malloc N k =>
    simp only [exec] at h
    obtain ⟨l', k0, k1, k2, k3, -⟩ := inv_malloc fuel s s' N k v D l hinv h
    have hv : v % s.align_size = 0 :=
      aligned_of_starts _ l al1 _ (take_fit_mem _ l l' v k0)
    have hr := req_size_of_mod s.align_size N k ha
    refine ⟨l', by simpa [donated] using k1, ⟨?_, ?_⟩, k2, fun _ _ _ => hv⟩
    · rw [k2]
      intro d hd
      rcases take_fit_start _ l l' v k0 d hd with e | e
      · rw [e, Nat.add_mod, hv, hr]; simp
      · exact aligned_of_starts _ l al1 _ e
    · rw [k2, k3]
      simp only [List.forall_mem_cons]
      exact ⟨⟨hv, req_size_of_ge _ _ _⟩, al2⟩
  | free p =>
    simp only [exec] at h
    cases hq : free fuel s p with
    | diverge => simp [hq] at h
    | raise e s1 => simp [hq] at h
    | ok u s1 =>
      simp only [hq, Res.ok.injEq] at h
      obtain ⟨-, rfl⟩ := h
      obtain ⟨n, k0, k1, k2, k3, -⟩ := inv_free fuel s s1 p D l hinv hq
      have hp := (al2 _ (tbl_find_mem _ p n k0)).1
      refine ⟨_, by simpa [donated] using k1, ⟨?_, ?_⟩, k2, by intro N k e; cases e⟩
      · rw [k2]
        intro d hd
        rcases mem_ins_start p n l d hd with e | e
        · rw [e]; exact hp
        · exact aligned_of_starts _ l al1 _ e
      · rw [k2, k3]
        exact fun b hb => al2 b (tbl_erase_mem _ _ b hb)
  | free_fast p =>
    simp only [exec] at h
    cases hq : free_fast s p with
    | diverge => simp [hq] at h
    | raise e s1 => simp [hq] at h
    | ok u s1 =>
      simp only [hq, Res.ok.injEq] at h
      obtain ⟨-, rfl⟩ := h
      obtain ⟨n, k0, k1, k2, k3⟩ := inv_free_fast s s1 p D l hinv hq
      have hp := (al2 _ (tbl_find_mem _ p n k0)).1
      refine ⟨_, by simpa [donated] using k1, ⟨?_, ?_⟩, k2, by intro N k e; cases e⟩
      · rw [k2]
        simp only [List.forall_mem_cons]
        exact ⟨hp, al1⟩
      · rw [k2, k3]
        exact fun b hb => al2 b (tbl_erase_mem _ _ b hb)
  | defrag =>
    simp only [exec] at h
    cases hq : defrag fuel s with
    | diverge => simp [hq] at h
    | raise e s1 => simp [hq] at h
    | ok u s1 =>
      simp only [hq, Res.ok.injEq] at h
      obtain ⟨-, rfl⟩ := h
      obtain ⟨k1, k2, k3, -⟩ := inv_defrag fuel s s1 D l hinv hq
      refine ⟨_, by simpa [donated] using k1, ⟨?_, by rw [k2, k3]; exact al2⟩, k2,
        by intro N k e; cases e⟩
      rw [k2]
      intro d hd
      rcases mem_reinsert_start [] l d hd with e | e
      · simp [starts] at e
      · exact aligned_of_starts _ l al1 _ e

theorem run_cons_ptrs (fuel : Nat) (s s' : CustomMemManager) (c : Call) (cs : List Call)
    (ps : List Nat) (h : run fuel s (c :: cs) = some (s', ps)) :
    ∃ v s1 ps1, exec fuel s c = Res.ok v s1 ∧ run fuel s1 cs = some (s', ps1) ∧
      ∀ p ∈ ps, p ∈ ps1 ∨ (p = v ∧ ∃ N k, c = Call.malloc N k) := by
  simp only [run] at h
  cases hq : exec fuel s c with
  | diverge => simp [hq] at h
  | raise e s1 => simp [hq] at h
  | ok v s1 =>
    simp only [hq] at h
    cases hr : run fuel s1 cs with
    | none => simp [hr] at h
    | some r =>
      obtain ⟨s2, ps1⟩ := r
      simp only [hr] at h
      refine ⟨v, s1, ps1, rfl, ?_, ?_⟩
      · have : s2 = s' := by
          cases c <;> simp at h <;> exact h.1
        rw [hr, this]
      · intro p hp
        cases c with
        | malloc N k =>
          simp only [Option.some.injEq, Prod.mk.injEq] at h
          obtain ⟨-, rfl⟩ := h
          simp only [List.mem_append, List.mem_singleton] at hp
          rcases hp with hp | hp
          · exact Or.inl hp
          · exact Or.inr ⟨hp, N, k, rfl⟩
        | add_block b n =>
          simp only [Option.some.injEq, Prod.mk.injEq] at h
          obtain ⟨-, rfl⟩ := h
          exact Or.inl hp
        | add_block_fast b n =>
          simp only [Option.some.injEq, Prod.mk.injEq] at h
          obtain ⟨-, rfl⟩ := h
          exact Or.inl hp
        | free q =>
          simp only [Option.some.injEq, Prod.mk.injEq] at h
          obtain ⟨-, rfl⟩ := h
          exact Or.inl hp
        | free_fast q =>
          simp only [Option.some.injEq, Prod.mk.injEq] at h
          obtain ⟨-, rfl⟩ := h
          exact Or.inl hp
        | defrag =>
          simp only [Option.some.injEq, Prod.mk.injEq] at h
          obtain ⟨-, rfl⟩ := h
          exact Or.inl hp

theorem aligned_run (fuel : Nat) (cs : List Call) :
    ∀ (s s' : CustomMemManager) (ps : List Nat) (D l : List (Nat × Nat)),
    Inv D s l → Aligned s l → 16 % s.align_size = 0 →
    (∀ x, cnt D x + cnt (donated cs) x ≤ 1) → cnt (donated cs) 0 = 0 →
    run fuel s cs = some (s', ps) →
    ∃ l', Inv (D ++ donated cs) s' l' ∧ Aligned s' l' ∧ s'.align_size = s.align_size ∧
      ∀ p ∈ ps, p % s.align_size = 0 := by
  induction cs with
  | nil =>
    intro s s' ps D l hinv hal _ _ _ h
    simp only [run, Option.some.injEq, Prod.mk.injEq] at h
    obtain ⟨rfl, rfl⟩ := h
    exact ⟨l, by simpa [donated] using hinv, hal, rfl, by simp⟩
  | cons c cs ih =>
    intro s s' ps D l hinv hal ha hdon hnull h
    obtain ⟨v, s1, ps1, h1, h2, h3⟩ := run_cons_ptrs fuel s s' c cs ps h
    rw [donated_cons] at hdon hnull
    have hdon1 : ∀ x, cnt D x + cnt (donated [c]) x ≤ 1 := by
      intro x; have := hdon x; rw [cnt_append] at this; omega
    have hnull1 : cnt (donated [c]) 0 = 0 := by
      rw [cnt_append] at hnull; omega
    obtain ⟨l1, k1, k2, k3, k4⟩ := aligned_exec fuel s s1 c v D l hinv hal ha hdon1 hnull1 h1
    obtain ⟨l2, m1, m2, m3, m4⟩ := ih s1 s' ps1 (D ++ donated [c]) l1 k1 k2
      (by rw [k3]; exact ha)
      (by intro x; have := hdon x; rw [cnt_append] at this ⊢; omega)
      (by rw [cnt_append] at hnull; omega) h2
    refine ⟨l2, ?_, m2, m3.trans k3, ?_⟩
    · rw [donated_cons, ← List.append_assoc]; exact m1
    · intro p hp
      rcases h3 p hp with hp1 | ⟨rfl, N, k, hc⟩
      · rw [← k3]; exact m4 p hp1
      · exact k4 N k hc

theorem Aligned_fresh (a : Nat) (mem_next mem_size : Nat → Nat) :
    Aligned (fresh a mem_next mem_size) [] := by
  constructor <;> simp [fresh]

/-- When `align_size` divides the header size 16 (that is, for 1, 2, 4, 8 and
16), every pointer returned by malloc in a run of successful calls on pairwise
disjoint donated regions is a multiple of `align_size`. -/
theorem aligned_when_align_divides_header (a fuel : Nat) (mem_next mem_size : Nat → Nat)
    (cs : List Call) (s : CustomMemManager) (ps : List Nat) (ha : 16 % a = 0)
    (hnull : ∀ r ∈ donated cs, r.2 ≠ 0 → r.1 ≠ 0) (hdisj : (donated cs).Pairwise Disj)
    (hrun : run fuel (fresh a mem_next mem_size) cs = some (s, ps)) :
    ∀ p ∈ ps, p % a = 0 := by
  obtain ⟨l, -, -, -, h4⟩ := aligned_run fuel cs (fresh a mem_next mem_size) s ps [] []
    (Inv_fresh a mem_next mem_size) (Aligned_fresh a mem_next mem_size) ha
    (fun x => by simp only [cnt]; have := cnt_le_one_of_pairwise _ hdisj x; omega)
    (cnt_zero_of_nonnull _ hnull) hrun
  exact h4

/-- When `align_size` divides the header size 16, free of a key of the
allocation table returns normally, given enough fuel, in every state reached
by successful calls on pairwise disjoint donated regions. -/
theorem free_returns_when_align_divides_header (a fuel : Nat) (mem_next mem_size : Nat → Nat)
    (cs : List Call) (s : CustomMemManager) (ps : List Nat) (p n : Nat) (ha : 16 % a = 0)
    (hnull : ∀ r ∈ donated cs, r.2 ≠ 0 → r.1 ≠ 0) (hdisj : (donated cs).Pairwise Disj)
    (hrun : run fuel (fresh a mem_next mem_size) cs = some (s, ps))
    (hk : tbl_find s.alloc_blocks p = some n) :
    ∃ f0, ∀ f, f0 ≤ f → ∃ s', free f s p = Res.ok () s' := by
  obtain ⟨l, h1, h2, -, -⟩ := aligned_run fuel cs (fresh a mem_next mem_size) s ps [] []
    (Inv_fresh a mem_next mem_size) (Aligned_fresh a mem_next mem_size) ha
    (fun x => by simp only [cnt]; have := cnt_le_one_of_pairwise _ hdisj x; omega)
    (cnt_zero_of_nonnull _ hnull) hrun
  have hm := h2.2 _ (tbl_find_mem _ p n hk)
  refine ⟨l.length + 1, fun f hf => ?_⟩
  obtain ⟨s1, hs1⟩ := add_block_total f s p n l h1.1 (by omega) hm.2 hm.1
  refine ⟨{ s1 with alloc_blocks := tbl_erase s1.alloc_blocks p }, ?_⟩
  unfold free
  rw [hk]
  simp only [hs1]

/-! ## Termination of the loops on a well-formed free list -/

theorem malloc_search_some (st : CustomMemManager) (req : Nat) (r : List (Nat × Nat))
    (a fuel : Nat) (hl : IsList st (st.mem_next a) r) (hf : r.length < fuel) :
    ∃ res, malloc_search st req fuel a (st.mem_next a)
      (if st.mem_next a ≠ 0 then st.mem_size (st.mem_next a) else 0) = some res := by
  induction r generalizing a fuel with
  | nil =>
    have h0 : st.mem_next a = 0 := hl
    cases fuel with
    | zero => simp at hf
    | succ f => exact ⟨(a, 0, 0), by simp [malloc_search, h0]⟩
  | cons c r ih =>
    obtain ⟨e1, e2, e3, e4⟩ := hl
    cases fuel with
    | zero => simp at hf
    | succ f =>
      simp only [List.length_cons, Nat.add_lt_add_iff_right] at hf
      rw [e1]
      simp only [ne_eq, e2, not_false_eq_true, if_true, e3]
      simp only [malloc_search, ne_eq, e2, not_false_eq_true, true_and]
      by_cases hlt : c.2 < req
      · simp only [hlt, if_true]
        exact ih c.1 f e4 hf
      · simp only [hlt, if_false]
        exact ⟨_, rfl⟩

theorem malloc_search_none (st : CustomMemManager) (req : Nat) (r : List (Nat × Nat))
    (a fuel prev bs : Nat) (hl : IsList st (st.mem_next a) r)
    (h : malloc_search st req fuel a (st.mem_next a)
      (if st.mem_next a ≠ 0 then st.mem_size (st.mem_next a) else 0) = some (prev, 0, bs)) :
    take_fit req r = none := by
  induction r generalizing a fuel with
  | nil => rfl
  | cons c r ih =>
    obtain ⟨e1, e2, e3, e4⟩ := hl
    cases fuel with
    | zero => simp [malloc_search] at h
    | succ f =>
      rw [e1] at h
      simp only [ne_eq, e2, not_false_eq_true, if_true, e3] at h
      simp only [malloc_search, ne_eq, e2, not_false_eq_true, true_and] at h
      by_cases hlt : c.2 < req
      · simp only [hlt, if_true] at h
        simp only [take_fit, hlt, if_true, ih c.1 f e4 h, Option.map_none']
      · simp only [hlt, if_false, Option.some.injEq, Prod.mk.injEq] at h
        exact absurd h.2.1 e2

theorem malloc_search_found (st : CustomMemManager) (req : Nat) (r : List (Nat × Nat))
    (a fuel prev p bs : Nat) (hl : IsList st (st.mem_next a) r) (hp : p ≠ 0)
    (h : malloc_search st req fuel a (st.mem_next a)
      (if st.mem_next a ≠ 0 then st.mem_size (st.mem_next a) else 0) = some (prev, p, bs)) :
    ∃ r', take_fit req r = some (p, r') := by
  induction r generalizing a fuel with
  | nil =>
    have h0 : st.mem_next a = 0 := hl
    cases fuel with
    | zero => simp [malloc_search] at h
    | succ f =>
      simp only [malloc_search, h0, ne_eq, not_true_eq_false, false_and, if_false,
        Option.some.injEq, Prod.mk.injEq] at h
      exact absurd h.2.1.symm hp
  | cons c r ih =>
    obtain ⟨e1, e2, e3, e4⟩ := hl
    cases fuel with
    | zero => simp [malloc_search] at h
    | succ f =>
      rw [e1] at h
      simp only [ne_eq, e2, not_false_eq_true, if_true, e3] at h
      simp only [malloc_search, ne_eq, e2, not_false_eq_true, true_and] at h
      by_cases hlt : c.2 < req
      · simp only [hlt, if_true] at h
        obtain ⟨r', hr'⟩ := ih c.1 f e4 h
        exact ⟨c :: r', by simp [take_fit, hlt, hr']⟩
      · simp only [hlt, if_false, Option.some.injEq, Prod.mk.injEq] at h
        obtain ⟨-, rfl, -⟩ := h
        simp only [take_fit, hlt, if_false]
        split_ifs
        · exact ⟨_, rfl⟩
        · exact ⟨_, rfl⟩

/-- On a well-formed free list and with enough fuel, malloc returns: it throws
`std::bad_alloc` with the state unchanged when no block is large enough, and
otherwise returns the start of the first block that is. -/
theorem malloc_total (fuel : Nat) (st : CustomMemManager) (N k : Nat)
    (l : List (Nat × Nat)) (hl : IsList st st.top l) (hf : l.length < fuel) :
    (take_fit (req_size_of st.align_size N k) l = none →
      malloc fuel st N k = Res.raise Err.bad_alloc st) ∧
    (∀ p l', take_fit (req_size_of st.align_size N k) l = some (p, l') →
      ∃ st', malloc fuel st N k = Res.ok p st') := by
  unfold malloc
  simp only
  generalize req_size_of st.align_size N k = req at *
  cases l with
  | nil =>
    have h0 : st.top = 0 := hl
    simp [h0, take_fit]
  | cons c r =>
    obtain ⟨e1, e2, e3, e4⟩ := hl
    have h0 : ¬ st.top = 0 := by rw [e1]; exact e2
    simp only [h0, if_false]
    cases fuel with
    | zero => simp at hf
    | succ f =>
      simp only [List.length_cons, Nat.add_lt_add_iff_right] at hf
      simp only [malloc_search, ne_eq, h0, not_false_eq_true, true_and]
      rw [e1, e3]
      by_cases hlt : c.2 < req
      · simp only [hlt, if_true, take_fit]
        obtain ⟨res, hres⟩ := malloc_search_some st req r c.1 f e4 hf
        obtain ⟨prev, ptr, bs⟩ := res
        have hres' := hres
        simp only [ne_eq] at hres'
        simp only [hres']
        by_cases hp : ptr = 0
        · subst hp
          have hn := malloc_search_none st req r c.1 f prev bs e4 hres
          simp [hn]
        · obtain ⟨r', hr'⟩ := malloc_search_found st req r c.1 f prev ptr bs e4 hp hres
          simp only [hp, if_false, hr', Option.map_some', reduceCtorEq, false_implies,
            Option.some.injEq, Prod.mk.injEq, true_and]
          intro p l' hpl
          rw [← hpl.1]
          exact ⟨_, rfl⟩
      · simp only [hlt, if_false, e2, take_fit]
        refine ⟨?_, ?_⟩
        · split_ifs <;> simp
        · intro p l' hpl
          have : p = c.1 := by
            split_ifs at hpl <;> simp at hpl <;> exact hpl.1.symm
          rw [this]
          exact ⟨_, rfl⟩

theorem length_ins_after_le (b n a s : Nat) (r : List (Nat × Nat)) :
    (ins_after b n a s r).length ≤ r.length + 2 := by
  induction r generalizing a s with
  | nil => simp only [ins_after]; split_ifs <;> simp
  | cons c r ih =>
    simp only [ins_after]
    split_ifs
    · simp
    · simp
    · simp
    · simp
    · have := ih c.1 c.2
      simp only [List.length_cons]
      omega

theorem length_ins_le (b n : Nat) (l : List (Nat × Nat)) :
    (ins b n l).length ≤ l.length + 1 := by
  cases l with
  | nil => simp [ins]
  | cons c r =>
    simp only [ins]
    split_ifs
    · simp
    · simp
    · have := length_ins_after_le b n c.1 c.2 r
      simp only [List.length_cons]
      omega

theorem defrag_loop_total (afuel : Nat) (rem : List (Nat × Nat)) :
    ∀ (fuel : Nat) (st : CustomMemManager) (ptr : Nat) (acc : List (Nat × Nat)),
    IsList st ptr rem → IsList st st.top acc →
    (∀ c ∈ rem, sizeof_ptr + sizeof_size_t ≤ c.2 ∧ c.1 % st.align_size = 0) →
    (∀ c ∈ acc, 0 < c.2) →
    (∀ x, cnt acc x + cnt rem x ≤ 1) →
    acc.length + rem.length < afuel → rem.length < fuel →
    ∃ st', defrag_loop afuel fuel st ptr = Res.ok () st' := by
  induction rem with
  | nil =>
    intro fuel st ptr acc hrem _ _ _ _ _ hf
    have hp : ptr = 0 := hrem
    subst hp
    cases fuel with
    | zero => simp at hf
    | succ f => exact ⟨st, by simp [defrag_loop]⟩
  | cons b r ih =>
    intro fuel st ptr acc hrem hacc hok hpacc hcnt haf hf
    obtain ⟨e1, e2, e3, e4⟩ := hrem
    obtain ⟨hb16, hbal⟩ := hok b (List.mem_cons_self _ _)
    have hb : 0 < b.2 := by simp only [sizeof_ptr, sizeof_size_t] at hb16; omega
    have hpr : ∀ d ∈ r, 0 < d.2 := fun d hd => by
      have := (hok d (List.mem_cons_of_mem _ hd)).1
      simp only [sizeof_ptr, sizeof_size_t] at this
      omega
    cases fuel with
    | zero => simp at hf
    | succ f =>
      simp only [List.length_cons] at haf hf
      subst e1
      simp only [defrag_loop, ne_eq, e2, not_false_eq_true, if_true, e3]
      obtain ⟨s1, hq⟩ := add_block_total afuel st b.1 b.2 acc hacc (by omega) hb16 hbal
      simp only [hq]
      have hacc1 : ∀ x, cnt acc x ≤ 1 := fun x => by have := hcnt x; omega
      have hb_acc : b.1 ∉ starts acc := by
        apply not_mem_starts_of_cnt_zero acc hpacc
        have := hcnt b.1
        simp only [cnt] at this
        rw [if_pos ⟨le_refl _, by omega⟩] at this
        omega
      obtain ⟨s1a, s1b, s1c, s1d⟩ := add_block_sim afuel st s1 b.1 b.2 acc hacc e2 hb hb_acc
        (nodup_starts acc hpacc hacc1) hq
      have hcnt' : ∀ x, cnt (ins b.1 b.2 acc) x + cnt r x ≤ 1 := by
        intro x
        have := hcnt x
        rw [cnt_ins]
        simp only [cnt] at this ⊢
        omega
      have hr1 : IsList s1 (st.mem_next b.1) r := by
        apply IsList_congr st s1 r _ _ e4
        intro x hx
        simp only [starts, List.mem_map] at hx
        obtain ⟨d, hd, rfl⟩ := hx
        have hd2 := hpr d hd
        have hdc := cnt_pos_of_mem r d hd d.1 (le_refl _) (by omega)
        apply s1d
        · intro e
          have := hcnt d.1
          simp only [cnt] at this
          rw [if_pos ⟨by omega, by omega⟩] at this
          omega
        · apply not_mem_starts_of_cnt_zero acc hpacc
          have := hcnt d.1
          simp only [cnt] at this
          omega
      have hlen := length_ins_le b.1 b.2 acc
      exact ih f s1 (st.mem_next b.1) (ins b.1 b.2 acc) hr1 s1a
        (fun d hd => by rw [s1c]; exact hok d (List.mem_cons_of_mem _ hd))
        (pos_ins b.1 b.2 acc hb hpacc) hcnt' (by omega) (by omega)

/-- On a well-formed free list of pairwise disjoint blocks that all hold a
header and start at multiples of `align_size`, defrag returns normally given
enough fuel. -/
theorem defrag_total (fuel : Nat) (st : CustomMemManager) (l : List (Nat × Nat))
    (hl : IsList st st.top l)
    (hok : ∀ c ∈ l, sizeof_ptr + sizeof_size_t ≤ c.2 ∧ c.1 % st.align_size = 0)
    (hcnt : ∀ x, cnt l x ≤ 1) (hf : l.length < fuel) :
    ∃ st', defrag fuel st = Res.ok () st' := by
  unfold defrag
  exact defrag_loop_total fuel l fuel { st with top := 0 } st.top []
    (IsList_top_irrelevant st _ l _ rfl rfl hl) rfl hok (by simp)
    (by intro x; simp only [cnt]; have := hcnt x; omega) (by simpa using hf) hf

/-! ## The search of malloc: boundary and first fit -/

theorem free_list_from_length (s : CustomMemManager) (l : List (Nat × Nat)) (p fuel : Nat)
    (h : free_list_from s fuel p = some l) : l.length < fuel := by
  induction fuel generalizing p l with
  | zero => simp [free_list_from] at h
  | succ f ih =>
    simp only [free_list_from] at h
    split_ifs at h with hp
    · cases h; simp
    · cases hq : free_list_from s f (s.mem_next p) with
      | none => simp [hq] at h
      | some q =>
        simp only [hq, Option.map_some', Option.some.injEq] at h
        subst h
        have := ih _ _ hq
        simp only [List.length_cons]
        omega

/-- A state whose free list reads as `l` with fuel `f`: the memory represents
`l`, and any fuel from `f` on is enough to walk it. -/
theorem free_list_spec (f : Nat) (s : CustomMemManager) (l : List (Nat × Nat))
    (h : free_list f s = some l) : IsList s s.top l ∧ l.length < f :=
  ⟨IsList_of_free_list_from s l s.top f h, free_list_from_length s l s.top f h⟩

theorem take_fit_none_iff (req : Nat) (l : List (Nat × Nat)) :
    take_fit req l = none ↔ ∀ b ∈ l, b.2 < req := by
  induction l with
  | nil => simp [take_fit]
  | cons b r ih =>
    simp only [take_fit, List.forall_mem_cons]
    by_cases hlt : b.2 < req
    · simp only [hlt, if_true, Option.map_eq_none', true_and]
      exact ih
    · simp only [hlt, if_false, false_and, iff_false]
      split_ifs <;> simp

theorem take_fit_first (req : Nat) (l l' : List (Nat × Nat)) (p : Nat)
    (h : take_fit req l = some (p, l')) :
    ∃ pre z post, l = pre ++ (p, z) :: post ∧ (∀ b ∈ pre, b.2 < req) ∧ req ≤ z := by
  induction l generalizing l' with
  | nil => simp [take_fit] at h
  | cons b r ih =>
    simp only [take_fit] at h
    split_ifs at h with h1 h2
    · cases hq : take_fit req r with
      | none => simp [hq] at h
      | some q =>
        obtain ⟨q1, q2⟩ := q
        simp only [hq, Option.map_some', Option.some.injEq, Prod.mk.injEq] at h
        obtain ⟨rfl, rfl⟩ := h
        obtain ⟨pre, z, post, e1, e2, e3⟩ := ih q2 hq
        refine ⟨b :: pre, z, post, by rw [e1]; rfl, ?_, e3⟩
        simp only [List.forall_mem_cons]
        exact ⟨h1, e2⟩
    · simp only [Option.some.injEq, Prod.mk.injEq] at h
      obtain ⟨rfl, rfl⟩ := h
      exact ⟨[], b.2, r, rfl, by simp, by omega⟩
    · simp only [Option.some.injEq, Prod.mk.injEq] at h
      obtain ⟨rfl, rfl⟩ := h
      exact ⟨[], b.2, r, rfl, by simp, by omega⟩

/-- When every free block is smaller than the padded request size, malloc
throws `std::bad_alloc` and leaves the state as it was. -/
theorem malloc_bad_alloc_of_all_small (f fuel : Nat) (s : CustomMemManager) (N k : Nat)
    (l : List (Nat × Nat)) (hfl : free_list f s = some l) (hf : f ≤ fuel)
    (hsmall : ∀ b ∈ l, b.2 < req_size_of s.align_size N k) :
    malloc fuel s N k = Res.raise Err.bad_alloc s := by
  obtain ⟨hl, hlen⟩ := free_list_spec f s l hfl
  exact (malloc_total fuel s N k l hl (by omega)).1 ((take_fit_none_iff _ l).2 hsmall)

/-- Without wrap-around (the byte count plus the alignment fits in a
`size_t`), the padded request size is at least the byte count. -/
theorem req_size_of_ge_nbytes (a N k : Nat) (hno : N * k + a ≤ size_t_range) (ha : 0 < a) :
    N * k ≤ req_size_of a N k := by
  unfold req_size_of
  simp only [sizeof_ptr, sizeof_size_t]
  have h1 : (N * k) % size_t_range = N * k := Nat.mod_eq_of_lt (by omega)
  rw [h1]
  generalize N * k = x at *
  have hm : x % a < a := Nat.mod_lt _ ha
  have hle : x % a ≤ x := Nat.mod_le _ _
  by_cases h0 : x % a = 0
  · simp only [h0, if_true]
    split_ifs <;> omega
  · simp only [h0, if_false]
    have h2 : (x + a - x % a) % size_t_range = x + a - x % a := Nat.mod_eq_of_lt (by omega)
    rw [h2]
    split_ifs <;> omega

/-- C11 (failing input). With alignment 8 and the free list [(4096, 64)],
malloc of 2^64 - 1 bytes, far more than the largest free block, returns 4096:
the round-up wraps to 0, the request size becomes 16, and the table records
4096 -> 16. -/
theorem C11_huge_request_succeeds :
    free_list 8 (run_state 8 (fresh 8 zero_mem zero_mem) [Call.add_block 4096 64])
      = some [(4096, 64)] ∧
    req_size_of 8 18446744073709551615 1 = 16 ∧
    (malloc 8 (run_state 8 (fresh 8 zero_mem zero_mem) [Call.add_block 4096 64])
      18446744073709551615 1).val = some 4096 ∧
    ((malloc 8 (run_state 8 (fresh 8 zero_mem zero_mem) [Call.add_block 4096 64])
      18446744073709551615 1).state (fresh 8 zero_mem zero_mem)).alloc_blocks
      = [(4096, 16)] := by
  decide

theorem add_block_of_empty (fuel : Nat) (s : CustomMemManager) (b n : Nat)
    (h0 : n ≠ 0) (h1 : ¬ n < sizeof_ptr + sizeof_size_t) (h2 : check_alignment s b = false)
    (h3 : s.top = 0) :
    add_block fuel s b n =
      Res.ok () { s with mem_next := upd s.mem_next b s.top,
                         mem_size := upd s.mem_size b n, top := b } := by
  unfold add_block
  rw [if_neg h0, if_neg h1, h2, if_neg (by simp), if_pos h3]

theorem add_block_of_prev (fuel : Nat) (s : CustomMemManager) (b n prev : Nat)
    (h0 : n ≠ 0) (h1 : ¬ n < sizeof_ptr + sizeof_size_t) (h2 : check_alignment s b = false)
    (h3 : s.top ≠ 0) (h4 : get_prev fuel s b = some prev) :
    add_block fuel s b n = Res.ok () (add_block_link s b n prev) := by
  unfold add_block
  rw [if_neg h0, if_neg h1, h2, if_neg (by simp), if_neg h3, h4]

theorem add_block_fast_of_valid (s : CustomMemManager) (b n : Nat)
    (h0 : n ≠ 0) (h1 : ¬ n < sizeof_ptr + sizeof_size_t) (h2 : check_alignment s b = false) :
    add_block_fast s b n =
      Res.ok () { s with mem_next := upd s.mem_next b s.top,
                         mem_size := upd s.mem_size b n, top := b } := by
  unfold add_block_fast
  rw [if_neg h0, if_neg h1, h2, if_neg (by simp)]

theorem free_of_add_block (fuel : Nat) (s s1 : CustomMemManager) (p n : Nat)
    (h1 : tbl_find s.alloc_blocks p = some n) (h2 : add_block fuel s p n = Res.ok () s1) :
    free fuel s p = Res.ok () { s1 with alloc_blocks := tbl_erase s1.alloc_blocks p } := by
  unfold free
  rw [h1]
  simp only [h2]

theorem exec_add_block_ok (fuel : Nat) (s s1 : CustomMemManager) (b n : Nat)
    (h : add_block fuel s b n = Res.ok () s1) :
    exec fuel s (Call.add_block b n) = Res.ok 0 s1 := by
  simp only [exec, h]

theorem exec_add_block_fast_ok (fuel : Nat) (s s1 : CustomMemManager) (b n : Nat)
    (h : add_block_fast s b n = Res.ok () s1) :
    exec fuel s (Call.add_block_fast b n) = Res.ok 0 s1 := by
  simp only [exec, h]

theorem exec_free_ok (fuel : Nat) (s s1 : CustomMemManager) (p : Nat)
    (h : free fuel s p = Res.ok () s1) :
    exec fuel s (Call.free p) = Res.ok 0 s1 := by
  simp only [exec, h]

theorem exec_defrag_ok (fuel : Nat) (s s1 : CustomMemManager)
    (h : defrag fuel s = Res.ok () s1) :
    exec fuel s Call.defrag = Res.ok 0 s1 := by
  simp only [exec, h]

theorem run_cons_malloc (fuel : Nat) (s s1 s2 : CustomMemManager) (N k v : Nat)
    (cs : List Call) (ps : List Nat)
    (h : malloc fuel s N k = Res.ok v s1) (hr : run fuel s1 cs = some (s2, ps)) :
    run fuel s (Call.malloc N k :: cs) = some (s2, ps ++ [v]) := by
  simp only [run, exec, h, hr]

theorem run_cons_add_block (fuel : Nat) (s s1 s2 : CustomMemManager) (b n : Nat)
    (cs : List Call) (ps : List Nat)
    (h : add_block fuel s b n = Res.ok () s1) (hr : run fuel s1 cs = some (s2, ps)) :
    run fuel s (Call.add_block b n :: cs) = some (s2, ps) := by
  simp only [run, exec, h, hr]

theorem run_cons_add_block_fast (fuel : Nat) (s s1 s2 : CustomMemManager) (b n : Nat)
    (cs : List Call) (ps : List Nat)
    (h : add_block_fast s b n = Res.ok () s1) (hr : run fuel s1 cs = some (s2, ps)) :
    run fuel s (Call.add_block_fast b n :: cs) = some (s2, ps) := by
  simp only [run, exec, h, hr]

theorem run_cons_free (fuel : Nat) (s s1 s2 : CustomMemManager) (p : Nat)
    (cs : List Call) (ps : List Nat)
    (h : free fuel s p = Res.ok () s1) (hr : run fuel s1 cs = some (s2, ps)) :
    run fuel s (Call.free p :: cs) = some (s2, ps) := by
  simp only [run, exec, h, hr]

theorem run_cons_defrag (fuel : Nat) (s s1 s2 : CustomMemManager)
    (cs : List Call) (ps : List Nat)
    (h : defrag fuel s = Res.ok () s1) (hr : run fuel s1 cs = some (s2, ps)) :
    run fuel s (Call.defrag :: cs) = some (s2, ps) := by
  simp only [run, exec, h, hr]

theorem run_nil (fuel : Nat) (s : CustomMemManager) : run fuel s [] = some (s, []) := rfl

theorem run_state_of_run (fuel : Nat) (s s2 : CustomMemManager) (cs : List Call)
    (ps : List Nat) (h : run fuel s cs = some (s2, ps)) : run_state fuel s cs = s2 := by
  simp only [run_state, h]

theorem run_ptrs_of_run (fuel : Nat) (s s2 : CustomMemManager) (cs : List Call)
    (ps : List Nat) (h : run fuel s cs = some (s2, ps)) : run_ptrs fuel s cs = ps := by
  simp only [run_ptrs, h]

theorem scen_add (m n : Nat → Nat) :
    add_block 8 (fresh 8 m n) 4096 64 =
      Res.ok () ⟨4096, 8, [], upd m 4096 0, upd n 4096 64⟩ :=
  add_block_of_empty 8 (fresh 8 m n) 4096 64 (by decide) (by decide)
    (by simp only [check_alignment, fresh]; rfl) rfl

theorem scen_malloc (m n : Nat → Nat) :
    malloc 8 ⟨4096, 8, [], upd m 4096 0, upd n 4096 64⟩ 32 1 =
      Res.ok 4096 ⟨4128, 8, [(4096, 32)], upd (upd m 4096 0) 4128 0,
        upd (upd n 4096 64) 4128 32⟩ := by
  have hr : req_size_of 8 32 1 = 32 := by decide
  simp only [malloc, hr]
  simp only [malloc_search, upd]
  simp
  simp only [malloc_take, upd, tbl_assign, tbl_erase]
  simp

theorem scen_free (m n : Nat → Nat) :
    free 8 ⟨4128, 8, [(4096, 32)], upd (upd m 4096 0) 4128 0,
        upd (upd n 4096 64) 4128 32⟩ 4096 =
      Res.ok () ⟨4096, 8, [],
        upd (upd (upd m 4096 0) 4128 0) 4096 0,
        upd (upd (upd n 4096 64) 4128 32) 4096 64⟩ := by
  have hp : get_prev 8 ⟨4128, 8, [(4096, 32)], upd (upd m 4096 0) 4128 0,
      upd (upd n 4096 64) 4128 32⟩ 4096 = some 0 := by
    unfold get_prev; exact if_pos (show 4128 > 4096 by decide)
  have ha := add_block_of_prev 8 ⟨4128, 8, [(4096, 32)], upd (upd m 4096 0) 4128 0,
      upd (upd n 4096 64) 4128 32⟩ 4096 32 0 (by decide) (by decide)
      (by simp only [check_alignment]; rfl) (by simp) hp
  rw [free_of_add_block 8 _ _ 4096 32 (by simp only [tbl_find, if_true]) ha]
  simp only [add_block_link, upd]
  simp
  simp only [tbl_erase, if_true]

theorem scen_run2 (m n : Nat → Nat) :
    run 8 (fresh 8 m n) [Call.add_block 4096 64, Call.malloc 32 1] =
      some (⟨4128, 8, [(4096, 32)], upd (upd m 4096 0) 4128 0,
        upd (upd n 4096 64) 4128 32⟩, [4096]) :=
  run_cons_add_block 8 _ _ _ 4096 64 _ _ (scen_add m n)
    (run_cons_malloc 8 _ _ _ 32 1 4096 [] [] (scen_malloc m n) (run_nil 8 _))

theorem scen_run3 (m n : Nat → Nat) :
    run 8 (fresh 8 m n) [Call.add_block 4096 64, Call.malloc 32 1, Call.free 4096] =
      some (⟨4096, 8, [],
        upd (upd (upd m 4096 0) 4128 0) 4096 0,
        upd (upd (upd n 4096 64) 4128 32) 4096 64⟩, [4096]) :=
  run_cons_add_block 8 _ _ _ 4096 64 _ _ (scen_add m n)
    (run_cons_malloc 8 _ _ _ 32 1 4096 _ [] (scen_malloc m n)
      (run_cons_free 8 _ _ _ 4096 [] [] (scen_free m n) (run_nil 8 _)))

/-- C13. Scenario with alignment 8 on a fresh allocator, whatever the memory
holds: after add_block(4096, 64), malloc of 32 bytes returns 4096, the free
list is [(4128, 32)] and the table is [4096 -> 32]; a following free(4096)
returns normally and leaves the free list [(4096, 64)] and an empty table. -/
theorem C13_scenario (mem_next mem_size : Nat → Nat) :
    run_ptrs 8 (fresh 8 mem_next mem_size)
      [Call.add_block 4096 64, Call.malloc 32 1] = [4096] ∧
    free_list 8 (run_state 8 (fresh 8 mem_next mem_size)
      [Call.add_block 4096 64, Call.malloc 32 1]) = some [(4128, 32)] ∧
    (run_state 8 (fresh 8 mem_next mem_size)
      [Call.add_block 4096 64, Call.malloc 32 1]).alloc_blocks = [(4096, 32)] ∧
    (run 8 (fresh 8 mem_next mem_size)
      [Call.add_block 4096 64, Call.malloc 32 1, Call.free 4096]).isSome = true ∧
    free_list 8 (run_state 8 (fresh 8 mem_next mem_size)
      [Call.add_block 4096 64, Call.malloc 32 1, Call.free 4096]) = some [(4096, 64)] ∧
    (run_state 8 (fresh 8 mem_next mem_size)
      [Call.add_block 4096 64, Call.malloc 32 1, Call.free 4096]).alloc_blocks = [] := by
  rw [run_ptrs_of_run _ _ _ _ _ (scen_run2 mem_next mem_size),
    run_state_of_run _ _ _ _ _ (scen_run2 mem_next mem_size),
    run_state_of_run _ _ _ _ _ (scen_run3 mem_next mem_size),
    scen_run3 mem_next mem_size]
  refine ⟨rfl, ?_, rfl, rfl, ?_, rfl⟩
  · exact free_list_from_of_IsList _ [(4128, 32)] 4128 8
      ⟨rfl, by decide, by simp only [upd_same], by simp only [IsList, upd_same]⟩ (by decide)
  · exact free_list_from_of_IsList _ [(4096, 64)] 4096 8
      ⟨rfl, by decide, by simp only [upd_same], by simp only [IsList, upd_same]⟩ (by decide)

theorem add_block_of_misaligned (fuel : Nat) (s : CustomMemManager) (b n : Nat)
    (h0 : n ≠ 0) (h1 : ¬ n < sizeof_ptr + sizeof_size_t) (h2 : check_alignment s b = true) :
    add_block fuel s b n = Res.raise Err.bad_alignment s := by
  unfold add_block
  rw [if_neg h0, if_neg h1, if_pos h2]

theorem add_block_fast_of_misaligned (s : CustomMemManager) (b n : Nat)
    (h0 : n ≠ 0) (h1 : ¬ n < sizeof_ptr + sizeof_size_t) (h2 : check_alignment s b = true) :
    add_block_fast s b n = Res.raise Err.bad_alignment s := by
  unfold add_block_fast
  rw [if_neg h0, if_neg h1, if_pos h2]

/-- C15. Misalignment scenario: in every state with alignment 8,
add_block(4097, 64) throws the bad-alignment error and the state is the one
before the call; on a fresh allocator the free list is empty afterwards. -/
theorem C15_misaligned_donation (fuel top : Nat) (alloc_blocks : List (Nat × Nat))
    (mem_next mem_size : Nat → Nat) :
    add_block fuel ⟨top, 8, alloc_blocks, mem_next, mem_size⟩ 4097 64 =
      Res.raise Err.bad_alignment ⟨top, 8, alloc_blocks, mem_next, mem_size⟩ ∧
    free_list 1 ((add_block fuel (fresh 8 mem_next mem_size) 4097 64).state
      ⟨top, 8, alloc_blocks, mem_next, mem_size⟩) = some [] := by
  refine ⟨add_block_of_misaligned fuel _ 4097 64 (by decide) (by decide)
    (by simp only [check_alignment]; rfl), ?_⟩
  rw [add_block_of_misaligned fuel (fresh 8 mem_next mem_size) 4097 64 (by decide) (by decide)
    (by simp only [check_alignment, fresh]; rfl)]
  rfl

/-- C14. Validation of add_block and add_block_fast for a positive
align_size, in this order: a size of
0 returns normally with the state unchanged; a size below the header size
throws the block-too-small error; a size that holds a header with a pointer
that is not a multiple of align_size throws the bad-alignment error; every
other block is admitted (add_block returns once its scan of the free list has
the fuel to finish). A throw leaves the state unchanged. -/
theorem C14_validation (fuel : Nat) (s : CustomMemManager) (ptr size : Nat)
    (_ha : 0 < s.align_size) :
    (size = 0 →
      add_block fuel s ptr size = Res.ok () s ∧ add_block_fast s ptr size = Res.ok () s) ∧
    (0 < size → size < sizeof_ptr + sizeof_size_t →
      add_block fuel s ptr size = Res.raise Err.block_too_small s ∧
      add_block_fast s ptr size = Res.raise Err.block_too_small s) ∧
    (sizeof_ptr + sizeof_size_t ≤ size → ptr % s.align_size ≠ 0 →
      add_block fuel s ptr size = Res.raise Err.bad_alignment s ∧
      add_block_fast s ptr size = Res.raise Err.bad_alignment s) ∧
    (sizeof_ptr + sizeof_size_t ≤ size → ptr % s.align_size = 0 →
      (∃ s', add_block_fast s ptr size = Res.ok () s') ∧
      ∀ f l, free_list f s = some l → f ≤ fuel →
        ∃ s', add_block fuel s ptr size = Res.ok () s') := by
  refine ⟨?_, ?_, ?_, ?_⟩
  · intro h
    subst h
    exact ⟨add_block_zero fuel s ptr, add_block_fast_zero s ptr⟩
  · intro h0 h1
    have hn : ¬ size = 0 := by omega
    constructor
    · unfold add_block; simp only [hn, if_false, h1, if_true]
    · unfold add_block_fast; simp only [hn, if_false, h1, if_true]
  · intro h1 h2
    have hn : ¬ size = 0 := by simp only [sizeof_ptr, sizeof_size_t] at h1; omega
    have hs : ¬ size < sizeof_ptr + sizeof_size_t := by omega
    have hc : check_alignment s ptr = true := by simp [check_alignment, h2]
    constructor
    · unfold add_block; simp only [hn, if_false, hs, hc, if_true]
    · unfold add_block_fast; simp only [hn, if_false, hs, hc, if_true]
  · intro h1 h2
    have hn : ¬ size = 0 := by simp only [sizeof_ptr, sizeof_size_t] at h1; omega
    have hs : ¬ size < sizeof_ptr + sizeof_size_t := by omega
    have hc : check_alignment s ptr = false := by simp [check_alignment, h2]
    constructor
    · exact ⟨_, add_block_fast_of_valid s ptr size hn hs hc⟩
    · intro f l hfl hf
      obtain ⟨hl, hlen⟩ := free_list_spec f s l hfl
      exact add_block_total fuel s ptr size l hl (by omega) h1 h2

/-- Witness for C14: the four cases on a state with the free list
[(4096, 64)] and alignment 8. -/
theorem C14_validation_witness :
    0 < (run_state 8 (fresh 8 zero_mem zero_mem) [Call.add_block 4096 64]).align_size ∧
    (add_block 8 (run_state 8 (fresh 8 zero_mem zero_mem) [Call.add_block 4096 64]) 8193 0 =
        Res.ok () (run_state 8 (fresh 8 zero_mem zero_mem) [Call.add_block 4096 64]) ∧
      add_block_fast (run_state 8 (fresh 8 zero_mem zero_mem) [Call.add_block 4096 64]) 8193 0 =
        Res.ok () (run_state 8 (fresh 8 zero_mem zero_mem) [Call.add_block 4096 64])) ∧
    (add_block 8 (run_state 8 (fresh 8 zero_mem zero_mem) [Call.add_block 4096 64]) 8193 15 =
        Res.raise Err.block_too_small
          (run_state 8 (fresh 8 zero_mem zero_mem) [Call.add_block 4096 64]) ∧
      add_block_fast (run_state 8 (fresh 8 zero_mem zero_mem) [Call.add_block 4096 64]) 8193 15 =
        Res.raise Err.block_too_small
          (run_state 8 (fresh 8 zero_mem zero_mem) [Call.add_block 4096 64])) ∧
    (add_block 8 (run_state 8 (fresh 8 zero_mem zero_mem) [Call.add_block 4096 64]) 8193 16 =
        Res.raise Err.bad_alignment
          (run_state 8 (fresh 8 zero_mem zero_mem) [Call.add_block 4096 64]) ∧
      add_block_fast (run_state 8 (fresh 8 zero_mem zero_mem) [Call.add_block 4096 64]) 8193 16 =
        Res.raise Err.bad_alignment
          (run_state 8 (fresh 8 zero_mem zero_mem) [Call.add_block 4096 64])) ∧
    ((∃ s', add_block_fast (run_state 8 (fresh 8 zero_mem zero_mem) [Call.add_block 4096 64])
        8192 16 = Res.ok () s') ∧
      ∃ s', add_block 8 (run_state 8 (fresh 8 zero_mem zero_mem) [Call.add_block 4096 64])
        8192 16 = Res.ok () s') :=
  ⟨by decide, (C14_validation 8 _ 8193 0 (by decide)).1 rfl,
   (C14_validation 8 _ 8193 15 (by decide)).2.1 (by decide) (by decide),
   (C14_validation 8 _ 8193 16 (by decide)).2.2.1 (by decide) (by decide),
   ((C14_validation 8 _ 8192 16 (by decide)).2.2.2 (by decide) (by decide)).1,
   ((C14_validation 8 _ 8192 16 (by decide)).2.2.2 (by decide) (by decide)).2 8 [(4096, 64)]
     (by decide) (le_refl _)⟩

/-- C19. The compatibility shims are the primitives: add_ordered_block is
add_block whatever the dummy, malloc_n(n, block_size) is malloc of
n * block_size bytes (and malloc of n elements of block_size bytes),
ordered_free_n is free whatever the dummies; outcome and final state agree. -/
theorem C19_shims (fuel : Nat) (s : CustomMemManager) (ptr size d n block_size d1 d2 : Nat) :
    add_ordered_block fuel s ptr size d = add_block fuel s ptr size ∧
    malloc_n fuel s n block_size = malloc fuel s (n * block_size) 1 ∧
    malloc_n fuel s n block_size = malloc fuel s n block_size ∧
    ordered_free_n fuel s ptr d1 d2 = free fuel s ptr := by
  have h1 : req_size_of s.align_size ((n * block_size) % size_t_range) 1 =
      req_size_of s.align_size (n * block_size) 1 := by
    unfold req_size_of
    simp only [Nat.mul_one, Nat.mod_mod]
  have h2 : req_size_of s.align_size ((n * block_size) % size_t_range) 1 =
      req_size_of s.align_size n block_size := by
    unfold req_size_of
    simp only [Nat.mul_one, Nat.mod_mod]
  refine ⟨rfl, ?_, ?_, rfl⟩
  · unfold malloc_n malloc
    simp only [h1]
  · unfold malloc_n malloc
    simp only [h2]

/-! ## Defragmentation after fast pushes -/

theorem add_block_fast_ok_guard (st st' : CustomMemManager) (b n : Nat) (hn : 0 < n)
    (h : add_block_fast st b n = Res.ok () st') :
    sizeof_ptr + sizeof_size_t ≤ n ∧ b % st.align_size = 0 := by
  unfold add_block_fast at h
  have hn0 : ¬ n = 0 := by omega
  simp only [hn0, if_false] at h
  split_ifs at h with h1 h2
  refine ⟨by omega, ?_⟩
  simpa [check_alignment] using h2

theorem exec_add_block_fast_inv (fuel : Nat) (s s1 : CustomMemManager) (b n v : Nat)
    (h : exec fuel s (Call.add_block_fast b n) = Res.ok v s1) :
    add_block_fast s b n = Res.ok () s1 := by
  simp only [exec] at h
  cases hq : add_block_fast s b n with
  | diverge => simp [hq] at h
  | raise e s2 => simp [hq] at h
  | ok u s2 =>
    simp only [hq, Res.ok.injEq] at h
    rw [h.2]

theorem length_reinsert_le (l : List (Nat × Nat)) :
    ∀ acc : List (Nat × Nat), (reinsert acc l).length ≤ acc.length + l.length := by
  induction l with
  | nil => intro acc; simp [reinsert]
  | cons b r ih =>
    intro acc
    simp only [reinsert, List.length_cons]
    have h1 := ih (ins b.1 b.2 acc)
    have h2 := length_ins_le b.1 b.2 acc
    omega

theorem fast_run_admitted (fuel : Nat) (cs : List Call) :
    ∀ (s s' : CustomMemManager) (ps : List Nat) (D l : List (Nat × Nat)),
    only_add_block_fast cs = true → Inv D s l → Admitted s l →
    (∀ x, cnt D x + cnt (donated cs) x ≤ 1) → cnt (donated cs) 0 = 0 →
    run fuel s cs = some (s', ps) →
    ∃ l', Inv (D ++ donated cs) s' l' ∧ Admitted s' l' ∧
      l'.length ≤ l.length + cs.length ∧ s'.alloc_blocks = s.alloc_blocks := by
  induction cs with
  | nil =>
    intro s s' ps D l _ hinv had _ _ h
    simp only [run, Option.some.injEq, Prod.mk.injEq] at h
    obtain ⟨rfl, -⟩ := h
    exact ⟨l, by simpa [donated] using hinv, had, by simp, rfl⟩
  | cons c cs ih =>
    intro s s' ps D l ho hinv had hdon hnull h
    obtain ⟨v, s1, ps1, h1, h2⟩ := run_cons_some fuel s s' c cs ps h
    cases c with
    | add_block b n => simp [only_add_block_fast] at ho
    | malloc N k => simp [only_add_block_fast] at ho
    | free p => simp [only_add_block_fast] at ho
    | free_fast p => simp [only_add_block_fast] at ho
    | defrag => simp [only_add_block_fast] at ho
    | add_block_fast b n =>
      simp only [only_add_block_fast] at ho
      have hq := exec_add_block_fast_inv fuel s s1 b n v h1
      rw [donated_cons] at hdon hnull
      have hd1 : donated [Call.add_block_fast b n] = [(b, n)] := rfl
      rw [hd1] at hdon hnull
      have hdon1 : ∀ x, cnt D x + cnt [(b, n)] x ≤ 1 := by
        intro x; have := hdon x; rw [cnt_append] at this; omega
      have hnull1 : cnt [(b, n)] 0 = 0 := by
        rw [cnt_append] at hnull; omega
      obtain ⟨k1, k2, k3⟩ := inv_add_block_fast s s1 b n D l hinv hdon1 hnull1 hq
      have had1 : Admitted s1 (if n = 0 then l else (b, n) :: l) := by
        intro c hc
        rw [k2]
        by_cases hn : n = 0
        · rw [if_pos hn] at hc
          exact had c hc
        · rw [if_neg hn] at hc
          rcases List.mem_cons.1 hc with rfl | hc
          · exact add_block_fast_ok_guard s s1 b n (by omega) hq
          · exact had c hc
      obtain ⟨l2, m1, m2, m3, m4⟩ := ih s1 s' ps1 (D ++ [(b, n)]) _ ho k1 had1
        (by intro x; have := hdon x; rw [cnt_append] at this ⊢; omega)
        (by rw [cnt_append] at hnull; omega) h2
      refine ⟨l2, ?_, m2, ?_, m4.trans k3⟩
      · rw [donated_cons, hd1, ← List.append_assoc]; exact m1
      · have : (if n = 0 then l else (b, n) :: l).length ≤ l.length + 1 := by
          split_ifs <;> simp
        simp only [List.length_cons]
        omega

/-- C17. From a fresh allocator, after any sequence of successful
add_block_fast calls on pairwise disjoint regions (none starting at the null
address), whatever their order, defrag returns normally once it has the fuel
for the length of the list, and the free list it leaves is strictly ascending
by address with no two list-adjacent blocks memory-adjacent, holds the same
total number of bytes and covers every byte exactly as often as before; the
allocation table is unchanged. -/
theorem C17_defrag_after_fast (a fuel dfuel : Nat) (mem_next mem_size : Nat → Nat)
    (cs : List Call) (s : CustomMemManager) (ps : List Nat)
    (honly : only_add_block_fast cs = true)
    (hnull : ∀ r ∈ donated cs, r.2 ≠ 0 → r.1 ≠ 0) (hdisj : (donated cs).Pairwise Disj)
    (hrun : run fuel (fresh a mem_next mem_size) cs = some (s, ps))
    (hfuel : cs.length < dfuel) :
    ∃ l s' l', free_list dfuel s = some l ∧ defrag dfuel s = Res.ok () s' ∧
      free_list dfuel s' = some l' ∧ ordered_ok l' ∧ l'.Pairwise Disj ∧
      total l' = total l ∧ (∀ x, cnt l' x = cnt l x) ∧
      s'.alloc_blocks = s.alloc_blocks := by
  obtain ⟨l, h1, h2, h3, -⟩ := fast_run_admitted fuel cs (fresh a mem_next mem_size) s ps [] []
    honly (Inv_fresh a mem_next mem_size) (by intro c hc; simp at hc)
    (fun x => by simp only [cnt]; have := cnt_le_one_of_pairwise _ hdisj x; omega)
    (cnt_zero_of_nonnull _ hnull) hrun
  simp only [List.nil_append, List.length_nil, Nat.zero_add] at h1 h3
  have hl1 : ∀ x, cnt l x ≤ 1 := by
    intro x
    have e1 := h1.2.2.2.1 x
    have e2 := cnt_le_one_of_pairwise _ hdisj x
    omega
  obtain ⟨s', hd⟩ := defrag_total dfuel s l h1.1 h2 hl1 (by omega)
  obtain ⟨k1, k2, k3, k4⟩ := inv_defrag dfuel s s' (donated cs) l h1 hd
  have hlen := length_reinsert_le l []
  have hc' : ∀ x, cnt (reinsert [] l) x ≤ 1 := by
    intro x
    rw [cnt_reinsert]
    have := hl1 x
    simp only [cnt]
    omega
  refine ⟨l, s', reinsert [] l, free_list_from_of_IsList s l s.top dfuel h1.1 (by omega), hd,
    free_list_from_of_IsList s' _ s'.top dfuel k1.1 (by simp only [List.length_nil] at hlen; omega),
    ordered_ok_of_gap _ k4, pairwise_of_cnt_le_one _ hc', ?_, ?_, k3⟩
  · rw [total_reinsert]; simp [total]
  · intro x; rw [cnt_reinsert]; simp [cnt]

/-- Witness for C17: three adjacent 16-byte regions pushed out of address
order; defrag merges them into one block. -/
theorem C17_defrag_after_fast_witness :
    ∃ l s' l', free_list 8 (run_state 8 (fresh 8 zero_mem zero_mem)
        [Call.add_block_fast 4112 16, Call.add_block_fast 4128 16,
          Call.add_block_fast 4096 16]) = some l ∧
      defrag 8 (run_state 8 (fresh 8 zero_mem zero_mem)
        [Call.add_block_fast 4112 16, Call.add_block_fast 4128 16,
          Call.add_block_fast 4096 16]) = Res.ok () s' ∧
      free_list 8 s' = some l' ∧ ordered_ok l' ∧ l'.Pairwise Disj ∧
      total l' = total l ∧ (∀ x, cnt l' x = cnt l x) ∧
      s'.alloc_blocks = (run_state 8 (fresh 8 zero_mem zero_mem)
        [Call.add_block_fast 4112 16, Call.add_block_fast 4128 16,
          Call.add_block_fast 4096 16]).alloc_blocks :=
  C17_defrag_after_fast 8 8 8 zero_mem zero_mem
    [Call.add_block_fast 4112 16, Call.add_block_fast 4128 16, Call.add_block_fast 4096 16]
    _ [] (by decide) (by decide) (by decide) rfl (by decide)

/-! ## The recorded request size -/

theorem malloc_records_req_size (fuel : Nat) (s s' : CustomMemManager) (N k p : Nat)
    (h : malloc fuel s N k = Res.ok p s') :
    tbl_find s'.alloc_blocks p = some (req_size_of s.align_size N k) := by
  unfold malloc at h
  simp only at h
  split_ifs at h with h0
  split at h
  · cases h
  · rename_i prev ptr bs hs
    split_ifs at h with hp
    simp only [Res.ok.injEq] at h
    obtain ⟨rfl, rfl⟩ := h
    rw [(malloc_take_fields s _ prev ptr bs).1]
    simp [tbl_assign, tbl_find]

theorem req_size_of_no_wrap (a N k : Nat) (hno : N * k + a ≤ size_t_range) (ha : 0 < a) :
    ∃ r, a ∣ r ∧ N * k ≤ r ∧ r < N * k + a ∧
      req_size_of a N k = max r (sizeof_ptr + sizeof_size_t) := by
  unfold req_size_of
  simp only [sizeof_ptr, sizeof_size_t]
  have h1 : (N * k) % size_t_range = N * k := Nat.mod_eq_of_lt (by omega)
  rw [h1]
  generalize N * k = x at *
  have hm : x % a < a := Nat.mod_lt _ ha
  have hle : x % a ≤ x := Nat.mod_le _ _
  have hdm := Nat.div_add_mod x a
  by_cases h0 : x % a = 0
  · refine ⟨x, Nat.dvd_of_mod_eq_zero h0, le_refl _, by omega, ?_⟩
    simp only [h0, if_true]
    split_ifs with h <;> omega
  · refine ⟨x + a - x % a, ?_, by omega, by omega, ?_⟩
    · refine ⟨x / a + 1, ?_⟩
      rw [Nat.mul_add, Nat.mul_one]
      omega
    · simp only [h0, if_false]
      have h2 : (x + a - x % a) % size_t_range = x + a - x % a := Nat.mod_eq_of_lt (by omega)
      rw [h2]
      split_ifs with h <;> omega

/-- C18 (failing input). With alignment 8 and the free list [(4096, 64)],
malloc of 2^61 + 1 objects of 8 bytes returns 4096: the byte count
8 * (2^61 + 1) = 2^64 + 8 wraps to 8, the request size becomes 16, and the
table records 4096 -> 16, which is below the number of bytes asked for and is
not the least multiple of 8 above it. -/
theorem C18_recorded_size_below_request :
    free_list 8 (run_state 8 (fresh 8 zero_mem zero_mem) [Call.add_block 4096 64])
      = some [(4096, 64)] ∧
    2305843009213693953 * 8 = 18446744073709551624 ∧
    req_size_of 8 2305843009213693953 8 = 16 ∧
    (malloc 8 (run_state 8 (fresh 8 zero_mem zero_mem) [Call.add_block 4096 64])
      2305843009213693953 8).val = some 4096 ∧
    tbl_find ((malloc 8 (run_state 8 (fresh 8 zero_mem zero_mem) [Call.add_block 4096 64])
      2305843009213693953 8).state (fresh 8 zero_mem zero_mem)).alloc_blocks 4096
      = some 16 ∧
    ¬ (2305843009213693953 * 8 ≤ 16) := by
  decide

/-! ## Canonical form of the free list -/

theorem gap_of_ordered_disj (l : List (Nat × Nat)) (hord : ordered_ok l)
    (hdisj : l.Pairwise Disj) (hpos : ∀ c ∈ l, 0 < c.2) : Gap l := by
  induction l with
  | nil => simp [Gap]
  | cons x r ih =>
    cases r with
    | nil => simp [Gap]
    | cons y t =>
      unfold ordered_ok at hord
      rw [List.chain'_cons] at hord
      rw [List.pairwise_cons] at hdisj
      have hg := ih hord.2 hdisj.2 (fun c hc => hpos c (List.mem_cons_of_mem _ hc))
      unfold Gap at hg ⊢
      rw [List.chain'_cons]
      refine ⟨?_, hg⟩
      have hd := hdisj.1 y (List.mem_cons_self _ _)
      have hx := hpos x (List.mem_cons_self _ _)
      have hy := hpos y (List.mem_cons_of_mem _ (List.mem_cons_self _ _))
      have h1 := hord.1
      unfold Disj at hd
      omega

theorem pairwise_disj_of_gap (l : List (Nat × Nat)) (hg : Gap l) : l.Pairwise Disj := by
  induction l with
  | nil => exact List.Pairwise.nil
  | cons x r ih =>
    unfold Gap at hg
    rw [List.pairwise_cons]
    refine ⟨?_, ih (List.Chain'.tail hg)⟩
    intro c hc
    have := chain_lt_starts x r hg c.1 (List.mem_map_of_mem _ hc)
    unfold Disj
    omega

theorem add_block_canonical (f fuel : Nat) (s : CustomMemManager) (b n : Nat)
    (l : List (Nat × Nat)) (hfl : free_list f s = some l) (hf : f ≤ fuel)
    (hg : Gap l) (hpos : ∀ c ∈ l, 0 < c.2)
    (hb0 : b ≠ 0) (hn : sizeof_ptr + sizeof_size_t ≤ n) (hal : b % s.align_size = 0)
    (hnew : ∀ c ∈ l, Disj (b, n) c) :
    ∃ s', add_block fuel s b n = Res.ok () s' ∧
      IsList s' s'.top (ins b n l) ∧ (ins b n l).length < f + 1 ∧ Gap (ins b n l) ∧
      s'.alloc_blocks = s.alloc_blocks ∧ s'.align_size = s.align_size := by
  obtain ⟨hl, hlen⟩ := free_list_spec f s l hfl
  have hn0 : 0 < n := by simp only [sizeof_ptr, sizeof_size_t] at hn; omega
  obtain ⟨s', hs'⟩ := add_block_total fuel s b n l hl (by omega) hn hal
  have hc1 : ∀ x, cnt l x ≤ 1 := cnt_le_one_of_pairwise l (pairwise_disj_of_gap l hg)
  have hb : b ∉ starts l := by
    intro hmem
    obtain ⟨c, hc, rfl⟩ := List.mem_map.1 hmem
    have hd := hnew c hc
    have := hpos c hc
    unfold Disj at hd
    simp only at hd
    omega
  obtain ⟨k1, k2, k3, -⟩ := add_block_sim fuel s s' b n l hl hb0 hn0 hb
    (nodup_starts l hpos hc1) hs'
  have := length_ins_le b n l
  exact ⟨s', hs', k1, by omega, gap_ins b n hn0 l hg hnew hpos, k2, k3⟩

/-! ## The coalescing cases of `add_block` -/

theorem ins_after_skip (b n : Nat) (pre : List (Nat × Nat)) :
    ∀ (x1 x2 a s1 : Nat) (rest : List (Nat × Nat)),
    (∀ c ∈ pre, c.1 ≤ b) → a ≤ b →
    ins_after b n x1 x2 (pre ++ (a, s1) :: rest) =
      (x1, x2) :: pre ++ ins_after b n a s1 rest := by
  induction pre with
  | nil =>
    intro x1 x2 a s1 rest _ ha
    simp only [List.nil_append, ins_after]
    rw [if_neg (by omega)]
    rfl
  | cons y pre ih =>
    intro x1 x2 a s1 rest hpre ha
    have hy : y.1 ≤ b := hpre y (List.mem_cons_self _ _)
    show ins_after b n x1 x2 (y :: (pre ++ (a, s1) :: rest)) = _
    rw [ins_after, if_neg (by omega),
      ih y.1 y.2 a s1 rest (fun c hc => hpre c (List.mem_cons_of_mem _ hc)) ha]
    rfl

theorem ins_skip (b n : Nat) (pre : List (Nat × Nat)) (a s1 : Nat)
    (rest : List (Nat × Nat)) (hpre : ∀ c ∈ pre, c.1 ≤ b) (ha : a ≤ b) :
    ins b n (pre ++ (a, s1) :: rest) = pre ++ ins_after b n a s1 rest := by
  cases pre with
  | nil =>
    simp only [List.nil_append, ins]
    rw [if_neg (by omega)]
  | cons y pre =>
    have hy : y.1 ≤ b := hpre y (List.mem_cons_self _ _)
    show ins b n (y :: (pre ++ (a, s1) :: rest)) = _
    rw [ins, if_neg (by omega)]
    exact ins_after_skip b n pre y.1 y.2 a s1 rest
      (fun c hc => hpre c (List.mem_cons_of_mem _ hc)) ha

theorem ascending_prefix_lt (pre : List (Nat × Nat)) (x : Nat × Nat)
    (rest : List (Nat × Nat))
    (h : (pre ++ x :: rest).Chain' (fun u v : Nat × Nat => u.1 < v.1)) :
    ∀ c ∈ pre, c.1 < x.1 := by
  have hp : (pre ++ x :: rest).Pairwise (fun u v : Nat × Nat => u.1 < v.1) := by
    have ht : IsTrans (Nat × Nat) (fun u v : Nat × Nat => u.1 < v.1) :=
      ⟨fun _ _ _ h1 h2 => Nat.lt_trans h1 h2⟩
    exact List.chain'_iff_pairwise.1 h
  rw [List.pairwise_append] at hp
  intro c hc
  exact hp.2.2 c hc x (List.mem_cons_self _ _)

theorem ascending_nodup (l : List (Nat × Nat))
    (h : l.Chain' (fun u v : Nat × Nat => u.1 < v.1)) : (starts l).Nodup := by
  have hp : l.Pairwise (fun u v : Nat × Nat => u.1 < v.1) := by
    have ht : IsTrans (Nat × Nat) (fun u v : Nat × Nat => u.1 < v.1) :=
      ⟨fun _ _ _ h1 h2 => Nat.lt_trans h1 h2⟩
    exact List.chain'_iff_pairwise.1 h
  unfold starts
  rw [List.Nodup, List.pairwise_map]
  exact hp.imp (fun h => Nat.ne_of_lt h)

/-! ## The effect of `malloc` on the free list -/

theorem take_fit_of_shape (req : Nat) (pre : List (Nat × Nat)) (p z : Nat)
    (post : List (Nat × Nat)) (hpre : ∀ b ∈ pre, b.2 < req) (hz : req ≤ z) :
    take_fit req (pre ++ (p, z) :: post) =
      some (p, pre ++ (if z = req then post else (p + req, z - req) :: post)) := by
  induction pre with
  | nil =>
    simp only [List.nil_append, take_fit]
    rw [if_neg (by omega)]
    split_ifs <;> rfl
  | cons b r ih =>
    have hb : b.2 < req := hpre b (List.mem_cons_self _ _)
    show take_fit req (b :: (r ++ (p, z) :: post)) = _
    rw [take_fit, if_pos hb, ih (fun c hc => hpre c (List.mem_cons_of_mem _ hc))]
    rfl

theorem take_fit_length (req : Nat) (l l' : List (Nat × Nat)) (p : Nat)
    (h : take_fit req l = some (p, l')) : l'.length ≤ l.length := by
  obtain ⟨pre, z, post, e1, e2, e3⟩ := take_fit_first req l l' p h
  subst e1
  rw [take_fit_of_shape req pre p z post e2 e3] at h
  simp only [Option.some.injEq, Prod.mk.injEq, true_and] at h
  subst h
  split_ifs <;> simp

theorem tbl_find_assign_other (t : List (Nat × Nat)) (p v q : Nat) (hq : q ≠ p) :
    tbl_find (tbl_assign t p v) q = tbl_find t q := by
  unfold tbl_assign
  rw [tbl_find, if_neg (fun h => hq h.symm)]
  induction t with
  | nil => rfl
  | cons b t ih =>
    obtain ⟨k, w⟩ := b
    by_cases hk : k = p
    · subst hk
      have hkq : ¬ k = q := fun h => hq h.symm
      simp only [tbl_erase, if_true, tbl_find, hkq, if_false]
      exact ih
    · simp only [tbl_erase, hk, if_false, tbl_find]
      rw [ih]

/-! ## Alignment of the request size, order after a fast push, and defrag of a small remainder -/

/-- C23 (failing input). With alignment 32, the request size of malloc of 0
bytes is 16, which is not a multiple of 32: on the free list [(4096, 64)],
whose block starts at a multiple of 32, the call returns 4096 and splits the
block, and the remainder block (4112, 48) does not start at a multiple
of 32. -/
theorem C23_request_size_not_multiple :
    req_size_of 32 0 1 = 16 ∧ 16 % 32 ≠ 0 ∧
    free_list 8 (run_state 8 (fresh 32 zero_mem zero_mem) [Call.add_block 4096 64])
      = some [(4096, 64)] ∧
    4096 % 32 = 0 ∧
    (malloc 8 (run_state 8 (fresh 32 zero_mem zero_mem) [Call.add_block 4096 64]) 0 1).val
      = some 4096 ∧
    free_list 8 ((malloc 8 (run_state 8 (fresh 32 zero_mem zero_mem) [Call.add_block 4096 64])
      0 1).state (fresh 32 zero_mem zero_mem)) = some [(4112, 48)] ∧
    4112 % 32 ≠ 0 := by
  decide

/-- C24. add_block does not restore the order of an unordered list: after
the successful calls add_block_fast(4096, 16) and add_block_fast(8192, 16) on
disjoint regions the free list is [(8192, 16), (4096, 16)]; add_block of the
valid block (4112, 16), disjoint from both, returns normally, and the free
list becomes [(4112, 16), (8192, 16), (4096, 16)], which is not ascending by
address and still holds the memory-adjacent blocks (4096, 16) and
(4112, 16) unmerged. -/
theorem C24_order_not_restored :
    (run 8 (fresh 8 zero_mem zero_mem)
      [Call.add_block_fast 4096 16, Call.add_block_fast 8192 16]).isSome = true ∧
    free_list 8 (run_state 8 (fresh 8 zero_mem zero_mem)
      [Call.add_block_fast 4096 16, Call.add_block_fast 8192 16])
      = some [(8192, 16), (4096, 16)] ∧
    [(4096, 16), (8192, 16), (4112, 16)].Pairwise Disj ∧
    (add_block 8 (run_state 8 (fresh 8 zero_mem zero_mem)
      [Call.add_block_fast 4096 16, Call.add_block_fast 8192 16]) 4112 16).val = some () ∧
    free_list 8 ((add_block 8 (run_state 8 (fresh 8 zero_mem zero_mem)
      [Call.add_block_fast 4096 16, Call.add_block_fast 8192 16]) 4112 16).state
        (fresh 8 zero_mem zero_mem))
      = some [(4112, 16), (8192, 16), (4096, 16)] ∧
    ¬ ordered_ok [(4112, 16), (8192, 16), (4096, 16)] ∧
    4096 + 16 = 4112 := by
  refine ⟨by decide, by decide, by decide, by decide, by decide, ?_, by decide⟩
  simp [ordered_ok]

/-- C25 (failing input). After add_block(4096, 64) and malloc of 56 bytes on
a fresh allocator with alignment 8, both successful, the free list is
[(4152, 8)]; defrag then throws the block-too-small error, and the state it
leaves has an empty free list: the 8 free bytes are dropped. -/
theorem C25_defrag_throws :
    (run 8 (fresh 8 zero_mem zero_mem)
      [Call.add_block 4096 64, Call.malloc 56 1]).isSome = true ∧
    free_list 8 (run_state 8 (fresh 8 zero_mem zero_mem)
      [Call.add_block 4096 64, Call.malloc 56 1]) = some [(4152, 8)] ∧
    (defrag 8 (run_state 8 (fresh 8 zero_mem zero_mem)
      [Call.add_block 4096 64, Call.malloc 56 1])).err = some Err.block_too_small ∧
    free_list 8 ((defrag 8 (run_state 8 (fresh 8 zero_mem zero_mem)
      [Call.add_block 4096 64, Call.malloc 56 1])).state (fresh 8 zero_mem zero_mem))
      = some [] := by
  decide

/-- C28 (failing input). With alignment 8 and the free list [(4096, 64)]:
malloc_n(2^63, 2) asks for 2^64 bytes, the product wraps to 0 and the table
records 4096 -> 16; malloc of 2^64 - 3 bytes of one-byte objects rounds up to
2^64, which wraps to 0, and the table records 4096 -> 16 as well. Both calls
return normally and the recorded size is below the number of bytes asked
for. -/
theorem C28_wrapped_size_recorded :
    free_list 8 (run_state 8 (fresh 8 zero_mem zero_mem) [Call.add_block 4096 64])
      = some [(4096, 64)] ∧
    (malloc_n 8 (run_state 8 (fresh 8 zero_mem zero_mem) [Call.add_block 4096 64])
      9223372036854775808 2).val = some 4096 ∧
    tbl_find ((malloc_n 8 (run_state 8 (fresh 8 zero_mem zero_mem) [Call.add_block 4096 64])
      9223372036854775808 2).state (fresh 8 zero_mem zero_mem)).alloc_blocks 4096
      = some 16 ∧
    16 < 9223372036854775808 * 2 ∧
    (malloc 8 (run_state 8 (fresh 8 zero_mem zero_mem) [Call.add_block 4096 64])
      18446744073709551613 1).val = some 4096 ∧
    tbl_find ((malloc 8 (run_state 8 (fresh 8 zero_mem zero_mem) [Call.add_block 4096 64])
      18446744073709551613 1).state (fresh 8 zero_mem zero_mem)).alloc_blocks 4096
      = some 16 ∧
    16 < 18446744073709551613 * 1 := by
  decide

/-! ## `malloc` and `defrag` on canonical lists -/

theorem take_fit_pos_of_pos (req : Nat) (l l' : List (Nat × Nat)) (p : Nat)
    (h : take_fit req l = some (p, l')) (hpos : ∀ c ∈ l, 0 < c.2) : ∀ c ∈ l', 0 < c.2 := by
  obtain ⟨pre, z, post, e1, e2, e3⟩ := take_fit_first req l l' p h
  subst e1
  rw [take_fit_of_shape req pre p z post e2 e3] at h
  simp only [Option.some.injEq, Prod.mk.injEq, true_and] at h
  subst h
  intro c hc
  rcases List.mem_append.1 hc with hc | hc
  · exact hpos c (List.mem_append_left _ hc)
  · split_ifs at hc with hz
    · exact hpos c (List.mem_append_right _ (List.mem_cons_of_mem _ hc))
    · rcases List.mem_cons.1 hc with rfl | hc
      · simp only; omega
      · exact hpos c (List.mem_append_right _ (List.mem_cons_of_mem _ hc))

theorem state_ext (s s' : CustomMemManager) (h1 : s'.top = s.top)
    (h2 : s'.align_size = s.align_size) (h3 : s'.alloc_blocks = s.alloc_blocks)
    (h4 : ∀ x, s'.mem_next x = s.mem_next x) (h5 : ∀ x, s'.mem_size x = s.mem_size x) :
    s' = s := by
  obtain ⟨t, a, al, mn, ms⟩ := s
  obtain ⟨t', a', al', mn', ms'⟩ := s'
  simp only at h1 h2 h3 h4 h5
  have e4 : mn' = mn := funext h4
  have e5 : ms' = ms := funext h5
  subst h1 h2 h3 e4 e5
  rfl

theorem IsList_agree (s s' : CustomMemManager) (l : List (Nat × Nat)) :
    ∀ p p' : Nat, IsList s p l → IsList s' p' l →
    p' = p ∧ ∀ x ∈ starts l, s'.mem_next x = s.mem_next x ∧ s'.mem_size x = s.mem_size x := by
  induction l with
  | nil =>
    intro p p' h h'
    have e : p = 0 := h
    have e' : p' = 0 := h'
    exact ⟨by rw [e, e'], by intro x hx; simp [starts] at hx⟩
  | cons b r ih =>
    intro p p' h h'
    obtain ⟨e1, -, e3, e4⟩ := h
    obtain ⟨e1', -, e3', e4'⟩ := h'
    obtain ⟨k1, k2⟩ := ih _ _ e4 e4'
    refine ⟨by rw [e1, e1'], ?_⟩
    intro x hx
    simp only [starts, List.map_cons, List.mem_cons] at hx
    by_cases hxb : x = b.1
    · subst hxb
      exact ⟨k1, by rw [e3, e3']⟩
    · rcases hx with hx | hx
      · exact absurd hx hxb
      · exact k2 x hx

theorem ins_after_end (b n : Nat) (r : List (Nat × Nat)) :
    ∀ a s : Nat, List.Chain (fun u v : Nat × Nat => u.1 + u.2 < v.1) (a, s) (r ++ [(b, n)]) →
    ins_after b n a s r = (a, s) :: r ++ [(b, n)] := by
  induction r with
  | nil =>
    intro a s h
    simp only [List.nil_append, List.chain_cons] at h
    have h1 := h.1
    simp only at h1
    simp only [ins_after]
    rw [if_neg (by omega)]
    rfl
  | cons c r ih =>
    intro a s h
    rw [List.cons_append, List.chain_cons] at h
    have hlt := chain_lt_starts c (r ++ [(b, n)]) h.2 b (by simp [starts])
    rw [ins_after, if_neg (by omega), ih c.1 c.2 h.2]
    rfl

theorem ins_end (b n : Nat) (acc : List (Nat × Nat)) (h : Gap (acc ++ [(b, n)])) :
    ins b n acc = acc ++ [(b, n)] := by
  cases acc with
  | nil => rfl
  | cons c r =>
    have hch : List.Chain (fun u v : Nat × Nat => u.1 + u.2 < v.1) c (r ++ [(b, n)]) := h
    have hlt := chain_lt_starts c _ hch b (by simp [starts])
    rw [ins, if_neg (by omega)]
    exact ins_after_end b n r c.1 c.2 hch

theorem reinsert_gap (l : List (Nat × Nat)) :
    ∀ acc : List (Nat × Nat), Gap (acc ++ l) → reinsert acc l = acc ++ l := by
  induction l with
  | nil => intro acc _; simp [reinsert]
  | cons b r ih =>
    intro acc h
    have h1 : Gap ((acc ++ [b]) ++ r) := by
      rw [List.append_assoc]; exact h
    have h2 : Gap (acc ++ [(b.1, b.2)]) := List.Chain'.left_of_append h1
    rw [reinsert, ins_end b.1 b.2 acc h2, ih (acc ++ [b]) h1, List.append_assoc]
    rfl

theorem ge_ins_after (m b n a s : Nat) (r : List (Nat × Nat)) (hn : m ≤ n) (hs : m ≤ s)
    (hr : ∀ c ∈ r, m ≤ c.2) : ∀ c ∈ ins_after b n a s r, m ≤ c.2 := by
  induction r generalizing a s with
  | nil =>
    simp only [ins_after]
    split_ifs <;> simp <;> omega
  | cons c r ih =>
    have hc : m ≤ c.2 := hr c (List.mem_cons_self _ _)
    have hr' : ∀ d ∈ r, m ≤ d.2 := fun d hd => hr d (List.mem_cons_of_mem _ hd)
    have ih' := ih c.1 c.2 hc hr'
    simp only [ins_after]
    split_ifs
    all_goals
      simp only [List.forall_mem_cons]
      refine ⟨by omega, ?_⟩
      first
        | exact ih'
        | exact hr'
        | exact ⟨hc, hr'⟩
        | exact ⟨by omega, hr'⟩
        | exact ⟨by omega, hc, hr'⟩

theorem ge_ins (m b n : Nat) (l : List (Nat × Nat)) (hn : m ≤ n)
    (hl : ∀ c ∈ l, m ≤ c.2) : ∀ c ∈ ins b n l, m ≤ c.2 := by
  cases l with
  | nil => simp [ins]; omega
  | cons c r =>
    have hc : m ≤ c.2 := hl c (List.mem_cons_self _ _)
    have hr' : ∀ d ∈ r, m ≤ d.2 := fun d hd => hl d (List.mem_cons_of_mem _ hd)
    simp only [ins]
    split_ifs
    · simp only [List.forall_mem_cons]; exact ⟨by omega, hr'⟩
    · simp only [List.forall_mem_cons]; exact ⟨by omega, hc, hr'⟩
    · exact ge_ins_after m b n c.1 c.2 r hn hc hr'

theorem ge_reinsert (m : Nat) (l : List (Nat × Nat)) :
    ∀ acc : List (Nat × Nat), (∀ c ∈ acc, m ≤ c.2) → (∀ c ∈ l, m ≤ c.2) →
    ∀ c ∈ reinsert acc l, m ≤ c.2 := by
  induction l with
  | nil => intro acc ha _; simpa [reinsert] using ha
  | cons b r ih =>
    intro acc ha hl
    rw [reinsert]
    exact ih _ (ge_ins m b.1 b.2 acc (hl b (List.mem_cons_self _ _)) ha)
      (fun c hc => hl c (List.mem_cons_of_mem _ hc))

theorem admitted_reinsert (s s' : CustomMemManager) (l : List (Nat × Nat))
    (ha : s'.align_size = s.align_size) (h : Admitted s l) :
    Admitted s' (reinsert [] l) := by
  intro c hc
  refine ⟨ge_reinsert _ l [] (by simp) (fun d hd => (h d hd).1) c hc, ?_⟩
  rcases mem_reinsert_start [] l c hc with h1 | h1
  · simp [starts] at h1
  · obtain ⟨d, hd, hdc⟩ := List.mem_map.1 h1
    rw [ha, ← hdc]
    exact (h d hd).2

theorem defrag_loop_frame (afuel : Nat) (rem : List (Nat × Nat)) :
    ∀ (fuel : Nat) (st st' : CustomMemManager) (ptr : Nat) (acc : List (Nat × Nat)),
    IsList st ptr rem → IsList st st.top acc →
    (∀ c ∈ rem, 0 < c.2) → (∀ c ∈ acc, 0 < c.2) →
    (∀ x, cnt acc x + cnt rem x ≤ 1) →
    defrag_loop afuel fuel st ptr = Res.ok () st' →
    ∀ x, x ∉ starts acc → x ∉ starts rem →
      st'.mem_next x = st.mem_next x ∧ st'.mem_size x = st.mem_size x := by
  induction rem with
  | nil =>
    intro fuel st st' ptr acc hrem hacc _ _ _ h
    have hp : ptr = 0 := hrem
    subst hp
    cases fuel with
    | zero => simp [defrag_loop] at h
    | succ f =>
      simp only [defrag_loop, ne_eq, not_true_eq_false, if_false, Res.ok.injEq, true_and] at h
      subst h
      intro x _ _
      exact ⟨rfl, rfl⟩
  | cons b r ih =>
    intro fuel st st' ptr acc hrem hacc hprem hpacc hcnt h
    obtain ⟨e1, e2, e3, e4⟩ := hrem
    have hb : 0 < b.2 := hprem b (List.mem_cons_self _ _)
    have hpr : ∀ d ∈ r, 0 < d.2 := fun d hd => hprem d (List.mem_cons_of_mem _ hd)
    cases fuel with
    | zero => simp [defrag_loop] at h
    | succ f =>
      subst e1
      simp only [defrag_loop, ne_eq, e2, not_false_eq_true, if_true, e3] at h
      cases hq : add_block afuel st b.1 b.2 with
      | diverge => simp [hq] at h
      | raise e s1 => simp [hq] at h
      | ok v s1 =>
        simp only [hq] at h
        have hacc1 : ∀ x, cnt acc x ≤ 1 := fun x => by have := hcnt x; omega
        have hb_acc : b.1 ∉ starts acc := by
          apply not_mem_starts_of_cnt_zero acc hpacc
          have := hcnt b.1
          simp only [cnt] at this
          rw [if_pos ⟨le_refl _, by omega⟩] at this
          omega
        obtain ⟨s1a, s1b, s1c, s1d⟩ := add_block_sim afuel st s1 b.1 b.2 acc hacc e2 hb hb_acc
          (nodup_starts acc hpacc hacc1) hq
        have hcnt' : ∀ x, cnt (ins b.1 b.2 acc) x + cnt r x ≤ 1 := by
          intro x
          have := hcnt x
          rw [cnt_ins]
          simp only [cnt] at this ⊢
          omega
        have hr1 : IsList s1 (st.mem_next b.1) r := by
          apply IsList_congr st s1 r _ _ e4
          intro x hx
          simp only [starts, List.mem_map] at hx
          obtain ⟨d, hd, rfl⟩ := hx
          have hd2 := hpr d hd
          have hdc := cnt_pos_of_mem r d hd d.1 (le_refl _) (by omega)
          apply s1d
          · intro e
            have := hcnt d.1
            simp only [cnt] at this
            rw [if_pos ⟨by omega, by omega⟩] at this
            omega
          · apply not_mem_starts_of_cnt_zero acc hpacc
            have := hcnt d.1
            simp only [cnt] at this
            omega
        have key := ih f s1 st' (st.mem_next b.1) (ins b.1 b.2 acc) hr1 s1a hpr
          (pos_ins b.1 b.2 acc hb hpacc) hcnt' h
        intro x hxa hxr
        simp only [starts, List.map_cons, List.mem_cons, not_or] at hxr
        have hx1 : x ∉ starts (ins b.1 b.2 acc) := by
          intro hmem
          obtain ⟨d, hd, hdx⟩ := List.mem_map.1 hmem
          rcases mem_ins_start b.1 b.2 acc d hd with h1 | h1
          · exact hxr.1 (by rw [← hdx, h1])
          · exact hxa (by rw [← hdx]; exact h1)
        obtain ⟨k1, k2⟩ := key x hx1 hxr.2
        obtain ⟨k3, k4⟩ := s1d x hxr.1 hxa
        exact ⟨k1.trans k3, k2.trans k4⟩

theorem defrag_canonical (fuel : Nat) (s : CustomMemManager) (l : List (Nat × Nat))
    (hl : IsList s s.top l) (hadm : Admitted s l) (hg : Gap l) (hf : l.length < fuel) :
    defrag fuel s = Res.ok () s := by
  have hpos : ∀ c ∈ l, 0 < c.2 := by
    intro c hc
    have := (hadm c hc).1
    simp only [sizeof_ptr, sizeof_size_t] at this
    omega
  have hc1 := cnt_le_one_of_pairwise l (pairwise_disj_of_gap l hg)
  obtain ⟨s', hs'⟩ := defrag_total fuel s l hl hadm hc1 hf
  obtain ⟨k1, k2, k3⟩ := defrag_sim fuel s s' l hl hpos hc1 hs'
  rw [reinsert_gap l [] (by simpa using hg), List.nil_append] at k1
  obtain ⟨a1, a2⟩ := IsList_agree s s' l _ _ hl k1
  have hfr : ∀ x, x ∉ starts l →
      s'.mem_next x = s.mem_next x ∧ s'.mem_size x = s.mem_size x := by
    intro x hx
    have h := hs'
    unfold defrag at h
    exact defrag_loop_frame fuel l fuel { s with top := 0 } s' s.top []
      (IsList_top_irrelevant s _ l _ rfl rfl hl) rfl hpos (by simp)
      (by intro y; simp only [cnt]; have := hc1 y; omega) h x (by simp [starts]) hx
  have hall : ∀ x, s'.mem_next x = s.mem_next x ∧ s'.mem_size x = s.mem_size x := by
    intro x
    by_cases hx : x ∈ starts l
    · exact a2 x hx
    · exact hfr x hx
  rw [hs', state_ext s s' a1 k3 k2 (fun x => (hall x).1) (fun x => (hall x).2)]

/-- C26. defrag is idempotent, and the identity on canonical lists. In a
state whose free list `l` holds pairwise disjoint blocks that each can hold a
header and start at a multiple of align_size, defrag returns normally (given
the fuel for the length of the list) with some state `s1`, and defrag of `s1`
returns `s1` itself: top, table and every header word are unchanged. If `l`
is already strictly ascending with no two list-adjacent blocks
memory-adjacent, the first defrag returns the state it was called on. -/
theorem C26_defrag_idempotent (f fuel : Nat) (s : CustomMemManager)
    (l : List (Nat × Nat)) (hfl : free_list f s = some l) (hf : f ≤ fuel)
    (hadm : Admitted s l) (hdisj : l.Pairwise Disj) :
    ∃ s1, defrag fuel s = Res.ok () s1 ∧ defrag fuel s1 = Res.ok () s1 ∧
      (ordered_ok l → s1 = s) := by
  obtain ⟨hl, hlen⟩ := free_list_spec f s l hfl
  have hpos : ∀ c ∈ l, 0 < c.2 := by
    intro c hc
    have := (hadm c hc).1
    simp only [sizeof_ptr, sizeof_size_t] at this
    omega
  have hc1 := cnt_le_one_of_pairwise l hdisj
  obtain ⟨s1, hs1⟩ := defrag_total fuel s l hl hadm hc1 (by omega)
  obtain ⟨k1, k2, k3⟩ := defrag_sim fuel s s1 l hl hpos hc1 hs1
  have hlen1 := length_reinsert_le l []
  simp only [List.length_nil, Nat.zero_add] at hlen1
  have hg1 : Gap (reinsert [] l) :=
    gap_reinsert [] l (by simp [Gap]) (by simp) hpos
      (by intro x; simp only [cnt]; have := hc1 x; omega)
  refine ⟨s1, hs1, ?_, ?_⟩
  · exact defrag_canonical fuel s1 _ k1 (admitted_reinsert s s1 l k3 hadm) hg1 (by omega)
  · intro hord
    have hg := gap_of_ordered_disj l hord hdisj hpos
    have h2 := defrag_canonical fuel s l hl hadm hg (by omega)
    rw [hs1] at h2
    simp only [Res.ok.injEq, true_and] at h2
    exact h2

/-- Witness for C26: three adjacent 16-byte blocks pushed out of address
order. -/
theorem C26_defrag_idempotent_witness :
    ∃ s1, defrag 8 (run_state 8 (fresh 8 zero_mem zero_mem)
        [Call.add_block_fast 4112 16, Call.add_block_fast 4128 16,
          Call.add_block_fast 4096 16]) = Res.ok () s1 ∧
      defrag 8 s1 = Res.ok () s1 ∧
      (ordered_ok [(4096, 16), (4128, 16), (4112, 16)] →
        s1 = run_state 8 (fresh 8 zero_mem zero_mem)
          [Call.add_block_fast 4112 16, Call.add_block_fast 4128 16,
            Call.add_block_fast 4096 16]) :=
  C26_defrag_idempotent 8 8 _ [(4096, 16), (4128, 16), (4112, 16)] (by decide) (le_refl _)
    (by unfold Admitted; decide) (by decide)

theorem Comb_loop_exact (N KMin : Nat) (hK : 2 * KMin ≤ N) (hN : N < size_t_range)
    (hno : ∀ j, j < KMin → Nat.choose (N - KMin + j) j * (N - KMin + (j + 1)) < size_t_range) :
    ∀ (d j fuel : Nat), j + d = KMin → d < fuel →
    Comb_loop N KMin fuel (j + 1) (Nat.choose (N - KMin + j) j) =
      some (Except.ok (Nat.choose N KMin)) := by
  intro d
  induction d with
  | zero =>
    intro j fuel hj hf
    cases fuel with
    | zero => omega
    | succ f =>
      have hjK : j = KMin := by omega
      subst hjK
      rw [Comb_loop, if_neg (by omega)]
      have : N - j + j = N := by omega
      rw [this]
  | succ d ih =>
    intro j fuel hj hf
    cases fuel with
    | zero => omega
    | succ f =>
      have hjK : j < KMin := by omega
      have h1 : (N - KMin + (j + 1)) % size_t_range = N - KMin + (j + 1) :=
        Nat.mod_eq_of_lt (by omega)
      have h2 := hno j hjK
      have h3 : Nat.choose (N - KMin + j) j * (N - KMin + (j + 1)) =
          Nat.choose (N - KMin + (j + 1)) (j + 1) * (j + 1) := by
        have := Nat.succ_mul_choose_eq (N - KMin + j) j
        rw [Nat.mul_comm]
        exact this
      have h4 : Nat.choose (N - KMin + j) j ≤ Nat.choose (N - KMin + (j + 1)) (j + 1) := by
        have : N - KMin + (j + 1) = (N - KMin + j) + 1 := by omega
        rw [this, Nat.choose_succ_succ]
        omega
      have h5 : (j + 1 + 1) % size_t_range = j + 1 + 1 := Nat.mod_eq_of_lt (by omega)
      rw [Comb_loop, if_pos (by omega)]
      simp only
      rw [h1, Nat.mod_eq_of_lt h2, h3, Nat.mul_div_cancel _ (Nat.succ_pos j),
        if_neg (by omega), h5]
      exact ih (j + 1) f (by omega) (by omega)

theorem Comb_exact_of_no_wrap (fuel N K : Nat) (hK : K ≤ N) (hN : N < size_t_range)
    (hf : min K (N - K) < fuel)
    (hno : ∀ j, j < min K (N - K) →
      Nat.choose (N - min K (N - K) + j) j * (N - min K (N - K) + (j + 1)) < size_t_range) :
    Comb fuel N K = some (Except.ok (Nat.choose N K)) := by
  unfold Comb
  rw [if_neg (by omega)]
  simp only
  have h := Comb_loop_exact N (min K (N - K)) (by omega) hN hno (min K (N - K)) 0 fuel
    (by omega) hf
  simp only [Nat.add_zero, Nat.choose_zero_right, Nat.zero_add] at h
  rw [h]
  by_cases hle : K ≤ N - K
  · rw [Nat.min_eq_left hle]
  · rw [Nat.min_eq_right (by omega), Nat.choose_symm hK]

/-! ## `Comb` and the result records -/

theorem Comb_k_larger (fuel N K : Nat) (h : N < K) :
    Comb fuel N K = some (Except.error CombErr.k_larger_than_n) := by
  unfold Comb
  rw [if_pos h]

/-- C29 (failing input). Comb(2^33, 2) returns 2^63 - 2^32 and raises no
error, while the binomial coefficient C(2^33, 2) is 2^65 - 2^32: in the second
pass of the loop the product (2^33 - 1) * 2^33 wraps to 2^64 - 2^33, and half
of that is not below the previous value 2^33 - 1, so the overflow test does
not fire. On small arguments the value is the binomial coefficient
(Comb(5, 2) = 10), and K > N raises the first error (Comb(2, 5)). -/
theorem C29_wrapped_product_undetected :
    Comb_value (Comb 8 8589934592 2) = some 9223372032559808512 ∧
    Comb_error (Comb 8 8589934592 2) = none ∧
    Nat.choose 8589934592 2 = 36893488143124135936 ∧
    9223372032559808512 ≠ 36893488143124135936 ∧
    (8589934592 - 1) * 8589934592 % 2 ^ 64 = 18446744065119617024 ∧
    18446744065119617024 / 2 = 9223372032559808512 ∧
    ¬ (9223372032559808512 < 8589934592 - 1) ∧
    Comb_value (Comb 8 5 2) = some (Nat.choose 5 2) ∧
    Comb_error (Comb 8 2 5) = some CombErr.k_larger_than_n := by
  refine ⟨by decide, by decide, ?_, by decide, by decide, by decide, by decide, by decide,
    by decide⟩
  rw [Nat.choose_two_right]

/-- C30 (failing input). dealloc of a ResidueResponseResults whose only
non-null member is tMagOctupole_ge hands no pointer to mem.free, and dealloc
of a FDResponseResults whose only non-null member is md_md_Polar hands none
either: the two members are storage pointers of their records and are never
released. -/
theorem C30_member_never_released :
    ResidueResponseResults.dealloc ⟨0, 0, 0, 0, 0, 0, 0, 0, 0, 0, 0, 4096⟩ = [] ∧
    4096 ∈ ResidueResponseResults.storage ⟨0, 0, 0, 0, 0, 0, 0, 0, 0, 0, 0, 4096⟩ ∧
    FDResponseResults.dealloc ⟨[], 0, 0, 0, 0, 0, 0, 0, 0, 0, 4096⟩ = [] ∧
    4096 ∈ FDResponseResults.storage ⟨[], 0, 0, 0, 0, 0, 0, 0, 0, 0, 4096⟩ := by
  decide

theorem free_if_set_eq (log : List Nat) (p : Nat) :
    free_if_set log p = log ++ [p].filter (fun x => decide (x ≠ 0)) := by
  unfold free_if_set
  by_cases h : p = 0
  · simp [h]
  · simp [h]

theorem ResidueResponseResults_dealloc_eq (r : ResidueResponseResults) :
    r.dealloc = (r.storage.take 11).filter (fun x => decide (x ≠ 0)) := by
  unfold ResidueResponseResults.dealloc ResidueResponseResults.storage
  simp only [free_if_set_eq, List.take, List.nil_append]
  simp only [List.append_assoc, ← List.filter_append]
  rfl

theorem FDResponseResults_dealloc_eq (r : FDResponseResults) :
    r.dealloc = (r.storage.take 9).filter (fun x => decide (x ≠ 0)) := by
  unfold FDResponseResults.dealloc FDResponseResults.storage
  simp only [free_if_set_eq, List.take, List.nil_append]
  simp only [List.append_assoc, ← List.filter_append]
  rfl

theorem FDObservables_dealloc_eq (r : FDObservables) :
    r.dealloc = r.storage.filter (fun x => decide (x ≠ 0)) := by
  unfold FDObservables.dealloc FDObservables.storage
  simp only [free_if_set_eq, List.nil_append]
  simp only [List.append_assoc, ← List.filter_append]
  rfl

theorem ResObservables_dealloc_eq (r : ResObservables) :
    r.dealloc = r.storage.filter (fun x => decide (x ≠ 0)) := by
  unfold ResObservables.dealloc ResObservables.storage
  simp only [free_if_set_eq, List.nil_append]
  simp only [List.append_assoc, ← List.filter_append]
  rfl

/-! ## Runs in which every free block holds its header -/

theorem blocks_hold_header_spec (f : Nat) (s : CustomMemManager)
    (h : blocks_hold_header f s = true) :
    ∃ l, free_list f s = some l ∧ ∀ c ∈ l, sizeof_ptr + sizeof_size_t ≤ c.2 := by
  unfold blocks_hold_header at h
  cases hq : free_list f s with
  | none => simp [hq] at h
  | some l =>
    rw [hq] at h
    simp only [List.all_eq_true, decide_eq_true_eq] at h
    exact ⟨l, rfl, h⟩

theorem headers_fit_final (f fuel : Nat) (cs : List Call) :
    ∀ (s s' : CustomMemManager) (ps : List Nat), run fuel s cs = some (s', ps) →
    headers_fit f fuel s cs = true → blocks_hold_header f s' = true := by
  induction cs with
  | nil =>
    intro s s' ps h hfit
    simp only [run, Option.some.injEq, Prod.mk.injEq] at h
    rw [← h.1]
    exact hfit
  | cons c cs ih =>
    intro s s' ps h hfit
    obtain ⟨v, s1, ps1, h1, h2⟩ := run_cons_some fuel s s' c cs ps h
    simp only [headers_fit, h1, Bool.and_eq_true] at hfit
    exact ih s1 s' ps1 h2 hfit.2

theorem free_list_of_headers (f : Nat) (s : CustomMemManager) (D l : List (Nat × Nat))
    (hinv : Inv D s l) (h : blocks_hold_header f s = true) :
    free_list f s = some l ∧ ∀ c ∈ l, sizeof_ptr + sizeof_size_t ≤ c.2 := by
  obtain ⟨l', h1, h2⟩ := blocks_hold_header_spec f s h
  have e : l' = l := IsList_unique s l' l s.top (free_list_spec f s l' h1).1 hinv.1
  subst e
  exact ⟨h1, h2⟩

/-- From a fresh allocator, after any sequence of successful calls on
pairwise disjoint donated regions (not starting at the null address) that
leaves every free block large enough for its header at every step, the byte
ranges of the free blocks and of the allocation records are pairwise disjoint
and non-empty. -/
theorem disjoint_when_headers_fit (a f fuel : Nat) (mem_next mem_size : Nat → Nat)
    (cs : List Call) (s : CustomMemManager) (ps : List Nat)
    (hnull : ∀ r ∈ donated cs, r.2 ≠ 0 → r.1 ≠ 0) (hdisj : (donated cs).Pairwise Disj)
    (hfit : headers_fit f fuel (fresh a mem_next mem_size) cs = true)
    (hrun : run fuel (fresh a mem_next mem_size) cs = some (s, ps)) :
    ∃ l, free_list f s = some l ∧ (l ++ s.alloc_blocks).Pairwise Disj ∧
      (∀ b ∈ l ++ s.alloc_blocks, 0 < b.2) ∧
      ∀ c ∈ l, sizeof_ptr + sizeof_size_t ≤ c.2 := by
  obtain ⟨l, hinv, -, -⟩ := reach_inv a fuel mem_next mem_size cs s ps hnull hdisj hrun
  obtain ⟨e1, e2⟩ := free_list_of_headers f s _ l hinv
    (headers_fit_final f fuel cs _ s ps hrun hfit)
  refine ⟨l, e1, ?_, ?_, e2⟩
  · apply pairwise_of_cnt_le_one
    intro x
    rw [cnt_append]
    obtain ⟨-, -, -, h4, h5, -, -⟩ := hinv
    have := h4 x; have := h5 x; omega
  · intro b hb
    rw [List.mem_append] at hb
    rcases hb with hb | hb
    · exact hinv.2.1 b hb
    · exact hinv.2.2.1 b hb

/-- Byte accounting when every free block holds its header: in a state
reached as above the free sizes plus the allocated sizes equal the donated
sizes, and a further successful call that again leaves every free block large
enough changes that sum by the size it donates. -/
theorem byte_accounting_when_headers_fit (a f fuel fuel1 : Nat)
    (mem_next mem_size : Nat → Nat)
    (cs : List Call) (c : Call) (s s1 : CustomMemManager) (ps : List Nat) (v : Nat)
    (hnull : ∀ r ∈ donated (cs ++ [c]), r.2 ≠ 0 → r.1 ≠ 0)
    (hdisj : (donated (cs ++ [c])).Pairwise Disj)
    (hfit : headers_fit f fuel (fresh a mem_next mem_size) cs = true)
    (hrun : run fuel (fresh a mem_next mem_size) cs = some (s, ps))
    (hexec : exec fuel1 s c = Res.ok v s1)
    (hfit1 : blocks_hold_header f s1 = true) :
    ∃ l l1, free_list f s = some l ∧ free_list f s1 = some l1 ∧
      total l + total s.alloc_blocks = total (donated cs) ∧
      total l1 + total s1.alloc_blocks =
        total l + total s.alloc_blocks + total (donated [c]) := by
  rw [donated_append] at hnull hdisj
  have hnull0 : ∀ r ∈ donated cs, r.2 ≠ 0 → r.1 ≠ 0 :=
    fun r hr => hnull r (List.mem_append_left _ hr)
  have hdisj0 : (donated cs).Pairwise Disj := (List.pairwise_append.mp hdisj).1
  obtain ⟨l, hinv, -, -⟩ := reach_inv a fuel mem_next mem_size cs s ps hnull0 hdisj0 hrun
  obtain ⟨l1, hinv1, -, -⟩ := inv_exec fuel1 s s1 c v (donated cs) l hinv
    (fun x => by
      have := cnt_le_one_of_pairwise _ hdisj x
      rw [cnt_append] at this
      exact this)
    (by
      have := cnt_zero_of_nonnull _ hnull
      rw [cnt_append] at this
      omega) hexec
  obtain ⟨e1, -⟩ := free_list_of_headers f s _ l hinv
    (headers_fit_final f fuel cs _ s ps hrun hfit)
  obtain ⟨e2, -⟩ := free_list_of_headers f s1 _ l1 hinv1 hfit1
  refine ⟨l, l1, e1, e2, hinv.2.2.2.2.2.2, ?_⟩
  have h7 := hinv.2.2.2.2.2.2
  have h7' := hinv1.2.2.2.2.2.2
  rw [total_append] at h7'
  omega

/-! ## The fast push -/

/-- C16 (counterexample). Evaluated on the byte memory with alignment 8. In
the state with free list [(8192,16), (4096,16)], add_block_fast(4096, 16) is
a valid block and returns normally, but the header of the block already on
the list is overwritten: the successor of 4096 is 8192 and the successor of
8192 is 4096, and no finite list is read. In the state with free list
[(4096,16)], add_block_fast(4104, 16) is a valid block and returns normally,
and the free list is [(4104,16), (4096,4096)], not
(4104,16) :: [(4096,16)]: the successor word of the new block lies in the
size word of the old one. -/
theorem C16_counterexample :
    Bytes.free_list 8 (Bytes.run_state 8 (Bytes.fresh 8 zero_mem)
      [Call.add_block_fast 4096 16, Call.add_block_fast 8192 16])
      = some [(8192, 16), (4096, 16)] ∧
    (Bytes.run 8 (Bytes.fresh 8 zero_mem)
      [Call.add_block_fast 4096 16, Call.add_block_fast 8192 16,
        Call.add_block_fast 4096 16]).isSome = true ∧
    Bytes.free_list 8 (Bytes.run_state 8 (Bytes.fresh 8 zero_mem)
      [Call.add_block_fast 4096 16, Call.add_block_fast 8192 16,
        Call.add_block_fast 4096 16])
      ≠ some [(4096, 16), (8192, 16), (4096, 16)] ∧
    Bytes.get_next (Bytes.run_state 8 (Bytes.fresh 8 zero_mem)
      [Call.add_block_fast 4096 16, Call.add_block_fast 8192 16,
        Call.add_block_fast 4096 16]) 4096 = 8192 ∧
    Bytes.get_next (Bytes.run_state 8 (Bytes.fresh 8 zero_mem)
      [Call.add_block_fast 4096 16, Call.add_block_fast 8192 16,
        Call.add_block_fast 4096 16]) 8192 = 4096 ∧
    Bytes.free_list 8 (Bytes.run_state 8 (Bytes.fresh 8 zero_mem)
      [Call.add_block 4096 16]) = some [(4096, 16)] ∧
    (Bytes.run 8 (Bytes.fresh 8 zero_mem)
      [Call.add_block 4096 16, Call.add_block_fast 4104 16]).isSome = true ∧
    Bytes.free_list 8 (Bytes.run_state 8 (Bytes.fresh 8 zero_mem)
      [Call.add_block 4096 16, Call.add_block_fast 4104 16])
      = some [(4104, 16), (4096, 4096)] ∧
    [(4104, 16), (4096, 4096)] ≠ (4104, 16) :: [(4096, 16)] := by
  decide

/-! ## Calls on a free list with a block too small for its header -/

/-- C1 (failing input). Evaluated on the byte memory with alignment 8:
add_block(4096, 64), malloc of 56 bytes and add_block_fast(4160, 16) all
return normally, and the two donated regions are disjoint. malloc leaves the
remainder (4152, 8), whose size word is the 8 bytes at 4160; the fast push
writes its successor word there. The free list is then
[(4160, 16), (4152, 4152)] and the table is [4096 -> 56]: the free block at
4152 now covers the free block at 4160, and the blocks are not pairwise
disjoint. -/
theorem C1_free_blocks_overlap :
    (Bytes.run 8 (Bytes.fresh 8 zero_mem)
      [Call.add_block 4096 64, Call.malloc 56 1, Call.add_block_fast 4160 16]).isSome = true ∧
    (donated [Call.add_block 4096 64, Call.malloc 56 1,
      Call.add_block_fast 4160 16]).Pairwise Disj ∧
    Bytes.free_list 8 (Bytes.run_state 8 (Bytes.fresh 8 zero_mem)
      [Call.add_block 4096 64, Call.malloc 56 1]) = some [(4152, 8)] ∧
    Bytes.free_list 8 (Bytes.run_state 8 (Bytes.fresh 8 zero_mem)
      [Call.add_block 4096 64, Call.malloc 56 1, Call.add_block_fast 4160 16])
      = some [(4160, 16), (4152, 4152)] ∧
    (Bytes.run_state 8 (Bytes.fresh 8 zero_mem)
      [Call.add_block 4096 64, Call.malloc 56 1, Call.add_block_fast 4160 16]).alloc_blocks
      = [(4096, 56)] ∧
    ¬ ([(4160, 16), (4152, 4152)] ++ [(4096, 56)]).Pairwise Disj := by
  decide

/-- C10 (failing input). Evaluated on the byte memory with alignment 8.
After add_block(4096, 64) and malloc of 56 bytes the free sizes and the
allocated sizes add up to the 64 bytes donated. add_block_fast(4160, 16), a
region disjoint from the first, returns normally; the free list is then
[(4160, 16), (4152, 4152)] and the table [4096 -> 56], so the sum is 4224 and
not 64 + 16. -/
theorem C10_sum_not_conserved :
    (Bytes.run 8 (Bytes.fresh 8 zero_mem)
      [Call.add_block 4096 64, Call.malloc 56 1]).isSome = true ∧
    Bytes.free_list 8 (Bytes.run_state 8 (Bytes.fresh 8 zero_mem)
      [Call.add_block 4096 64, Call.malloc 56 1]) = some [(4152, 8)] ∧
    total [(4152, 8)] + total (Bytes.run_state 8 (Bytes.fresh 8 zero_mem)
      [Call.add_block 4096 64, Call.malloc 56 1]).alloc_blocks = 64 ∧
    Disj (4096, 64) (4160, 16) ∧
    (Bytes.run 8 (Bytes.fresh 8 zero_mem)
      [Call.add_block 4096 64, Call.malloc 56 1, Call.add_block_fast 4160 16]).isSome = true ∧
    Bytes.free_list 8 (Bytes.run_state 8 (Bytes.fresh 8 zero_mem)
      [Call.add_block 4096 64, Call.malloc 56 1, Call.add_block_fast 4160 16])
      = some [(4160, 16), (4152, 4152)] ∧
    total [(4160, 16), (4152, 4152)] + total (Bytes.run_state 8 (Bytes.fresh 8 zero_mem)
      [Call.add_block 4096 64, Call.malloc 56 1, Call.add_block_fast 4160 16]).alloc_blocks
      = 4224 ∧
    4224 ≠ 64 + 16 := by
  decide

/-- C20 (failing input). Evaluated on the byte memory with alignment 8.
After add_block(4096, 64) and malloc of 56 bytes the free list is
[(4152, 8)]: one block, so ascending, disjoint and without neighbours.
add_block(4160, 16) is a valid block, disjoint from (4152, 8) and
memory-adjacent to it, and returns normally. Its successor word is written
over the size word of (4152, 8) before the adjacency test reads that size,
so nothing is merged: the free list is [(4152, 0), (4160, 16)], it holds 16
bytes instead of the 24 of the old list and the new block, and the byte 4152
is no longer covered. -/
theorem C20_adjacent_block_not_merged :
    (Bytes.run 8 (Bytes.fresh 8 zero_mem)
      [Call.add_block 4096 64, Call.malloc 56 1]).isSome = true ∧
    Bytes.free_list 8 (Bytes.run_state 8 (Bytes.fresh 8 zero_mem)
      [Call.add_block 4096 64, Call.malloc 56 1]) = some [(4152, 8)] ∧
    Disj (4160, 16) (4152, 8) ∧ 4160 % 8 = 0 ∧ sizeof_ptr + sizeof_size_t ≤ 16 ∧
    (Bytes.run 8 (Bytes.fresh 8 zero_mem)
      [Call.add_block 4096 64, Call.malloc 56 1, Call.add_block 4160 16]).isSome = true ∧
    Bytes.free_list 8 (Bytes.run_state 8 (Bytes.fresh 8 zero_mem)
      [Call.add_block 4096 64, Call.malloc 56 1, Call.add_block 4160 16])
      = some [(4152, 0), (4160, 16)] ∧
    total [(4152, 0), (4160, 16)] ≠ total [(4152, 8)] + 16 ∧
    cnt [(4152, 8)] 4152 = 1 ∧ cnt [(4152, 0), (4160, 16)] 4152 = 0 := by
  decide

/-- C21 (failing input). Evaluated on the byte memory with alignment 8.
After add_block(4096, 64), add_block(8192, 64) and malloc of 56 bytes the
free list is [(4152, 8), (8192, 64)], ascending. add_block(4160, 16) lies
between the two blocks, starts where the first one ends and ends below the
second, so the first block should become (4152, 24). The call returns
normally and the free list is [(4152, 8192), (4160, 16), (8192, 64)]: the
successor word of the new block has replaced the size of the first block, and
the new block is a list element of its own. -/
theorem C21_previous_block_not_extended :
    (Bytes.run 8 (Bytes.fresh 8 zero_mem)
      [Call.add_block 4096 64, Call.add_block 8192 64, Call.malloc 56 1]).isSome = true ∧
    Bytes.free_list 8 (Bytes.run_state 8 (Bytes.fresh 8 zero_mem)
      [Call.add_block 4096 64, Call.add_block 8192 64, Call.malloc 56 1])
      = some [(4152, 8), (8192, 64)] ∧
    4152 + 8 = 4160 ∧ 4160 + 16 ≠ 8192 ∧
    (Bytes.run 8 (Bytes.fresh 8 zero_mem)
      [Call.add_block 4096 64, Call.add_block 8192 64, Call.malloc 56 1,
        Call.add_block 4160 16]).isSome = true ∧
    Bytes.free_list 8 (Bytes.run_state 8 (Bytes.fresh 8 zero_mem)
      [Call.add_block 4096 64, Call.add_block 8192 64, Call.malloc 56 1,
        Call.add_block 4160 16])
      = some [(4152, 8192), (4160, 16), (8192, 64)] ∧
    [(4152, 8192), (4160, 16), (8192, 64)] ≠ [(4152, 8 + 16), (8192, 64)] := by
  decide

/-- C22 (failing input). Evaluated on the byte memory with alignment 8.
After add_block(4096, 60) and add_block(4160, 64) the free list is
[(4096, 60), (4160, 64)] and the block at 4160 has no successor. malloc of
56 bytes returns 4096 and splits the first block; the remainder (4152, 4)
should replace it and the block (4160, 64) should stay as it is. The size
word of the remainder is the 8 bytes at 4160, the successor word of the
second block: after the call the successor of 4160 is the address 4, and the
list read from the head is not [(4152, 4), (4160, 64)]. -/
theorem C22_split_overwrites_next_link :
    (Bytes.run 8 (Bytes.fresh 8 zero_mem)
      [Call.add_block 4096 60, Call.add_block 4160 64]).isSome = true ∧
    Bytes.free_list 8 (Bytes.run_state 8 (Bytes.fresh 8 zero_mem)
      [Call.add_block 4096 60, Call.add_block 4160 64])
      = some [(4096, 60), (4160, 64)] ∧
    Bytes.get_next (Bytes.run_state 8 (Bytes.fresh 8 zero_mem)
      [Call.add_block 4096 60, Call.add_block 4160 64]) 4160 = 0 ∧
    req_size_of 8 56 1 = 56 ∧
    (Bytes.run 8 (Bytes.fresh 8 zero_mem)
      [Call.add_block 4096 60, Call.add_block 4160 64, Call.malloc 56 1]).map Prod.snd
      = some [4096] ∧
    Bytes.get_next (Bytes.run_state 8 (Bytes.fresh 8 zero_mem)
      [Call.add_block 4096 60, Call.add_block 4160 64, Call.malloc 56 1]) 4160 = 4 ∧
    Bytes.free_list 8 (Bytes.run_state 8 (Bytes.fresh 8 zero_mem)
      [Call.add_block 4096 60, Call.add_block 4160 64, Call.malloc 56 1])
      ≠ some [(4096 + 56, 60 - 56), (4160, 64)] ∧
    (Bytes.run_state 8 (Bytes.fresh 8 zero_mem)
      [Call.add_block 4096 60, Call.add_block 4160 64, Call.malloc 56 1]).alloc_blocks
      = [(4096, 56)] := by
  decide

/-- C27 (failing input). Evaluated on the byte memory with alignment 8.
After add_block(8192, 28) and add_block(8224, 32) the free list is
[(8192, 28), (8224, 32)]: strictly ascending, pairwise disjoint, the two
blocks not memory-adjacent. malloc of 24 bytes returns 8192 and leaves the
remainder (8216, 4), whose size word is the 8 bytes at 8224: the successor of
the block at 8224 becomes the address 4. The walk from the head then goes
8216, 8224, 4, and the free list is no longer ascending. -/
theorem C27_canonical_form_lost :
    (Bytes.run 8 (Bytes.fresh 8 zero_mem)
      [Call.add_block 8192 28, Call.add_block 8224 32]).isSome = true ∧
    Bytes.free_list 8 (Bytes.run_state 8 (Bytes.fresh 8 zero_mem)
      [Call.add_block 8192 28, Call.add_block 8224 32])
      = some [(8192, 28), (8224, 32)] ∧
    ordered_ok [(8192, 28), (8224, 32)] ∧ [(8192, 28), (8224, 32)].Pairwise Disj ∧
    (Bytes.run 8 (Bytes.fresh 8 zero_mem)
      [Call.add_block 8192 28, Call.add_block 8224 32, Call.malloc 24 1]).map Prod.snd
      = some [8192] ∧
    Bytes.get_next (Bytes.run_state 8 (Bytes.fresh 8 zero_mem)
      [Call.add_block 8192 28, Call.add_block 8224 32, Call.malloc 24 1]) 8224 = 4 ∧
    Bytes.free_list 8 (Bytes.run_state 8 (Bytes.fresh 8 zero_mem)
      [Call.add_block 8192 28, Call.add_block 8224 32, Call.malloc 24 1])
      = some [(8216, 4), (8224, 32), (4, 0)] ∧
    ¬ ordered_ok [(8216, 4), (8224, 32), (4, 0)] := by
  refine ⟨by decide, by decide, ?_, by decide, by decide, by decide, by decide, ?_⟩
  · simp [ordered_ok]
  · simp [ordered_ok]

/-! ## The ordered calls when every free block holds its header -/

theorem pos_of_holds_header (l : List (Nat × Nat))
    (h : ∀ c ∈ l, sizeof_ptr + sizeof_size_t ≤ c.2) : ∀ c ∈ l, 0 < c.2 := by
  intro c hc
  have := h c hc
  simp only [sizeof_ptr, sizeof_size_t] at this
  omega

/-- add_block and free keep the canonical form. In a state whose free list
`l` is strictly ascending by address with no two list-adjacent blocks
memory-adjacent, and whose blocks are pairwise disjoint and each large enough
for the header, let `(b, n)` be a valid block (not at the null address, large
enough for the header, aligned) disjoint from every block of `l`. Then
add_block(b, n) returns normally (given the fuel for its scan) and the new
free list is again strictly ascending, free of memory-adjacent neighbours,
pairwise disjoint and made of blocks large enough for the header, and covers
every byte as often as `l` and the new block together; and if the table maps
`b` to `n`, free(b) returns normally with the same free list and erases the
entry. -/
theorem add_block_free_keep_canonical (f fuel : Nat) (s : CustomMemManager) (b n : Nat)
    (l : List (Nat × Nat)) (hfl : free_list f s = some l) (hf : f ≤ fuel)
    (hord : ordered_ok l) (hdisj : l.Pairwise Disj)
    (hhdr : ∀ c ∈ l, sizeof_ptr + sizeof_size_t ≤ c.2)
    (hb0 : b ≠ 0) (hn : sizeof_ptr + sizeof_size_t ≤ n) (hal : b % s.align_size = 0)
    (hnew : ∀ c ∈ l, Disj (b, n) c) :
    (∃ s' l', add_block fuel s b n = Res.ok () s' ∧ free_list (f + 1) s' = some l' ∧
      ordered_ok l' ∧ l'.Pairwise Disj ∧ (∀ c ∈ l', sizeof_ptr + sizeof_size_t ≤ c.2) ∧
      (∀ x, cnt l' x = cnt l x + cnt [(b, n)] x) ∧
      total l' = total l + n ∧ s'.alloc_blocks = s.alloc_blocks) ∧
    (tbl_find s.alloc_blocks b = some n →
      ∃ s' l', free fuel s b = Res.ok () s' ∧ free_list (f + 1) s' = some l' ∧
        ordered_ok l' ∧ l'.Pairwise Disj ∧ (∀ c ∈ l', sizeof_ptr + sizeof_size_t ≤ c.2) ∧
        (∀ x, cnt l' x = cnt l x + cnt [(b, n)] x) ∧
        total l' = total l + n ∧ s'.alloc_blocks = tbl_erase s.alloc_blocks b) := by
  have hpos := pos_of_holds_header l hhdr
  have hg := gap_of_ordered_disj l hord hdisj hpos
  obtain ⟨s', h1, h2, h3, h4, h5, -⟩ := add_block_canonical f fuel s b n l hfl hf hg hpos hb0 hn
    hal hnew
  have h6 := ge_ins _ b n l hn hhdr
  constructor
  · exact ⟨s', ins b n l, h1, free_list_from_of_IsList s' _ s'.top (f + 1) h2 h3,
      ordered_ok_of_gap _ h4, pairwise_disj_of_gap _ h4, h6, cnt_ins b n l, total_ins b n l, h5⟩
  · intro ht
    refine ⟨_, ins b n l, free_of_add_block fuel s s' b n ht h1, ?_,
      ordered_ok_of_gap _ h4, pairwise_disj_of_gap _ h4, h6, cnt_ins b n l, total_ins b n l, ?_⟩
    · exact free_list_from_of_IsList _ _ _ (f + 1)
        (IsList_congr s' _ _ _ (fun x _ => ⟨rfl, rfl⟩) h2) h3
    · simp only [h5]

/-- The coalescing cases of add_block. In a state whose free list `l` is
ascending by address and made of pairwise disjoint blocks large enough for
the header, add_block of a valid block `(ptr, size)` disjoint from every block
of `l` returns normally (given the fuel for its scan) and leaves the
allocation table unchanged. If `l` holds the list-consecutive blocks
`(a, s1)` and `(b, s3)` with `a < ptr < b`, the new list is `l` with these two
replaced by the single block `(a, s1 + size + s3)` when both are
memory-adjacent to the new block, by `(a, s1), (ptr, size + s3)` when only the
next one is, by `(a, s1 + size), (b, s3)` when only the previous one is, and
by `(a, s1), (ptr, size), (b, s3)` otherwise; the blocks before and after are
unchanged. If `ptr` is below the head `(b, s3)`, the new head is
`(ptr, size + s3)` when the head is memory-adjacent and `(ptr, size)` in
front of the old head otherwise. -/
theorem add_block_coalescing_cases (f fuel : Nat) (s : CustomMemManager) (ptr size : Nat)
    (l : List (Nat × Nat)) (hfl : free_list f s = some l) (hf : f ≤ fuel)
    (hasc : l.Chain' (fun u v : Nat × Nat => u.1 < v.1))
    (hdisj : l.Pairwise Disj) (hhdr : ∀ c ∈ l, sizeof_ptr + sizeof_size_t ≤ c.2)
    (hp0 : ptr ≠ 0) (hsize : sizeof_ptr + sizeof_size_t ≤ size)
    (hal : ptr % s.align_size = 0) (hnew : ∀ c ∈ l, Disj (ptr, size) c) :
    ∃ s' l', add_block fuel s ptr size = Res.ok () s' ∧ free_list (f + 1) s' = some l' ∧
      s'.alloc_blocks = s.alloc_blocks ∧ l'.Pairwise Disj ∧
      (∀ c ∈ l', sizeof_ptr + sizeof_size_t ≤ c.2) ∧
      (∀ pre a s1 b s3 post, l = pre ++ (a, s1) :: (b, s3) :: post → a < ptr → ptr < b →
        (a + s1 = ptr → ptr + size = b → l' = pre ++ (a, s1 + size + s3) :: post) ∧
        (a + s1 ≠ ptr → ptr + size = b → l' = pre ++ (a, s1) :: (ptr, size + s3) :: post) ∧
        (a + s1 = ptr → ptr + size ≠ b → l' = pre ++ (a, s1 + size) :: (b, s3) :: post) ∧
        (a + s1 ≠ ptr → ptr + size ≠ b →
          l' = pre ++ (a, s1) :: (ptr, size) :: (b, s3) :: post)) ∧
      (∀ b s3 post, l = (b, s3) :: post → ptr < b →
        (ptr + size = b → l' = (ptr, size + s3) :: post) ∧
        (ptr + size ≠ b → l' = (ptr, size) :: (b, s3) :: post)) := by
  obtain ⟨hl, hlen⟩ := free_list_spec f s l hfl
  have hn0 : 0 < size := by simp only [sizeof_ptr, sizeof_size_t] at hsize; omega
  have hpnew : ptr ∉ starts l := by
    intro hmem
    obtain ⟨c, hc, hcp⟩ := List.mem_map.1 hmem
    have hd := hnew c hc
    have h16 := hhdr c hc
    simp only [sizeof_ptr, sizeof_size_t] at h16
    unfold Disj at hd
    simp only at hd
    omega
  obtain ⟨s', hs'⟩ := add_block_total fuel s ptr size l hl (by omega) hsize hal
  obtain ⟨k1, k2, -, -⟩ := add_block_sim fuel s s' ptr size l hl hp0 hn0 hpnew
    (ascending_nodup l hasc) hs'
  have hlen' := length_ins_le ptr size l
  have hcnt : ∀ x, cnt (ins ptr size l) x ≤ 1 := by
    intro x
    rw [cnt_ins]
    have h1 : ((ptr, size) :: l).Pairwise Disj := List.pairwise_cons.2 ⟨hnew, hdisj⟩
    have := cnt_le_one_of_pairwise _ h1 x
    simp only [cnt] at this ⊢
    omega
  refine ⟨s', ins ptr size l, hs',
    free_list_from_of_IsList s' _ s'.top (f + 1) k1 (by omega), k2,
    pairwise_of_cnt_le_one _ hcnt, ge_ins _ ptr size l hsize hhdr, ?_, ?_⟩
  · intro pre a s1 b s3 post hdec hlt1 hlt2
    subst hdec
    have hpre : ∀ c ∈ pre, c.1 ≤ ptr := by
      intro c hc
      have := ascending_prefix_lt pre (a, s1) _ hasc c hc
      simp only at this
      omega
    rw [ins_skip ptr size pre a s1 _ hpre (by omega)]
    simp only [ins_after]
    rw [if_pos (by omega)]
    refine ⟨?_, ?_, ?_, ?_⟩
    · intro e1 e2
      rw [if_pos e2, if_pos e1, Nat.add_assoc]
    · intro e1 e2
      rw [if_pos e2, if_neg e1]
    · intro e1 e2
      rw [if_neg e2, if_pos e1]
    · intro e1 e2
      rw [if_neg e2, if_neg e1]
  · intro b s3 post hdec hlt
    subst hdec
    simp only [ins]
    rw [if_pos (by omega)]
    refine ⟨?_, ?_⟩
    · intro e; rw [if_pos e]
    · intro e; rw [if_neg e]

/-- Effect of a successful malloc on the free list when the remainder holds
its header. In a state whose free list `l` consists of pairwise disjoint
blocks large enough for the header, let `(p, z)` be the first block of `l`
that is at least as large as the request size `req`, the blocks `pre` before
it being smaller, and let `z = req` or `z - req` be at least the header size.
Then malloc returns `p` (given the fuel for its search); the new free list is
`pre ++ post` when `z = req`, and `l` with `(p, z)` replaced in place by the
remainder `(p + req, z - req)` when `z > req`; its blocks are again large
enough for the header; the new table maps `p` to `req` and is the old table
at every other pointer. -/
theorem malloc_frame_when_remainder_fits (f fuel : Nat) (s : CustomMemManager) (N k : Nat)
    (pre post : List (Nat × Nat)) (p z : Nat)
    (hfl : free_list f s = some (pre ++ (p, z) :: post)) (hf : f ≤ fuel)
    (hhdr : ∀ c ∈ pre ++ (p, z) :: post, sizeof_ptr + sizeof_size_t ≤ c.2)
    (hdisj : (pre ++ (p, z) :: post).Pairwise Disj)
    (hpre : ∀ b ∈ pre, b.2 < req_size_of s.align_size N k)
    (hz : req_size_of s.align_size N k ≤ z)
    (hrem : z = req_size_of s.align_size N k ∨
      req_size_of s.align_size N k + (sizeof_ptr + sizeof_size_t) ≤ z) :
    ∃ s', malloc fuel s N k = Res.ok p s' ∧
      free_list f s' = some (pre ++
        (if z = req_size_of s.align_size N k then post
         else (p + req_size_of s.align_size N k, z - req_size_of s.align_size N k) :: post)) ∧
      (∀ c ∈ pre ++
        (if z = req_size_of s.align_size N k then post
         else (p + req_size_of s.align_size N k, z - req_size_of s.align_size N k) :: post),
        sizeof_ptr + sizeof_size_t ≤ c.2) ∧
      s'.alloc_blocks = tbl_assign s.alloc_blocks p (req_size_of s.align_size N k) ∧
      tbl_find s'.alloc_blocks p = some (req_size_of s.align_size N k) ∧
      (∀ q, q ≠ p → tbl_find s'.alloc_blocks q = tbl_find s.alloc_blocks q) ∧
      s'.align_size = s.align_size := by
  have hpos := pos_of_holds_header _ hhdr
  obtain ⟨hl, hlen⟩ := free_list_spec f s _ hfl
  have htf := take_fit_of_shape (req_size_of s.align_size N k) pre p z post hpre hz
  obtain ⟨s', hs'⟩ := (malloc_total fuel s N k _ hl (by omega)).2 p _ htf
  have hc1 := cnt_le_one_of_pairwise _ hdisj
  obtain ⟨l', k1, k2, k3, k4⟩ := malloc_sim fuel s s' N k p _ hl
    (nodup_starts _ hpos hc1) (no_start_inside _ hpos hc1) hs'
  rw [htf] at k1
  simp only [Option.some.injEq, Prod.mk.injEq, true_and] at k1
  subst k1
  have hlen' := take_fit_length _ _ _ p htf
  refine ⟨s', hs', free_list_from_of_IsList s' _ s'.top f k2 (by omega), ?_, k3, ?_, ?_, k4⟩
  · intro c hc
    rcases List.mem_append.1 hc with hc | hc
    · exact hhdr c (List.mem_append_left _ hc)
    · split_ifs at hc with hzr
      · exact hhdr c (List.mem_append_right _ (List.mem_cons_of_mem _ hc))
      · rcases List.mem_cons.1 hc with rfl | hc
        · simp only
          rcases hrem with h | h
          · exact absurd h hzr
          · omega
        · exact hhdr c (List.mem_append_right _ (List.mem_cons_of_mem _ hc))
  · rw [k3]; simp [tbl_assign, tbl_find]
  · intro q hq
    rw [k3]
    exact tbl_find_assign_other _ _ _ _ hq

/-- malloc keeps the canonical form when the remainder holds its header. In a
state whose free list `l` is strictly ascending by address with no two
list-adjacent blocks memory-adjacent, whose blocks are pairwise disjoint and
large enough for the header, and in which every block that fits the request
fits it exactly or leaves at least the header size: malloc returns normally
whenever some block fits (given the fuel for its search), and after every
successful malloc the free list is again strictly ascending, free of
memory-adjacent neighbours, pairwise disjoint and made of blocks large enough
for the header. -/
theorem malloc_keeps_canonical_when_remainder_fits (f fuel : Nat) (s : CustomMemManager)
    (N k : Nat) (l : List (Nat × Nat)) (hfl : free_list f s = some l) (hf : f ≤ fuel)
    (hord : ordered_ok l) (hdisj : l.Pairwise Disj)
    (hhdr : ∀ c ∈ l, sizeof_ptr + sizeof_size_t ≤ c.2)
    (hrem : ∀ c ∈ l, c.2 < req_size_of s.align_size N k ∨
      c.2 = req_size_of s.align_size N k ∨
      req_size_of s.align_size N k + (sizeof_ptr + sizeof_size_t) ≤ c.2) :
    ((∃ b ∈ l, req_size_of s.align_size N k ≤ b.2) →
      ∃ p s', malloc fuel s N k = Res.ok p s') ∧
    (∀ p s', malloc fuel s N k = Res.ok p s' →
      ∃ l', free_list f s' = some l' ∧ ordered_ok l' ∧ l'.Pairwise Disj ∧
        ∀ c ∈ l', sizeof_ptr + sizeof_size_t ≤ c.2) := by
  have hpos := pos_of_holds_header l hhdr
  obtain ⟨hl, hlen⟩ := free_list_spec f s l hfl
  have hg := gap_of_ordered_disj l hord hdisj hpos
  have hc1 := cnt_le_one_of_pairwise _ hdisj
  constructor
  · rintro ⟨b, hb, hbz⟩
    cases htf : take_fit (req_size_of s.align_size N k) l with
    | none =>
      have := (take_fit_none_iff _ l).1 htf b hb
      omega
    | some q =>
      obtain ⟨q1, q2⟩ := q
      obtain ⟨s2, hs2⟩ := (malloc_total fuel s N k l hl (by omega)).2 q1 q2 htf
      exact ⟨q1, s2, hs2⟩
  · intro p s' h
    obtain ⟨l', k1, k2, -, -⟩ := malloc_sim fuel s s' N k p l hl
      (nodup_starts _ hpos hc1) (no_start_inside _ hpos hc1) h
    have hg' := gap_take_fit _ l l' p k1 hg
    have hlen' := take_fit_length _ _ _ p k1
    refine ⟨l', free_list_from_of_IsList s' _ s'.top f k2 (by omega), ordered_ok_of_gap _ hg',
      pairwise_disj_of_gap _ hg', ?_⟩
    obtain ⟨pre, z, post, e1, e2, e3⟩ := take_fit_first _ l l' p k1
    subst e1
    rw [take_fit_of_shape _ pre p z post e2 e3] at k1
    simp only [Option.some.injEq, Prod.mk.injEq, true_and] at k1
    subst k1
    intro c hc
    rcases List.mem_append.1 hc with hc | hc
    · exact hhdr c (List.mem_append_left _ hc)
    · split_ifs at hc with hzr
      · exact hhdr c (List.mem_append_right _ (List.mem_cons_of_mem _ hc))
      · rcases List.mem_cons.1 hc with rfl | hc
        · simp only
          have := hrem (p, z) (List.mem_append_right _ (List.mem_cons_self _ _))
          simp only at this
          omega
        · exact hhdr c (List.mem_append_right _ (List.mem_cons_of_mem _ hc))

/-! ## The two memories on runs that keep every header inside its block -/

/-- On call sequences that leave every free block large enough for its
header, the free list read from the byte memory and the one read from the two
header maps are the same, and so is the allocation table: a split with a
remainder of 32 bytes followed by the free, fast pushes of adjacent regions
followed by defrag, and an ordered donation between two blocks that merges all
three. With the remainder of 8 bytes left by malloc of 56 bytes from a block
of 64 the two agree until the next write to the bytes behind it, and differ
after add_block_fast(4160, 16). -/
theorem memories_agree_while_headers_fit :
    (Bytes.free_list 8 (Bytes.run_state 8 (Bytes.fresh 8 zero_mem)
        [Call.add_block 4096 64, Call.malloc 32 1]) =
      free_list 8 (run_state 8 (fresh 8 zero_mem zero_mem)
        [Call.add_block 4096 64, Call.malloc 32 1]) ∧
     Bytes.free_list 8 (Bytes.run_state 8 (Bytes.fresh 8 zero_mem)
        [Call.add_block 4096 64, Call.malloc 32 1, Call.free 4096]) =
      free_list 8 (run_state 8 (fresh 8 zero_mem zero_mem)
        [Call.add_block 4096 64, Call.malloc 32 1, Call.free 4096]) ∧
     (Bytes.run_state 8 (Bytes.fresh 8 zero_mem)
        [Call.add_block 4096 64, Call.malloc 32 1, Call.free 4096]).alloc_blocks =
      (run_state 8 (fresh 8 zero_mem zero_mem)
        [Call.add_block 4096 64, Call.malloc 32 1, Call.free 4096]).alloc_blocks) ∧
    (Bytes.free_list 8 (Bytes.run_state 8 (Bytes.fresh 8 zero_mem)
        [Call.add_block_fast 4112 16, Call.add_block_fast 4128 16,
          Call.add_block_fast 4096 16, Call.defrag]) =
      free_list 8 (run_state 8 (fresh 8 zero_mem zero_mem)
        [Call.add_block_fast 4112 16, Call.add_block_fast 4128 16,
          Call.add_block_fast 4096 16, Call.defrag]) ∧
     free_list 8 (run_state 8 (fresh 8 zero_mem zero_mem)
        [Call.add_block_fast 4112 16, Call.add_block_fast 4128 16,
          Call.add_block_fast 4096 16, Call.defrag]) = some [(4096, 48)]) ∧
    (Bytes.free_list 8 (Bytes.run_state 8 (Bytes.fresh 8 zero_mem)
        [Call.add_block 4096 16, Call.add_block 4128 16, Call.add_block 4112 16]) =
      free_list 8 (run_state 8 (fresh 8 zero_mem zero_mem)
        [Call.add_block 4096 16, Call.add_block 4128 16, Call.add_block 4112 16])) ∧
    (Bytes.free_list 8 (Bytes.run_state 8 (Bytes.fresh 8 zero_mem)
        [Call.add_block_fast 4096 16, Call.add_block_fast 8192 64, Call.add_block 12288 16,
          Call.malloc 32 1, Call.defrag]) =
      free_list 8 (run_state 8 (fresh 8 zero_mem zero_mem)
        [Call.add_block_fast 4096 16, Call.add_block_fast 8192 64, Call.add_block 12288 16,
          Call.malloc 32 1, Call.defrag])) ∧
    (Bytes.free_list 8 (Bytes.run_state 8 (Bytes.fresh 8 zero_mem)
        [Call.add_block 4096 64, Call.malloc 56 1]) =
      free_list 8 (run_state 8 (fresh 8 zero_mem zero_mem)
        [Call.add_block 4096 64, Call.malloc 56 1]) ∧
     headers_fit 8 8 (fresh 8 zero_mem zero_mem)
        [Call.add_block 4096 64, Call.malloc 56 1] = false ∧
     Bytes.free_list 8 (Bytes.run_state 8 (Bytes.fresh 8 zero_mem)
        [Call.add_block 4096 64, Call.malloc 56 1, Call.add_block_fast 4160 16]) ≠
      free_list 8 (run_state 8 (fresh 8 zero_mem zero_mem)
        [Call.add_block 4096 64, Call.malloc 56 1, Call.add_block_fast 4160 16])) := by
  decide

/-! ## The byte memory on runs that keep every header inside its block

The header words read off the byte memory (`header_maps`) are compared with
the two-map model call by call: as long as the headers written and read by a
call start at addresses whose 16-byte ranges do not overlap, the byte memory
after the call agrees with the two-map model run on the header words before
the call.  The invariant `Fit` carries this through every sequence of calls in
which `malloc` never leaves a remainder below the header size. -/

theorem load64_lt (m : Nat → Nat) (a : Nat) : Bytes.load64 m a < size_t_range := by
  unfold Bytes.load64 size_t_range
  omega

theorem load64_store64_same (m : Nat → Nat) (a v : Nat) (hv : v < size_t_range) :
    Bytes.load64 (Bytes.store64 m a v) a = v := by
  unfold size_t_range at hv
  unfold Bytes.load64 Bytes.store64
  have e0 : a ≤ a ∧ a < a + 8 := ⟨le_refl _, by omega⟩
  have e1 : a ≤ a + 1 ∧ a + 1 < a + 8 := ⟨by omega, by omega⟩
  have e2 : a ≤ a + 2 ∧ a + 2 < a + 8 := ⟨by omega, by omega⟩
  have e3 : a ≤ a + 3 ∧ a + 3 < a + 8 := ⟨by omega, by omega⟩
  have e4 : a ≤ a + 4 ∧ a + 4 < a + 8 := ⟨by omega, by omega⟩
  have e5 : a ≤ a + 5 ∧ a + 5 < a + 8 := ⟨by omega, by omega⟩
  have e6 : a ≤ a + 6 ∧ a + 6 < a + 8 := ⟨by omega, by omega⟩
  have e7 : a ≤ a + 7 ∧ a + 7 < a + 8 := ⟨by omega, by omega⟩
  simp only [if_pos e0, if_pos e1, if_pos e2, if_pos e3, if_pos e4, if_pos e5, if_pos e6,
    if_pos e7, Nat.sub_self, Nat.add_sub_cancel_left, Nat.mod_mod]
  norm_num
  omega

theorem load64_store64_far (m : Nat → Nat) (a v b : Nat) (h : a + 8 ≤ b ∨ b + 8 ≤ a) :
    Bytes.load64 (Bytes.store64 m a v) b = Bytes.load64 m b := by
  unfold Bytes.load64 Bytes.store64
  have e0 : ¬ (a ≤ b ∧ b < a + 8) := by omega
  have e1 : ¬ (a ≤ b + 1 ∧ b + 1 < a + 8) := by omega
  have e2 : ¬ (a ≤ b + 2 ∧ b + 2 < a + 8) := by omega
  have e3 : ¬ (a ≤ b + 3 ∧ b + 3 < a + 8) := by omega
  have e4 : ¬ (a ≤ b + 4 ∧ b + 4 < a + 8) := by omega
  have e5 : ¬ (a ≤ b + 5 ∧ b + 5 < a + 8) := by omega
  have e6 : ¬ (a ≤ b + 6 ∧ b + 6 < a + 8) := by omega
  have e7 : ¬ (a ≤ b + 7 ∧ b + 7 < a + 8) := by omega
  simp only [if_neg e0, if_neg e1, if_neg e2, if_neg e3, if_neg e4, if_neg e5, if_neg e6,
    if_neg e7]

theorem get_next_set_next_same (bs : Bytes.CustomMemManager) (a v : Nat)
    (hv : v < size_t_range) : Bytes.get_next (Bytes.set_next bs a v) a = v :=
  load64_store64_same bs.mem a v hv

theorem get_next_set_next_far (bs : Bytes.CustomMemManager) (a v b : Nat)
    (h : a + 8 ≤ b ∨ b + 8 ≤ a) :
    Bytes.get_next (Bytes.set_next bs a v) b = Bytes.get_next bs b :=
  load64_store64_far bs.mem a v b h

theorem get_size_set_next (bs : Bytes.CustomMemManager) (a v b : Nat)
    (h : b = a ∨ a + 16 ≤ b ∨ b + 16 ≤ a) :
    Bytes.get_size (Bytes.set_next bs a v) b = Bytes.get_size bs b :=
  load64_store64_far bs.mem a v (b + sizeof_ptr) (by simp only [sizeof_ptr]; omega)

theorem get_next_set_size (bs : Bytes.CustomMemManager) (a v b : Nat)
    (h : b = a ∨ a + 16 ≤ b ∨ b + 16 ≤ a) :
    Bytes.get_next (Bytes.set_size bs a v) b = Bytes.get_next bs b :=
  load64_store64_far bs.mem (a + sizeof_ptr) v b (by simp only [sizeof_ptr]; omega)

theorem get_size_set_size_same (bs : Bytes.CustomMemManager) (a v : Nat)
    (hv : v < size_t_range) : Bytes.get_size (Bytes.set_size bs a v) a = v :=
  load64_store64_same bs.mem (a + sizeof_ptr) v hv

theorem get_size_set_size_far (bs : Bytes.CustomMemManager) (a v b : Nat)
    (h : a + 8 ≤ b ∨ b + 8 ≤ a) :
    Bytes.get_size (Bytes.set_size bs a v) b = Bytes.get_size bs b :=
  load64_store64_far bs.mem (a + sizeof_ptr) v (b + sizeof_ptr) (by omega)

theorem bytes_get_prev_loop (bs : Bytes.CustomMemManager) (p : Nat) :
    ∀ fuel ret : Nat, Bytes.get_prev_loop bs p fuel ret =
      get_prev_loop (header_maps bs) p fuel ret := by
  intro fuel
  induction fuel with
  | zero => intro ret; rfl
  | succ n ih =>
    intro ret
    simp only [Bytes.get_prev_loop, get_prev_loop, ih]
    rfl

theorem bytes_get_prev (fuel : Nat) (bs : Bytes.CustomMemManager) (p : Nat) :
    Bytes.get_prev fuel bs p = get_prev fuel (header_maps bs) p := by
  simp only [Bytes.get_prev, get_prev, bytes_get_prev_loop]
  rfl

theorem bytes_malloc_search (bs : Bytes.CustomMemManager) (req : Nat) :
    ∀ fuel prev ptr bsz : Nat, Bytes.malloc_search bs req fuel prev ptr bsz =
      malloc_search (header_maps bs) req fuel prev ptr bsz := by
  intro fuel
  induction fuel with
  | zero => intro prev ptr bsz; rfl
  | succ n ih =>
    intro prev ptr bsz
    simp only [Bytes.malloc_search, malloc_search, ih]
    rfl

theorem bytes_free_list_from (bs : Bytes.CustomMemManager) :
    ∀ fuel p : Nat, Bytes.free_list_from bs fuel p = free_list_from (header_maps bs) fuel p := by
  intro fuel
  induction fuel with
  | zero => intro p; rfl
  | succ n ih =>
    intro p
    simp only [Bytes.free_list_from, free_list_from, ih]
    rfl

theorem bytes_free_list (f : Nat) (bs : Bytes.CustomMemManager) :
    Bytes.free_list f bs = free_list f (header_maps bs) :=
  bytes_free_list_from bs f bs.top

theorem IsList_of_agree (A : List Nat) (s1 s2 : CustomMemManager) (l : List (Nat × Nat))
    (p : Nat) (h : AgreeOn A s1 s2) (hA : ∀ x ∈ starts l, x ∈ A) (hl : IsList s2 p l) :
    IsList s1 p l :=
  IsList_congr s2 s1 l p (fun x hx => h.2.2.2 x (hA x hx)) hl


theorem agree_refl (A : List Nat) (s : CustomMemManager) : AgreeOn A s s :=
  ⟨rfl, rfl, rfl, fun _ _ => ⟨rfl, rfl⟩⟩

theorem agree_set_next (A : List Nat) (bs : Bytes.CustomMemManager) (s : CustomMemManager)
    (a v : Nat) (h : AgreeOn A (header_maps bs) s) (ha : a ∈ A) (hsep : Separated A)
    (hv : v < size_t_range) :
    AgreeOn A (header_maps (Bytes.set_next bs a v))
      { s with mem_next := upd s.mem_next a v } := by
  obtain ⟨h1, h2, h3, h4⟩ := h
  refine ⟨h1, h2, h3, ?_⟩
  intro x hx
  by_cases hxa : x = a
  · subst hxa
    refine ⟨?_, ?_⟩
    · show Bytes.get_next (Bytes.set_next bs x v) x = upd s.mem_next x v x
      rw [get_next_set_next_same bs x v hv, upd_same]
    · show Bytes.get_size (Bytes.set_next bs x v) x = s.mem_size x
      rw [get_size_set_next bs x v x (Or.inl rfl)]
      exact (h4 x hx).2
  · have hs := hsep x hx a ha hxa
    refine ⟨?_, ?_⟩
    · show Bytes.get_next (Bytes.set_next bs a v) x = upd s.mem_next a v x
      rw [get_next_set_next_far bs a v x (by omega), upd_other _ _ _ _ hxa]
      exact (h4 x hx).1
    · show Bytes.get_size (Bytes.set_next bs a v) x = s.mem_size x
      rw [get_size_set_next bs a v x (by omega)]
      exact (h4 x hx).2

theorem agree_set_size (A : List Nat) (bs : Bytes.CustomMemManager) (s : CustomMemManager)
    (a v : Nat) (h : AgreeOn A (header_maps bs) s) (ha : a ∈ A) (hsep : Separated A)
    (hv : v < size_t_range) :
    AgreeOn A (header_maps (Bytes.set_size bs a v))
      { s with mem_size := upd s.mem_size a v } := by
  obtain ⟨h1, h2, h3, h4⟩ := h
  refine ⟨h1, h2, h3, ?_⟩
  intro x hx
  by_cases hxa : x = a
  · subst hxa
    refine ⟨?_, ?_⟩
    · show Bytes.get_next (Bytes.set_size bs x v) x = s.mem_next x
      rw [get_next_set_size bs x v x (Or.inl rfl)]
      exact (h4 x hx).1
    · show Bytes.get_size (Bytes.set_size bs x v) x = upd s.mem_size x v x
      rw [get_size_set_size_same bs x v hv, upd_same]
  · have hs := hsep x hx a ha hxa
    refine ⟨?_, ?_⟩
    · show Bytes.get_next (Bytes.set_size bs a v) x = s.mem_next x
      rw [get_next_set_size bs a v x (by omega)]
      exact (h4 x hx).1
    · show Bytes.get_size (Bytes.set_size bs a v) x = upd s.mem_size a v x
      rw [get_size_set_size_far bs a v x (by omega), upd_other _ _ _ _ hxa]
      exact (h4 x hx).2

theorem agree_set_top (A : List Nat) (bs : Bytes.CustomMemManager) (s : CustomMemManager)
    (t : Nat) (h : AgreeOn A (header_maps bs) s) :
    AgreeOn A (header_maps { bs with top := t }) { s with top := t } :=
  ⟨rfl, h.2.1, h.2.2.1, h.2.2.2⟩

theorem agree_set_alloc (A : List Nat) (bs : Bytes.CustomMemManager) (s : CustomMemManager)
    (t : List (Nat × Nat)) (h : AgreeOn A (header_maps bs) s) :
    AgreeOn A (header_maps { bs with alloc_blocks := t }) { s with alloc_blocks := t } :=
  ⟨h.1, h.2.1, rfl, h.2.2.2⟩

theorem agree_get_next (A : List Nat) (bs : Bytes.CustomMemManager) (s : CustomMemManager)
    (a : Nat) (h : AgreeOn A (header_maps bs) s) (ha : a ∈ A) :
    Bytes.get_next bs a = s.mem_next a := (h.2.2.2 a ha).1

theorem agree_get_size (A : List Nat) (bs : Bytes.CustomMemManager) (s : CustomMemManager)
    (a : Nat) (h : AgreeOn A (header_maps bs) s) (ha : a ∈ A) :
    Bytes.get_size bs a = s.mem_size a := (h.2.2.2 a ha).2

theorem add_block_fast_agree (A : List Nat) (bs bs1 : Bytes.CustomMemManager) (b n : Nat)
    (hb : b ∈ A) (hsep : Separated A) (htop : bs.top < size_t_range)
    (hn : n < size_t_range)
    (h : Bytes.add_block_fast bs b n = Bytes.Res.ok () bs1) :
    ∃ s1, add_block_fast (header_maps bs) b n = Res.ok () s1 ∧
      AgreeOn A (header_maps bs1) s1 := by
  unfold Bytes.add_block_fast at h
  unfold add_block_fast
  by_cases h0 : n = 0
  · rw [if_pos h0] at h
    rw [if_pos h0]
    cases h
    exact ⟨_, rfl, agree_refl _ _⟩
  · rw [if_neg h0] at h
    rw [if_neg h0]
    by_cases h1 : n < sizeof_ptr + sizeof_size_t
    · rw [if_pos h1] at h; cases h
    · rw [if_neg h1] at h
      rw [if_neg h1]
      have hca : check_alignment (header_maps bs) b = Bytes.check_alignment bs b := rfl
      rw [hca]
      cases hc : Bytes.check_alignment bs b with
      | true => rw [hc] at h; simp at h
      | false =>
        rw [hc] at h
        simp only [Bool.false_eq_true, if_false, Bytes.Res.ok.injEq, true_and] at h
        subst h
        refine ⟨_, rfl, ?_⟩
        exact agree_set_top A _ _ b
          (agree_set_size A _ _ b n
            (agree_set_next A bs _ b bs.top (agree_refl A _) hb hsep htop) hb hsep hn)

theorem agree_header (A : List Nat) (bs : Bytes.CustomMemManager) (s : CustomMemManager)
    (b v w : Nat) (h : AgreeOn A (header_maps bs) s) (hb : b ∈ A) (hsep : Separated A)
    (hv : v < size_t_range) (hw : w < size_t_range) :
    AgreeOn A (header_maps (Bytes.set_size (Bytes.set_next bs b v) b w))
      { s with mem_next := upd s.mem_next b v, mem_size := upd s.mem_size b w } :=
  agree_set_size A (Bytes.set_next bs b v) { s with mem_next := upd s.mem_next b v } b w
    (agree_set_next A bs s b v h hb hsep hv) hb hsep hw

theorem link_next_agree (A : List Nat) (bs : Bytes.CustomMemManager) (s : CustomMemManager)
    (b n nx : Nat) (h : AgreeOn A (header_maps bs) s) (hb : b ∈ A) (hsep : Separated A)
    (hbn : b + n < size_t_range) (hnx : nx < size_t_range)
    (hnext : b + n = nx → 16 ≤ n ∧ nx ∈ A ∧ nx + s.mem_size nx < size_t_range) :
    AgreeOn A
      (header_maps
        (if (b + n) % size_t_range = nx then
          Bytes.set_size (Bytes.set_next bs b (Bytes.get_next bs nx)) b
            ((n + Bytes.get_size (Bytes.set_next bs b (Bytes.get_next bs nx)) nx) %
              size_t_range)
        else Bytes.set_size (Bytes.set_next bs b nx) b n))
      (if b + n = nx then
        { s with mem_next := upd s.mem_next b (s.mem_next nx),
                 mem_size := upd s.mem_size b (n + s.mem_size nx) }
      else
        { s with mem_next := upd s.mem_next b nx, mem_size := upd s.mem_size b n }) := by
  have hmod : (b + n) % size_t_range = b + n := Nat.mod_eq_of_lt hbn
  rw [hmod]
  by_cases hc : b + n = nx
  · obtain ⟨h16, hnA, hsum⟩ := hnext hc
    rw [if_pos hc, if_pos hc]
    have e1 : Bytes.get_next bs nx = s.mem_next nx := agree_get_next A bs s nx h hnA
    have e2 : Bytes.get_size (Bytes.set_next bs b (s.mem_next nx)) nx = s.mem_size nx := by
      rw [get_size_set_next bs b (s.mem_next nx) nx (by omega)]
      exact agree_get_size A bs s nx h hnA
    have hv : s.mem_next nx < size_t_range := by rw [← e1]; exact load64_lt _ _
    rw [e1, e2, Nat.mod_eq_of_lt (show n + s.mem_size nx < size_t_range by omega)]
    exact agree_header A bs s b (s.mem_next nx) (n + s.mem_size nx) h hb hsep hv (by omega)
  · rw [if_neg hc, if_neg hc]
    exact agree_header A bs s b nx n h hb hsep hnx (by omega)

theorem link_prev_agree (A : List Nat) (bs1 : Bytes.CustomMemManager) (s1 : CustomMemManager)
    (b prev : Nat) (h : AgreeOn A (header_maps bs1) s1) (hb : b ∈ A) (hsep : Separated A)
    (hbR : b < size_t_range)
    (hprev : prev ≠ 0 → prev ∈ A ∧ prev + s1.mem_size prev < size_t_range ∧
      (prev + s1.mem_size prev = b → s1.mem_size prev + s1.mem_size b < size_t_range)) :
    AgreeOn A
      (header_maps
        (if prev = 0 then { bs1 with top := b }
         else if (prev + Bytes.get_size bs1 prev) % size_t_range = b then
           Bytes.set_size (Bytes.set_next bs1 prev (Bytes.get_next bs1 b)) prev
             ((Bytes.get_size (Bytes.set_next bs1 prev (Bytes.get_next bs1 b)) prev +
               Bytes.get_size (Bytes.set_next bs1 prev (Bytes.get_next bs1 b)) b) %
                 size_t_range)
         else Bytes.set_next bs1 prev b))
      (if prev = 0 then { s1 with top := b }
       else if prev + s1.mem_size prev = b then
         { s1 with mem_next := upd s1.mem_next prev (s1.mem_next b),
                   mem_size := upd s1.mem_size prev (s1.mem_size prev + s1.mem_size b) }
       else { s1 with mem_next := upd s1.mem_next prev b }) := by
  by_cases hp : prev = 0
  · rw [if_pos hp, if_pos hp]
    exact agree_set_top A bs1 s1 b h
  · rw [if_neg hp, if_neg hp]
    obtain ⟨hpA, hpR, hsum⟩ := hprev hp
    have hgs : Bytes.get_size bs1 prev = s1.mem_size prev := agree_get_size A bs1 s1 prev h hpA
    rw [hgs, Nat.mod_eq_of_lt hpR]
    by_cases hc2 : prev + s1.mem_size prev = b
    · rw [if_pos hc2, if_pos hc2]
      have hgn : Bytes.get_next bs1 b = s1.mem_next b := agree_get_next A bs1 s1 b h hb
      have hv : s1.mem_next b < size_t_range := by rw [← hgn]; exact load64_lt _ _
      rw [hgn]
      have hag2 := agree_set_next A bs1 s1 prev (s1.mem_next b) h hpA hsep hv
      have hg1 : Bytes.get_size (Bytes.set_next bs1 prev (s1.mem_next b)) prev =
          s1.mem_size prev :=
        agree_get_size A (Bytes.set_next bs1 prev (s1.mem_next b))
          { s1 with mem_next := upd s1.mem_next prev (s1.mem_next b) } prev hag2 hpA
      have hg2 : Bytes.get_size (Bytes.set_next bs1 prev (s1.mem_next b)) b =
          s1.mem_size b :=
        agree_get_size A (Bytes.set_next bs1 prev (s1.mem_next b))
          { s1 with mem_next := upd s1.mem_next prev (s1.mem_next b) } b hag2 hb
      rw [hg1, hg2, Nat.mod_eq_of_lt (hsum hc2)]
      exact agree_set_size A (Bytes.set_next bs1 prev (s1.mem_next b))
        { s1 with mem_next := upd s1.mem_next prev (s1.mem_next b) } prev
        (s1.mem_size prev + s1.mem_size b) hag2 hpA hsep (hsum hc2)
    · rw [if_neg hc2, if_neg hc2]
      exact agree_set_next A bs1 s1 prev b h hpA hsep hbR

theorem header_maps_next (bs : Bytes.CustomMemManager) (x : Nat) :
    (header_maps bs).mem_next x = Bytes.get_next bs x := rfl

theorem header_maps_size (bs : Bytes.CustomMemManager) (x : Nat) :
    (header_maps bs).mem_size x = Bytes.get_size bs x := rfl

theorem header_maps_top (bs : Bytes.CustomMemManager) : (header_maps bs).top = bs.top := rfl

theorem link_next_size_other (s : CustomMemManager) (b n nx x : Nat) (hx : x ≠ b) :
    (if b + n = nx then
        ({ s with mem_next := upd s.mem_next b (s.mem_next nx),
                  mem_size := upd s.mem_size b (n + s.mem_size nx) } : CustomMemManager)
      else
        { s with mem_next := upd s.mem_next b nx, mem_size := upd s.mem_size b n }).mem_size x
      = s.mem_size x := by
  split_ifs
  · exact upd_other _ _ _ _ hx
  · exact upd_other _ _ _ _ hx

theorem link_next_size_self (s : CustomMemManager) (b n nx : Nat) :
    (if b + n = nx then
        ({ s with mem_next := upd s.mem_next b (s.mem_next nx),
                  mem_size := upd s.mem_size b (n + s.mem_size nx) } : CustomMemManager)
      else
        { s with mem_next := upd s.mem_next b nx, mem_size := upd s.mem_size b n }).mem_size b
      = if b + n = nx then n + s.mem_size nx else n := by
  split_ifs
  · exact upd_same _ _ _
  · exact upd_same _ _ _

theorem add_block_link_agree (A : List Nat) (bs : Bytes.CustomMemManager) (b n prev : Nat)
    (hb : b ∈ A) (hsep : Separated A) (h16 : 16 ≤ n)
    (hbn : b + n < size_t_range) (htop : bs.top < size_t_range)
    (hprev : prev ≠ 0 → prev ∈ A ∧ prev ≠ b ∧ prev + Bytes.get_size bs prev < size_t_range)
    (hnext : b + n = (if prev ≠ 0 then Bytes.get_next bs prev else bs.top) →
       b + n ∈ A ∧ b + n + Bytes.get_size bs (b + n) < size_t_range) :
    AgreeOn A (header_maps (Bytes.add_block_link bs b n prev))
      (add_block_link (header_maps bs) b n prev) := by
  have hnx : (if prev ≠ 0 then Bytes.get_next bs prev else bs.top) < size_t_range := by
    split_ifs
    · exact load64_lt _ _
    · exact htop
  have p1 := link_next_agree A bs (header_maps bs) b n
    (if prev ≠ 0 then Bytes.get_next bs prev else bs.top) (agree_refl A _) hb hsep hbn hnx
    (fun e => by
      obtain ⟨k1, k2⟩ := hnext e
      rw [← e]
      exact ⟨h16, k1, by
        show b + n + Bytes.get_size bs (b + n) < size_t_range
        exact k2⟩)
  refine link_prev_agree A _ _ b prev p1 hb hsep (by omega) (fun hp => ?_)
  obtain ⟨k1, k2, k3⟩ := hprev hp
  rw [link_next_size_other (header_maps bs) b n _ prev k2,
    link_next_size_self (header_maps bs) b n _]
  refine ⟨k1, k3, fun e => ?_⟩
  simp only [header_maps_next, header_maps_size, header_maps_top] at e ⊢
  by_cases hc : b + n = (if prev ≠ 0 then Bytes.get_next bs prev else bs.top)
  · obtain ⟨-, k5⟩ := hnext hc
    rw [if_pos hc, ← hc]
    omega
  · rw [if_neg hc]
    omega

theorem IsList_mem_size (s : CustomMemManager) (l : List (Nat × Nat)) :
    ∀ p x : Nat, IsList s p l → x ∈ starts l → (x, s.mem_size x) ∈ l := by
  induction l with
  | nil => intro p x _ hx; simp [starts] at hx
  | cons c r ih =>
    intro p x hl hx
    obtain ⟨h1, h2, h3, h4⟩ := hl
    simp only [starts, List.map_cons, List.mem_cons] at hx
    rcases hx with hx | hx
    · subst hx
      rw [h3]
      exact List.mem_cons_self _ _
    · exact List.mem_cons_of_mem _ (ih _ x h4 hx)

theorem IsList_next_mem (s : CustomMemManager) (l : List (Nat × Nat)) :
    ∀ p x : Nat, IsList s p l → x ∈ starts l → s.mem_next x ≠ 0 → s.mem_next x ∈ starts l := by
  induction l with
  | nil => intro p x _ hx; simp [starts] at hx
  | cons c r ih =>
    intro p x hl hx hne
    obtain ⟨h1, h2, h3, h4⟩ := hl
    simp only [starts, List.map_cons, List.mem_cons] at hx ⊢
    rcases hx with hx | hx
    · subst hx
      right
      cases r with
      | nil => exact absurd h4 hne
      | cons d r2 =>
        obtain ⟨g1, -⟩ := h4
        rw [g1]
        simp [starts]
    · exact Or.inr (ih _ x h4 hx hne)

theorem IsList_head_mem (s : CustomMemManager) (l : List (Nat × Nat)) (p : Nat)
    (hl : IsList s p l) (hp : p ≠ 0) : p ∈ starts l := by
  cases l with
  | nil => exact absurd hl hp
  | cons c r =>
    obtain ⟨h1, -⟩ := hl
    rw [h1]
    simp [starts]

theorem get_prev_mem (fuel : Nat) (s : CustomMemManager) (b prev : Nat) (l : List (Nat × Nat))
    (hl : IsList s s.top l) (ht : s.top ≠ 0) (h : get_prev fuel s b = some prev)
    (hp : prev ≠ 0) : prev ∈ starts l := by
  unfold get_prev at h
  split_ifs at h with hgt
  · cases h; exact absurd rfl hp
  · cases l with
    | nil => exact absurd hl ht
    | cons c r =>
      obtain ⟨h1, h2, h3, h4⟩ := hl
      rw [h1] at h
      have := get_prev_loop_mem s b r c.1 fuel prev h2 h4 h
      simpa [starts] using this

theorem add_block_agree (A : List Nat) (fuel : Nat) (bs bs1 : Bytes.CustomMemManager)
    (b n : Nat) (l : List (Nat × Nat)) (hl : IsList (header_maps bs) bs.top l)
    (hlA : ∀ x ∈ starts l, x ∈ A) (hb : b ∈ A) (hsep : Separated A)
    (hbl : b ∉ starts l) (hn0 : n ≠ 0) (hbn : b + n < size_t_range)
    (hbound : ∀ c ∈ l, c.1 + c.2 < size_t_range)
    (h : Bytes.add_block fuel bs b n = Bytes.Res.ok () bs1) :
    ∃ s1, add_block fuel (header_maps bs) b n = Res.ok () s1 ∧
      AgreeOn A (header_maps bs1) s1 := by
  have hbnd : ∀ x ∈ starts l, x + Bytes.get_size bs x < size_t_range := fun x hx =>
    hbound _ (IsList_mem_size (header_maps bs) l bs.top x hl hx)
  have htop : bs.top < size_t_range := by
    by_cases h0 : bs.top = 0
    · rw [h0]; unfold size_t_range; omega
    · have := hbnd _ (IsList_head_mem (header_maps bs) l bs.top hl h0)
      omega
  unfold Bytes.add_block at h
  unfold add_block
  rw [if_neg hn0] at h
  rw [if_neg hn0]
  by_cases h1 : n < sizeof_ptr + sizeof_size_t
  · rw [if_pos h1] at h; cases h
  · rw [if_neg h1] at h
    rw [if_neg h1]
    have h16 : 16 ≤ n := by simp only [sizeof_ptr, sizeof_size_t] at h1; omega
    have hca : check_alignment (header_maps bs) b = Bytes.check_alignment bs b := rfl
    rw [hca]
    cases hc : Bytes.check_alignment bs b with
    | true => rw [hc] at h; simp at h
    | false =>
      rw [hc] at h
      simp only [Bool.false_eq_true, if_false] at h ⊢
      rw [header_maps_top]
      by_cases ht : bs.top = 0
      · rw [if_pos ht] at h
        rw [if_pos ht]
        simp only [Bytes.Res.ok.injEq, true_and] at h
        subst h
        refine ⟨_, rfl, ?_⟩
        exact agree_set_top A _ _ b
          (agree_header A bs (header_maps bs) b bs.top n (agree_refl A _) hb hsep htop
            (by omega))
      · rw [if_neg ht] at h
        rw [if_neg ht]
        rw [bytes_get_prev] at h
        cases hq : get_prev fuel (header_maps bs) b with
        | none => rw [hq] at h; cases h
        | some prev =>
          rw [hq] at h
          simp only [Bytes.Res.ok.injEq, true_and] at h
          subst h
          refine ⟨_, rfl, ?_⟩
          have hpm : prev ≠ 0 → prev ∈ starts l := fun hp =>
            get_prev_mem fuel (header_maps bs) b prev l hl ht hq hp
          apply add_block_link_agree A bs b n prev hb hsep h16 hbn htop
          · intro hp
            have hm := hpm hp
            exact ⟨hlA _ hm, fun e => hbl (e ▸ hm), hbnd _ hm⟩
          · intro e
            have hne : b + n ≠ 0 := by omega
            have hmem : b + n ∈ starts l := by
              rw [e]
              by_cases hp : prev = 0
              · rw [if_neg (by simpa using hp)]
                exact IsList_head_mem (header_maps bs) l bs.top hl ht
              · rw [if_pos hp]
                rw [if_pos hp] at e
                exact IsList_next_mem (header_maps bs) l bs.top prev hl (hpm hp)
                  (by rw [header_maps_next, ← e]; exact hne)
            exact ⟨hlA _ hmem, by have := hbnd _ hmem; omega⟩

theorem agree_assign (A : List Nat) (X : Bytes.CustomMemManager) (Y : CustomMemManager)
    (p v : Nat) (h : AgreeOn A (header_maps X) Y) :
    AgreeOn A (header_maps { X with alloc_blocks := tbl_assign X.alloc_blocks p v })
      { Y with alloc_blocks := tbl_assign Y.alloc_blocks p v } := by
  obtain ⟨h1, h2, h3, h4⟩ := h
  refine ⟨h1, h2, ?_, h4⟩
  show tbl_assign X.alloc_blocks p v = tbl_assign Y.alloc_blocks p v
  have : X.alloc_blocks = Y.alloc_blocks := h3
  rw [this]

theorem agree_erase (A : List Nat) (X : Bytes.CustomMemManager) (Y : CustomMemManager)
    (p : Nat) (h : AgreeOn A (header_maps X) Y) :
    AgreeOn A (header_maps { X with alloc_blocks := tbl_erase X.alloc_blocks p })
      { Y with alloc_blocks := tbl_erase Y.alloc_blocks p } := by
  obtain ⟨h1, h2, h3, h4⟩ := h
  refine ⟨h1, h2, ?_, h4⟩
  show tbl_erase X.alloc_blocks p = tbl_erase Y.alloc_blocks p
  have : X.alloc_blocks = Y.alloc_blocks := h3
  rw [this]

theorem malloc_take_agree (A : List Nat) (bs : Bytes.CustomMemManager) (req prev ptr z : Nat)
    (hsep : Separated A)
    (hexact : req = z → prev ≠ 0 → prev ∈ A)
    (hsplit : req ≠ z → ptr + req ∈ A ∧ 16 ≤ req ∧ req ≤ Bytes.get_size bs ptr ∧
      ptr + req < size_t_range ∧ (bs.top ≠ ptr → prev ∈ A)) :
    AgreeOn A (header_maps (Bytes.malloc_take bs req prev ptr z))
      (malloc_take (header_maps bs) req prev ptr z) := by
  unfold Bytes.malloc_take malloc_take
  simp only []
  by_cases hz : req = z
  · rw [if_pos hz, if_pos hz]
    by_cases hp : prev ≠ 0
    · rw [if_pos hp, if_pos hp]
      exact agree_assign A (Bytes.set_next bs prev (Bytes.get_next bs ptr))
        { header_maps bs with
          mem_next := upd (header_maps bs).mem_next prev ((header_maps bs).mem_next ptr) }
        ptr req
        (agree_set_next A bs (header_maps bs) prev (Bytes.get_next bs ptr) (agree_refl A _)
          (hexact hz hp) hsep (load64_lt _ _))
    · rw [if_neg hp, if_neg hp]
      by_cases hq : ptr ≠ 0
      · rw [if_pos hq, if_pos hq]
        exact agree_assign A { bs with top := Bytes.get_next bs ptr }
          { header_maps bs with top := (header_maps bs).mem_next ptr } ptr req
          (agree_set_top A bs (header_maps bs) (Bytes.get_next bs ptr) (agree_refl A _))
      · rw [if_neg hq, if_neg hq]
        exact agree_assign A { bs with top := 0 } { header_maps bs with top := 0 } ptr req
          (agree_set_top A bs (header_maps bs) 0 (agree_refl A _))
  · rw [if_neg hz, if_neg hz]
    obtain ⟨hnf, h16, hle, hlt, hpv⟩ := hsplit hz
    have hmod : (ptr + req) % size_t_range = ptr + req := Nat.mod_eq_of_lt hlt
    rw [hmod]
    have e1 : Bytes.get_size (Bytes.set_next bs (ptr + req) (Bytes.get_next bs ptr)) ptr =
        Bytes.get_size bs ptr :=
      get_size_set_next bs (ptr + req) (Bytes.get_next bs ptr) ptr (by omega)
    have hg : Bytes.get_size bs ptr < size_t_range := load64_lt _ _
    have e2 : (Bytes.get_size bs ptr + size_t_range - req) % size_t_range =
        Bytes.get_size bs ptr - req := by
      have : Bytes.get_size bs ptr + size_t_range - req =
          (Bytes.get_size bs ptr - req) + size_t_range := by omega
      rw [this, Nat.add_mod_right, Nat.mod_eq_of_lt (by omega)]
    rw [e1, e2]
    have h0 := agree_header A bs (header_maps bs) (ptr + req) (Bytes.get_next bs ptr)
      (Bytes.get_size bs ptr - req) (agree_refl A _) hnf hsep (load64_lt _ _) (by omega)
    by_cases ht : bs.top = ptr
    · have ht1 : (Bytes.set_size (Bytes.set_next bs (ptr + req) (Bytes.get_next bs ptr))
          (ptr + req) (Bytes.get_size bs ptr - req)).top = ptr := ht
      have ht2 : (header_maps bs).top = ptr := ht
      rw [if_pos ht1, if_pos ht2]
      exact agree_assign A _ _ ptr req (agree_set_top A _ _ (ptr + req) h0)
    · have ht1 : ¬ (Bytes.set_size (Bytes.set_next bs (ptr + req) (Bytes.get_next bs ptr))
          (ptr + req) (Bytes.get_size bs ptr - req)).top = ptr := ht
      have ht2 : ¬ (header_maps bs).top = ptr := ht
      rw [if_neg ht1, if_neg ht2]
      exact agree_assign A _ _ ptr req
        (agree_set_next A _ _ prev (ptr + req) h0 (hpv ht) hsep hlt)

theorem disj_of_mem (l : List (Nat × Nat)) (h1 : ∀ x, cnt l x ≤ 1) (b c : Nat × Nat)
    (hb : b ∈ l) (hc : c ∈ l) (hne : b ≠ c) (hbp : 0 < b.2) (hcp : 0 < c.2) :
    b.1 + b.2 ≤ c.1 ∨ c.1 + c.2 ≤ b.1 := by
  by_contra hcon
  have h2 := cnt_two_of_mem l b c hb hc hne (max b.1 c.1)
    ⟨le_max_left _ _, by rcases le_total b.1 c.1 with h | h <;> simp [h] <;> omega⟩
    ⟨le_max_right _ _, by rcases le_total b.1 c.1 with h | h <;> simp [h] <;> omega⟩
  have := h1 (max b.1 c.1)
  omega

theorem mem_of_mem_starts (l : List (Nat × Nat)) (x : Nat) (h : x ∈ starts l) :
    ∃ z, (x, z) ∈ l := by
  obtain ⟨c, hc, rfl⟩ := List.mem_map.1 h
  exact ⟨c.2, hc⟩

theorem separated_of_cnt (l : List (Nat × Nat)) (h1 : ∀ x, cnt l x ≤ 1)
    (h16 : ∀ c ∈ l, 16 ≤ c.2) : Separated (starts l) := by
  intro a ha b hb hab
  obtain ⟨za, hza⟩ := mem_of_mem_starts l a ha
  obtain ⟨zb, hzb⟩ := mem_of_mem_starts l b hb
  have k1 := h16 _ hza
  have k2 := h16 _ hzb
  have := disj_of_mem l h1 (a, za) (b, zb) hza hzb
    (fun e => hab (congrArg Prod.fst e)) (by simp only; omega) (by simp only; omega)
  simp only at this k1 k2
  omega

theorem separated_cons_block (l : List (Nat × Nat)) (b n : Nat) (hs : Separated (starts l))
    (h16 : ∀ c ∈ l, 16 ≤ c.2) (hn : 16 ≤ n) (hd : ∀ c ∈ l, Disj (b, n) c) :
    Separated (b :: starts l) := by
  have key : ∀ x ∈ starts l, b + 16 ≤ x ∨ x + 16 ≤ b := by
    intro x hx
    obtain ⟨z, hz⟩ := mem_of_mem_starts l x hx
    have k := h16 _ hz
    have d := hd _ hz
    unfold Disj at d
    simp only at d k
    omega
  intro x hx y hy hxy
  simp only [List.mem_cons] at hx hy
  rcases hx with rfl | hx
  · rcases hy with rfl | hy
    · exact absurd rfl hxy
    · exact key y hy
  · rcases hy with rfl | hy
    · have := key x hx; omega
    · exact hs x hx y hy hxy

theorem malloc_search_facts (st : CustomMemManager) (req : Nat) (hreq : 0 < req)
    (l : List (Nat × Nat)) (fuel prev p z : Nat)
    (hl : IsList st st.top l) (ht : st.top ≠ 0) (hnd : (starts l).Nodup)
    (hin : ∀ blk ∈ l, ∀ x ∈ starts l, ¬ (blk.1 < x ∧ x < blk.1 + blk.2))
    (hp : p ≠ 0)
    (h : malloc_search st req fuel 0 st.top (st.mem_size st.top) = some (prev, p, z)) :
    (p, z) ∈ l ∧ req ≤ z ∧
      ((prev = 0 ∧ p = st.top) ∨ (prev ∈ starts l ∧ prev ≠ 0 ∧ st.top ≠ p)) := by
  cases l with
  | nil => exact absurd hl ht
  | cons c r =>
    obtain ⟨e1, e2, e3, e4⟩ := hl
    have hnd' := hnd
    simp only [starts, List.map_cons, List.nodup_cons] at hnd'
    obtain ⟨hcr, hndr⟩ := hnd'
    cases fuel with
    | zero => simp [malloc_search] at h
    | succ f =>
      simp only [malloc_search, ne_eq, ht, not_false_eq_true, true_and] at h
      rw [e1, e3] at h
      by_cases hlt : c.2 < req
      · simp only [hlt, if_true] at h
        have key := malloc_search_after st req hreq r c.1 c.2 f prev p z e2 e3 e4 hnd
          (fun blk hblk x hx => hin blk (List.mem_cons_of_mem _ hblk) x hx)
          (by rw [e1]; exact hcr) hp (by simpa using h)
        obtain ⟨k1, k2, k3, -⟩ := key
        have hprev0 : prev ≠ 0 := by
          intro e
          rw [e] at k1
          have hz : (0 : Nat) ∉ starts (c :: r) :=
            IsList_zero_not_mem st (c :: r) c.1 ⟨rfl, e2, e3, e4⟩
          exact hz k1
        have htp : st.top ≠ p := by
          intro e
          apply hcr
          rw [← e1, e]
          simp only [List.mem_map]
          exact ⟨(p, z), k2, rfl⟩
        exact ⟨List.mem_cons_of_mem _ k2, k3, Or.inr ⟨k1, hprev0, htp⟩⟩
      · simp only [hlt, if_false, Option.some.injEq, Prod.mk.injEq] at h
        obtain ⟨h1, h2, h3⟩ := h
        subst h1 h2 h3
        exact ⟨List.mem_cons_self _ _, by omega, Or.inl ⟨rfl, e1.symm⟩⟩

theorem size_of_mem (st : CustomMemManager) (l : List (Nat × Nat)) (p x z : Nat)
    (hl : IsList st p l) (hnd : (starts l).Nodup) (h : (x, z) ∈ l) : st.mem_size x = z := by
  induction l generalizing p with
  | nil => simp at h
  | cons c r ih =>
    obtain ⟨e1, e2, e3, e4⟩ := hl
    simp only [starts, List.map_cons, List.nodup_cons] at hnd
    simp only [List.mem_cons] at h
    rcases h with h | h
    · subst h; exact e3
    · exact ih _ e4 hnd.2 h

theorem malloc_agree (A : List Nat) (fuel : Nat) (bs bs1 : Bytes.CustomMemManager)
    (N k p : Nat) (l : List (Nat × Nat)) (hl : IsList (header_maps bs) bs.top l)
    (hlA : ∀ x ∈ starts l, x ∈ A) (hsep : Separated A) (hnd : (starts l).Nodup)
    (hin : ∀ blk ∈ l, ∀ x ∈ starts l, ¬ (blk.1 < x ∧ x < blk.1 + blk.2))
    (hbound : ∀ c ∈ l, c.1 + c.2 < size_t_range)
    (hnew : req_size_of bs.align_size N k ≠ Bytes.get_size bs p →
      p + req_size_of bs.align_size N k ∈ A)
    (h : Bytes.malloc fuel bs N k = Bytes.Res.ok p bs1) :
    ∃ s1, malloc fuel (header_maps bs) N k = Res.ok p s1 ∧
      AgreeOn A (header_maps bs1) s1 := by
  have hreq := req_size_of_ge bs.align_size N k
  simp only [sizeof_ptr, sizeof_size_t] at hreq
  unfold Bytes.malloc at h
  unfold malloc
  simp only [] at h ⊢
  have ea : (header_maps bs).align_size = bs.align_size := rfl
  rw [ea, header_maps_top, header_maps_size]
  generalize req_size_of bs.align_size N k = req at *
  by_cases ht : bs.top = 0
  · rw [if_pos ht] at h; cases h
  · rw [if_neg ht] at h
    rw [if_neg ht]
    rw [bytes_malloc_search] at h
    cases hq : malloc_search (header_maps bs) req fuel 0 bs.top (Bytes.get_size bs bs.top) with
    | none => rw [hq] at h; cases h
    | some q =>
      obtain ⟨prev, ptr, z⟩ := q
      rw [hq] at h
      simp only [] at h ⊢
      by_cases hp0 : ptr = 0
      · rw [if_pos hp0] at h; cases h
      · rw [if_neg hp0] at h
        rw [if_neg hp0]
        simp only [Bytes.Res.ok.injEq] at h
        obtain ⟨h1, h2⟩ := h
        subst h1 h2
        refine ⟨_, rfl, ?_⟩
        obtain ⟨k1, k2, k3⟩ := malloc_search_facts (header_maps bs) req (by omega) l fuel
          prev ptr z hl ht hnd hin hp0 hq
        have hz : Bytes.get_size bs ptr = z := size_of_mem (header_maps bs) l bs.top ptr z hl hnd k1
        have hb := hbound _ k1
        simp only at hb
        apply malloc_take_agree A bs req prev ptr z hsep
        · intro _ hp
          rcases k3 with ⟨e, -⟩ | ⟨e, -, -⟩
          · exact absurd e hp
          · exact hlA _ e
        · intro hne
          refine ⟨hnew (by rw [hz]; exact hne), hreq, by omega, by omega, ?_⟩
          intro htp
          rcases k3 with ⟨-, e⟩ | ⟨e, -, -⟩
          · exact absurd e.symm htp
          · exact hlA _ e

theorem exists_of_cnt_pos (l : List (Nat × Nat)) (x : Nat) (h : 0 < cnt l x) :
    ∃ c ∈ l, c.1 ≤ x ∧ x < c.1 + c.2 := by
  by_contra hcon
  have := cnt_zero_of_forall l x (fun c hc hx => hcon ⟨c, hc, hx⟩)
  omega

theorem bound_of_cnt (L D : List (Nat × Nat)) (hsub : ∀ x, cnt L x ≤ cnt D x)
    (hD : ∀ d ∈ D, d.1 + d.2 < size_t_range) (hpos : ∀ c ∈ L, 0 < c.2) :
    ∀ c ∈ L, c.1 + c.2 < size_t_range := by
  intro c hc
  have hp := hpos c hc
  have h1 := cnt_pos_of_mem L c hc (c.1 + c.2 - 1) (by omega) (by omega)
  have h2 := hsub (c.1 + c.2 - 1)
  obtain ⟨d, hd, k1, k2⟩ := exists_of_cnt_pos D (c.1 + c.2 - 1) (by omega)
  have := hD d hd
  omega

theorem Inv_transfer (A : List Nat) (D : List (Nat × Nat)) (t s1 : CustomMemManager)
    (l : List (Nat × Nat)) (hag : AgreeOn A t s1) (hA : ∀ x ∈ starts l, x ∈ A)
    (h : Inv D s1 l) : Inv D t l := by
  obtain ⟨h1, h2, h3, h4, h5, h6, h7⟩ := h
  obtain ⟨a1, a2, a3, a4⟩ := hag
  refine ⟨?_, h2, ?_, ?_, h5, h6, ?_⟩
  · rw [a1]
    exact IsList_of_agree A t s1 l s1.top ⟨a1, a2, a3, a4⟩ hA h1
  · rw [a3]; exact h3
  · rw [a3]; exact h4
  · rw [a3]; exact h7

theorem top_lt (s : CustomMemManager) (l : List (Nat × Nat)) (hl : IsList s s.top l)
    (hbound : ∀ c ∈ l, c.1 + c.2 < size_t_range) : s.top < size_t_range := by
  by_cases h0 : s.top = 0
  · rw [h0]; unfold size_t_range; omega
  · have := hbound _ (IsList_mem_size s l s.top s.top hl (IsList_head_mem s l s.top hl h0))
    simp only at this
    omega

theorem bytes_add_block_sim (A : List Nat) (fuel : Nat) (bs bs1 : Bytes.CustomMemManager)
    (b n : Nat) (l : List (Nat × Nat)) (hl : IsList (header_maps bs) bs.top l)
    (hlA : ∀ x ∈ starts l, x ∈ A) (hb : b ∈ A) (hsep : Separated A)
    (hb0 : b ≠ 0) (hn0 : n ≠ 0) (hbl : b ∉ starts l) (hnd : (starts l).Nodup)
    (hbn : b + n < size_t_range) (hbound : ∀ c ∈ l, c.1 + c.2 < size_t_range)
    (h : Bytes.add_block fuel bs b n = Bytes.Res.ok () bs1) :
    IsList (header_maps bs1) bs1.top (ins b n l) ∧
    bs1.alloc_blocks = bs.alloc_blocks ∧ bs1.align_size = bs.align_size ∧
    (∀ x ∈ A, x ≠ b → x ∉ starts l →
      (header_maps bs1).mem_next x = (header_maps bs).mem_next x ∧
      (header_maps bs1).mem_size x = (header_maps bs).mem_size x) ∧
    sizeof_ptr + sizeof_size_t ≤ n := by
  obtain ⟨s1, e, hag⟩ := add_block_agree A fuel bs bs1 b n l hl hlA hb hsep hbl hn0 hbn hbound h
  obtain ⟨k1, k2, k3, k4⟩ := add_block_sim fuel (header_maps bs) s1 b n l hl hb0 (by omega)
    hbl hnd e
  have hsub : ∀ x ∈ starts (ins b n l), x ∈ A := by
    intro x hx
    obtain ⟨c, hc, rfl⟩ := List.mem_map.1 hx
    rcases mem_ins_start b n l c hc with e1 | e1
    · rw [e1]; exact hb
    · exact hlA _ e1
  refine ⟨?_, ?_, ?_, ?_, (add_block_ok_guard fuel _ s1 b n (by omega) e).1⟩
  · have := IsList_of_agree A (header_maps bs1) s1 (ins b n l) s1.top hag hsub k1
    rw [← hag.1] at this
    exact this
  · exact hag.2.2.1.trans k2
  · exact hag.2.1.trans k3
  · intro x hx hxb hxl
    have a := hag.2.2.2 x hx
    have c := k4 x hxb hxl
    exact ⟨a.1.trans c.1, a.2.trans c.2⟩

theorem bytes_malloc_inv (fuel : Nat) (bs bs1 : Bytes.CustomMemManager) (N k p : Nat)
    (h : Bytes.malloc fuel bs N k = Bytes.Res.ok p bs1) :
    bs.top ≠ 0 ∧ p ≠ 0 ∧ ∃ prev z,
      malloc_search (header_maps bs) (req_size_of bs.align_size N k) fuel 0 bs.top
        (Bytes.get_size bs bs.top) = some (prev, p, z) ∧
      bs1 = Bytes.malloc_take bs (req_size_of bs.align_size N k) prev p z ∧
      malloc fuel (header_maps bs) N k =
        Res.ok p (malloc_take (header_maps bs) (req_size_of bs.align_size N k) prev p z) := by
  unfold Bytes.malloc at h
  unfold malloc
  simp only [] at h ⊢
  have ea : (header_maps bs).align_size = bs.align_size := rfl
  rw [ea, header_maps_top, header_maps_size]
  generalize req_size_of bs.align_size N k = req at *
  by_cases ht : bs.top = 0
  · rw [if_pos ht] at h; cases h
  · rw [if_neg ht] at h
    rw [if_neg ht]
    rw [bytes_malloc_search] at h
    cases hq : malloc_search (header_maps bs) req fuel 0 bs.top (Bytes.get_size bs bs.top) with
    | none => rw [hq] at h; cases h
    | some q =>
      obtain ⟨prev, ptr, z⟩ := q
      rw [hq] at h
      simp only [] at h ⊢
      by_cases hp0 : ptr = 0
      · rw [if_pos hp0] at h; cases h
      · rw [if_neg hp0] at h
        rw [if_neg hp0]
        simp only [Bytes.Res.ok.injEq] at h
        obtain ⟨h1, h2⟩ := h
        subst h1 h2
        exact ⟨ht, hp0, prev, z, rfl, rfl, rfl⟩

theorem take_fit_result (req : Nat) (l l' : List (Nat × Nat)) (p : Nat)
    (h : take_fit req l = some (p, l')) (hnd : (starts l).Nodup) :
    ∃ pre z post, l = pre ++ (p, z) :: post ∧ req ≤ z ∧
      l' = pre ++ (if z = req then post else (p + req, z - req) :: post) := by
  obtain ⟨pre, z, post, e1, e2, e3⟩ := take_fit_first req l l' p h
  subst e1
  rw [take_fit_of_shape req pre p z post e2 e3] at h
  simp only [Option.some.injEq, Prod.mk.injEq, true_and] at h
  exact ⟨pre, z, post, rfl, e3, h.symm⟩

theorem bytes_defrag_loop_sim (afuel : Nat) (rem : List (Nat × Nat)) :
    ∀ (fuel : Nat) (bs bs1 : Bytes.CustomMemManager) (ptr : Nat) (acc : List (Nat × Nat)),
    IsList (header_maps bs) ptr rem → IsList (header_maps bs) bs.top acc →
    (∀ c ∈ rem, 16 ≤ c.2) → (∀ c ∈ acc, 16 ≤ c.2) →
    (∀ x, cnt acc x + cnt rem x ≤ 1) →
    (∀ x, 0 < cnt acc x + cnt rem x → x + 1 < size_t_range) →
    Bytes.defrag_loop afuel fuel bs ptr = Bytes.Res.ok () bs1 →
    IsList (header_maps bs1) bs1.top (reinsert acc rem) ∧
    bs1.alloc_blocks = bs.alloc_blocks ∧ bs1.align_size = bs.align_size := by
  induction rem with
  | nil =>
    intro fuel bs bs1 ptr acc hrem hacc _ _ _ _ h
    have hp : ptr = 0 := hrem
    subst hp
    cases fuel with
    | zero => simp [Bytes.defrag_loop] at h
    | succ f =>
      simp only [Bytes.defrag_loop, ne_eq, not_true_eq_false, if_false, Bytes.Res.ok.injEq,
        true_and] at h
      subst h
      exact ⟨hacc, rfl, rfl⟩
  | cons b r ih =>
    intro fuel bs bs1 ptr acc hrem hacc hprem hpacc hcnt hB h
    obtain ⟨e1, e2, e3, e4⟩ := hrem
    have hb : 16 ≤ b.2 := hprem b (List.mem_cons_self _ _)
    have hpr : ∀ d ∈ r, 16 ≤ d.2 := fun d hd => hprem d (List.mem_cons_of_mem _ hd)
    have hpacc0 : ∀ c ∈ acc, 0 < c.2 := fun c hc => by have := hpacc c hc; omega
    cases fuel with
    | zero => simp [Bytes.defrag_loop] at h
    | succ f =>
      subst e1
      have e3' : Bytes.get_size bs b.1 = b.2 := e3
      simp only [Bytes.defrag_loop, ne_eq, e2, not_false_eq_true, if_true, e3'] at h
      cases hq : Bytes.add_block afuel bs b.1 b.2 with
      | diverge => simp [hq] at h
      | raise e s1 => simp [hq] at h
      | ok v s1 =>
        simp only [hq] at h
        have hacc1 : ∀ x, cnt acc x ≤ 1 := fun x => by have := hcnt x; omega
        have hb_acc : b.1 ∉ starts acc := by
          apply not_mem_starts_of_cnt_zero acc hpacc0
          have := hcnt b.1
          simp only [cnt] at this
          rw [if_pos ⟨le_refl _, by omega⟩] at this
          omega
        have hall16 : ∀ c ∈ acc ++ b :: r, 16 ≤ c.2 := by
          intro c hc
          rcases List.mem_append.1 hc with hc | hc
          · exact hpacc c hc
          · exact hprem c hc
        have hsep : Separated (starts (acc ++ b :: r)) :=
          separated_of_cnt _ (fun x => by rw [cnt_append]; exact hcnt x) hall16
        have hbA : b.1 ∈ starts (acc ++ b :: r) := by simp [starts]
        have haccA : ∀ x ∈ starts acc, x ∈ starts (acc ++ b :: r) := by
          intro x hx
          simp only [starts, List.map_append, List.mem_append]
          exact Or.inl hx
        have hbn : b.1 + b.2 < size_t_range := by
          have := hB (b.1 + b.2 - 1) (by
            simp only [cnt]
            rw [if_pos ⟨by omega, by omega⟩]
            omega)
          omega
        have hbound : ∀ c ∈ acc, c.1 + c.2 < size_t_range := by
          intro c hc
          have hc16 := hpacc c hc
          have h1 := cnt_pos_of_mem acc c hc (c.1 + c.2 - 1) (by omega) (by omega)
          have := hB (c.1 + c.2 - 1) (by omega)
          omega
        obtain ⟨s1a, s1b, s1c, s1d, -⟩ := bytes_add_block_sim (starts (acc ++ b :: r)) afuel
          bs s1 b.1 b.2 acc hacc haccA hbA hsep e2 (by omega) hb_acc
          (nodup_starts acc hpacc0 hacc1) hbn hbound (by
            cases v
            exact hq)
        have hcnt' : ∀ x, cnt (ins b.1 b.2 acc) x + cnt r x ≤ 1 := by
          intro x
          have := hcnt x
          rw [cnt_ins]
          simp only [cnt] at this ⊢
          omega
        have hB' : ∀ x, 0 < cnt (ins b.1 b.2 acc) x + cnt r x → x + 1 < size_t_range := by
          intro x hx
          apply hB x
          rw [cnt_ins] at hx
          simp only [cnt] at hx ⊢
          omega
        have hr1 : IsList (header_maps s1) ((header_maps bs).mem_next b.1) r := by
          apply IsList_congr (header_maps bs) (header_maps s1) r _ _ e4
          intro x hx
          have hxA : x ∈ starts (acc ++ b :: r) := by
            simp only [starts, List.map_append, List.map_cons, List.mem_append, List.mem_cons]
            exact Or.inr (Or.inr hx)
          simp only [starts, List.mem_map] at hx
          obtain ⟨d, hd, rfl⟩ := hx
          have hd2 := hpr d hd
          have hdc := cnt_pos_of_mem r d hd d.1 (le_refl _) (by omega)
          apply s1d _ hxA
          · intro e
            have := hcnt d.1
            simp only [cnt] at this
            rw [if_pos ⟨by omega, by omega⟩] at this
            omega
          · apply not_mem_starts_of_cnt_zero acc hpacc0
            have := hcnt d.1
            simp only [cnt] at this
            omega
        obtain ⟨k1, k2, k3⟩ := ih f s1 bs1 (Bytes.get_next bs b.1) (ins b.1 b.2 acc) hr1 s1a
          hpr (ge_ins 16 b.1 b.2 acc hb hpacc) hcnt' hB' h
        exact ⟨k1, k2.trans s1b, k3.trans s1c⟩

theorem bytes_defrag_sim (fuel : Nat) (bs bs1 : Bytes.CustomMemManager)
    (l : List (Nat × Nat)) (hl : IsList (header_maps bs) bs.top l)
    (h16 : ∀ c ∈ l, 16 ≤ c.2) (hcnt : ∀ x, cnt l x ≤ 1)
    (hB : ∀ x, 0 < cnt l x → x + 1 < size_t_range)
    (h : Bytes.defrag fuel bs = Bytes.Res.ok () bs1) :
    IsList (header_maps bs1) bs1.top (reinsert [] l) ∧
    bs1.alloc_blocks = bs.alloc_blocks ∧ bs1.align_size = bs.align_size := by
  unfold Bytes.defrag at h
  have := bytes_defrag_loop_sim fuel l fuel { bs with top := 0 } bs1 bs.top []
    (IsList_congr (header_maps bs) _ l _ (fun x _ => ⟨rfl, rfl⟩) hl) rfl h16 (by simp)
    (by intro x; simp only [cnt]; have := hcnt x; omega)
    (by intro x hx; simp only [cnt] at hx; exact hB x (by omega)) h
  exact this

theorem bytes_add_block_zero (fuel : Nat) (bs : Bytes.CustomMemManager) (b : Nat) :
    Bytes.add_block fuel bs b 0 = Bytes.Res.ok () bs := by
  simp [Bytes.add_block]

theorem bytes_add_block_fast_zero (bs : Bytes.CustomMemManager) (b : Nat) :
    Bytes.add_block_fast bs b 0 = Bytes.Res.ok () bs := by
  simp [Bytes.add_block_fast]

theorem bytes_add_block_guard (fuel : Nat) (bs bs1 : Bytes.CustomMemManager) (b n : Nat)
    (hn : n ≠ 0) (h : Bytes.add_block fuel bs b n = Bytes.Res.ok () bs1) : 16 ≤ n := by
  unfold Bytes.add_block at h
  rw [if_neg hn] at h
  by_cases h1 : n < sizeof_ptr + sizeof_size_t
  · rw [if_pos h1] at h; cases h
  · simp only [sizeof_ptr, sizeof_size_t] at h1; omega

theorem bytes_add_block_fast_guard (bs bs1 : Bytes.CustomMemManager) (b n : Nat)
    (hn : n ≠ 0) (h : Bytes.add_block_fast bs b n = Bytes.Res.ok () bs1) : 16 ≤ n := by
  unfold Bytes.add_block_fast at h
  rw [if_neg hn] at h
  by_cases h1 : n < sizeof_ptr + sizeof_size_t
  · rw [if_pos h1] at h; cases h
  · simp only [sizeof_ptr, sizeof_size_t] at h1; omega

theorem Fit_facts (D l : List (Nat × Nat)) (bs : Bytes.CustomMemManager) (h : Fit D bs l) :
    (∀ x, cnt l x ≤ 1) ∧ (∀ c ∈ l, 0 < c.2) ∧ Separated (starts l) ∧
    (∀ c ∈ l, c.1 + c.2 < size_t_range) ∧
    (∀ c ∈ bs.alloc_blocks, c.1 + c.2 < size_t_range) ∧ (starts l).Nodup := by
  obtain ⟨⟨h1, h2, h3, h4, h5, h6, h7⟩, g16, gD⟩ := h
  have hl1 : ∀ x, cnt l x ≤ 1 := fun x => by have := h4 x; have := h5 x; omega
  refine ⟨hl1, h2, separated_of_cnt l hl1 g16, ?_, ?_, nodup_starts l h2 hl1⟩
  · exact bound_of_cnt l D (fun x => by have := h4 x; omega) gD h2
  · exact bound_of_cnt _ D (fun x => by
      have := h4 x
      show cnt (header_maps bs).alloc_blocks x ≤ cnt D x
      omega) gD h3

theorem bytes_inv_add_block (fuel : Nat) (bs bs1 : Bytes.CustomMemManager) (b n : Nat)
    (D l : List (Nat × Nat)) (hfit : Fit D bs l)
    (hdon : ∀ x, cnt D x + cnt [(b, n)] x ≤ 1) (hnull : cnt [(b, n)] 0 = 0)
    (hbR : b + n < size_t_range)
    (h : Bytes.add_block fuel bs b n = Bytes.Res.ok () bs1) :
    Fit (D ++ [(b, n)]) bs1 (if n = 0 then l else ins b n l) ∧
    bs1.align_size = bs.align_size ∧
    (Gap l → Gap (if n = 0 then l else ins b n l)) := by
  obtain ⟨f1, f2, f3, f4, f5, f6⟩ := Fit_facts D l bs hfit
  obtain ⟨hinv, g16, gD⟩ := hfit
  have gD' : ∀ d ∈ D ++ [(b, n)], d.1 + d.2 < size_t_range := by
    intro d hd
    rcases List.mem_append.1 hd with hd | hd
    · exact gD d hd
    · simp only [List.mem_singleton] at hd
      subst hd
      exact hbR
  by_cases hn0 : n = 0
  · subst hn0
    rw [bytes_add_block_zero] at h
    cases h
    rw [if_pos rfl]
    exact ⟨⟨Inv_empty_donation D l _ b hinv, g16, gD'⟩, rfl, fun hg => hg⟩
  · have h16 := bytes_add_block_guard fuel bs bs1 b n hn0 h
    have hdisj : ∀ c ∈ l, Disj (b, n) c := by
      apply disj_of_cnt
      intro x
      have := hdon x; have := hinv.2.2.2.1 x; omega
    have hsep : Separated (b :: starts l) := separated_cons_block l b n f3 g16 h16 hdisj
    have hlb : cnt l b = 0 := by
      have := hdon b; have := hinv.2.2.2.1 b
      rw [cnt_single_self b n (by omega)] at *; omega
    have hbl : b ∉ starts l := not_mem_starts_of_cnt_zero l f2 b hlb
    obtain ⟨s1, e, hag⟩ := add_block_agree (b :: starts l) fuel bs bs1 b n l hinv.1
      (fun x hx => List.mem_cons_of_mem _ hx) (List.mem_cons_self _ _) hsep hbl hn0 hbR f4 h
    obtain ⟨k1, k2, k3, k4⟩ := inv_add_block fuel (header_maps bs) s1 b n D l hinv hdon hnull e
    rw [if_neg hn0] at k1 k4 ⊢
    refine ⟨⟨Inv_transfer (b :: starts l) _ (header_maps bs1) s1 _ hag ?_ k1,
      ge_ins 16 b n l h16 g16, gD'⟩, hag.2.1.trans k2, k4⟩
    intro x hx
    obtain ⟨c, hc, rfl⟩ := List.mem_map.1 hx
    rcases mem_ins_start b n l c hc with e1 | e1
    · rw [e1]; exact List.mem_cons_self _ _
    · exact List.mem_cons_of_mem _ e1

theorem bytes_inv_add_block_fast (bs bs1 : Bytes.CustomMemManager) (b n : Nat)
    (D l : List (Nat × Nat)) (hfit : Fit D bs l)
    (hdon : ∀ x, cnt D x + cnt [(b, n)] x ≤ 1) (hnull : cnt [(b, n)] 0 = 0)
    (hbR : b + n < size_t_range)
    (h : Bytes.add_block_fast bs b n = Bytes.Res.ok () bs1) :
    Fit (D ++ [(b, n)]) bs1 (if n = 0 then l else (b, n) :: l) ∧
    bs1.align_size = bs.align_size := by
  obtain ⟨f1, f2, f3, f4, f5, f6⟩ := Fit_facts D l bs hfit
  obtain ⟨hinv, g16, gD⟩ := hfit
  have gD' : ∀ d ∈ D ++ [(b, n)], d.1 + d.2 < size_t_range := by
    intro d hd
    rcases List.mem_append.1 hd with hd | hd
    · exact gD d hd
    · simp only [List.mem_singleton] at hd
      subst hd
      exact hbR
  by_cases hn0 : n = 0
  · subst hn0
    rw [bytes_add_block_fast_zero] at h
    cases h
    rw [if_pos rfl]
    exact ⟨⟨Inv_empty_donation D l _ b hinv, g16, gD'⟩, rfl⟩
  · have h16 := bytes_add_block_fast_guard bs bs1 b n hn0 h
    have hdisj : ∀ c ∈ l, Disj (b, n) c := by
      apply disj_of_cnt
      intro x
      have := hdon x; have := hinv.2.2.2.1 x; omega
    have hsep : Separated (b :: starts l) := separated_cons_block l b n f3 g16 h16 hdisj
    obtain ⟨s1, e, hag⟩ := add_block_fast_agree (b :: starts l) bs bs1 b n
      (List.mem_cons_self _ _) hsep (top_lt (header_maps bs) l hinv.1 f4) (by omega) h
    obtain ⟨k1, k2, k3⟩ := inv_add_block_fast (header_maps bs) s1 b n D l hinv hdon hnull e
    rw [if_neg hn0] at k1 ⊢
    refine ⟨⟨Inv_transfer (b :: starts l) _ (header_maps bs1) s1 _ hag ?_ k1, ?_, gD'⟩,
      hag.2.1.trans k2⟩
    · intro x hx
      simpa [starts] using hx
    · intro c hc
      rcases List.mem_cons.1 hc with rfl | hc
      · exact h16
      · exact g16 c hc

theorem free_fast_of_add_block_fast (s s1 : CustomMemManager) (p n : Nat)
    (h1 : tbl_find s.alloc_blocks p = some n) (h2 : add_block_fast s p n = Res.ok () s1) :
    free_fast s p = Res.ok () { s1 with alloc_blocks := tbl_erase s1.alloc_blocks p } := by
  unfold free_fast
  rw [h1]
  simp only [h2]

theorem separated_split (l : List (Nat × Nat)) (p z req : Nat) (h1 : ∀ x, cnt l x ≤ 1)
    (h16 : ∀ c ∈ l, 16 ≤ c.2) (hp : (p, z) ∈ l) (hreq : 16 ≤ req) (hrem : req + 16 ≤ z) :
    Separated ((p + req) :: starts l) := by
  have hs := separated_of_cnt l h1 h16
  have key : ∀ x ∈ starts l, (p + req) + 16 ≤ x ∨ x + 16 ≤ p + req := by
    intro x hx
    by_cases hxp : x = p
    · subst hxp; omega
    · obtain ⟨zx, hzx⟩ := mem_of_mem_starts l x hx
      have k := h16 _ hzx
      have := disj_of_mem l h1 (x, zx) (p, z) hzx hp (fun e => hxp (congrArg Prod.fst e))
        (by simp only; omega) (by simp only; omega)
      simp only at this k
      omega
  intro x hx y hy hxy
  simp only [List.mem_cons] at hx hy
  rcases hx with rfl | hx
  · rcases hy with rfl | hy
    · exact absurd rfl hxy
    · exact key y hy
  · rcases hy with rfl | hy
    · have := key x hx; omega
    · exact hs x hx y hy hxy

theorem bytes_inv_malloc (fuel : Nat) (bs bs1 : Bytes.CustomMemManager) (N k p : Nat)
    (D l : List (Nat × Nat)) (hfit : Fit D bs l)
    (hrem : Bytes.remainder_fits fuel bs (Call.malloc N k) = true)
    (h : Bytes.malloc fuel bs N k = Bytes.Res.ok p bs1) :
    ∃ l', take_fit (req_size_of bs.align_size N k) l = some (p, l') ∧ Fit D bs1 l' ∧
      bs1.align_size = bs.align_size ∧ (Gap l → Gap l') := by
  obtain ⟨f1, f2, f3, f4, f5, f6⟩ := Fit_facts D l bs hfit
  obtain ⟨hinv, g16, gD⟩ := hfit
  obtain ⟨ht, hp0, prev, z, hq, e1, e2⟩ := bytes_malloc_inv fuel bs bs1 N k p h
  obtain ⟨l', k1, k2, k3, -, k5⟩ := inv_malloc fuel (header_maps bs) _ N k p D l hinv e2
  have ea : (header_maps bs).align_size = bs.align_size := rfl
  rw [ea] at k1
  have hreq := req_size_of_ge bs.align_size N k
  simp only [sizeof_ptr, sizeof_size_t] at hreq
  simp only [Bytes.remainder_fits] at hrem
  rw [bytes_malloc_search, hq] at hrem
  simp only [sizeof_ptr, sizeof_size_t, decide_eq_true_eq] at hrem
  generalize req_size_of bs.align_size N k = req at *
  obtain ⟨m1, m2, m3⟩ := malloc_search_facts (header_maps bs) req (by omega) l fuel prev p z
    hinv.1 ht f6 (no_start_inside l f2 f1) hp0 hq
  have hz : Bytes.get_size bs p = z := size_of_mem (header_maps bs) l bs.top p z hinv.1 f6 m1
  have hb := f4 _ m1
  simp only at hb
  obtain ⟨pre, z', post, r1, r2, r3⟩ := take_fit_result req l l' p k1 f6
  have hz' : z' = z := by
    have hm : (p, z') ∈ l := by rw [r1]; simp
    have := size_of_mem (header_maps bs) l bs.top p z' hinv.1 f6 hm
    rw [← this]
    exact hz
  subst hz'
  subst e1
  by_cases hez : req = z'
  · have hag := malloc_take_agree (starts l) bs req prev p z' f3
      (fun _ hp => by
        rcases m3 with ⟨e, -⟩ | ⟨e, -, -⟩
        · exact absurd e hp
        · exact e)
      (fun hne => absurd hez hne)
    rw [if_pos hez.symm] at r3
    refine ⟨l', k1, ⟨Inv_transfer (starts l) D _ _ l' hag ?_ k2, ?_, gD⟩, hag.2.1.trans k3,
      k5⟩
    · intro x hx
      rw [r3] at hx
      rw [r1]
      simp only [starts, List.map_append, List.map_cons, List.mem_append, List.mem_cons] at hx ⊢
      rcases hx with hx | hx
      · exact Or.inl hx
      · exact Or.inr (Or.inr hx)
    · intro c hc
      rw [r3] at hc
      apply g16 c
      rw [r1]
      simp only [List.mem_append, List.mem_cons] at hc ⊢
      rcases hc with hc | hc
      · exact Or.inl hc
      · exact Or.inr (Or.inr hc)
  · have hrem16 : req + 16 ≤ z' := by
      rcases hrem with hrem | hrem | hrem
      · exact absurd hrem hp0
      · exact absurd hrem hez
      · exact hrem
    have hsep := separated_split l p z' req f1 g16 m1 hreq hrem16
    have hag := malloc_take_agree ((p + req) :: starts l) bs req prev p z' hsep
      (fun he => absurd he hez)
      (fun _ => ⟨List.mem_cons_self _ _, hreq, by omega, by omega, fun htp => by
        rcases m3 with ⟨-, e⟩ | ⟨e, -, -⟩
        · exact absurd e.symm htp
        · exact List.mem_cons_of_mem _ e⟩)
    rw [if_neg (fun e => hez e.symm)] at r3
    refine ⟨l', k1, ⟨Inv_transfer ((p + req) :: starts l) D _ _ l' hag ?_ k2, ?_, gD⟩,
      hag.2.1.trans k3, k5⟩
    · intro x hx
      obtain ⟨c, hc, rfl⟩ := List.mem_map.1 hx
      rcases take_fit_start req l l' p k1 c hc with e | e
      · rw [e]; exact List.mem_cons_self _ _
      · exact List.mem_cons_of_mem _ e
    · intro c hc
      rw [r3] at hc
      simp only [List.mem_append, List.mem_cons] at hc
      rcases hc with hc | hc | hc
      · exact g16 c (by rw [r1]; exact List.mem_append_left _ hc)
      · subst hc
        simp only
        omega
      · exact g16 c (by
          rw [r1]
          exact List.mem_append_right _ (List.mem_cons_of_mem _ hc))

theorem bytes_inv_free (fuel : Nat) (bs bs1 : Bytes.CustomMemManager) (p : Nat)
    (D l : List (Nat × Nat)) (hfit : Fit D bs l)
    (h : Bytes.free fuel bs p = Bytes.Res.ok () bs1) :
    ∃ n, Fit D bs1 (ins p n l) ∧ bs1.align_size = bs.align_size ∧
      (Gap l → Gap (ins p n l)) := by
  obtain ⟨f1, f2, f3, f4, f5, f6⟩ := Fit_facts D l bs hfit
  obtain ⟨hinv, g16, gD⟩ := hfit
  unfold Bytes.free at h
  cases hf : tbl_find bs.alloc_blocks p with
  | none => simp [hf] at h
  | some n =>
    simp only [hf] at h
    cases hq : Bytes.add_block fuel bs p n with
    | diverge => simp [hq] at h
    | raise e s1 => simp [hq] at h
    | ok v s1 =>
      simp only [hq, Bytes.Res.ok.injEq, true_and] at h
      subst h
      have hf' : tbl_find (header_maps bs).alloc_blocks p = some n := hf
      obtain ⟨c1, c2, c3, c4, c5, c6, c7⟩ := inv_free_common (header_maps bs) p n D l hinv hf'
      have hq' : Bytes.add_block fuel bs p n = Bytes.Res.ok () s1 := by cases v; exact hq
      have h16 := bytes_add_block_guard fuel bs s1 p n (by omega) hq'
      have hbR : p + n < size_t_range := f5 (p, n) (tbl_find_mem _ p n hf)
      have hdisj : ∀ c ∈ l, Disj (p, n) c := by
        apply disj_of_cnt
        intro x
        have := c6 x; have := hinv.2.2.2.2.1 x; omega
      have hsep : Separated (p :: starts l) := separated_cons_block l p n f3 g16 h16 hdisj
      obtain ⟨t1, e, hag⟩ := add_block_agree (p :: starts l) fuel bs s1 p n l hinv.1
        (fun x hx => List.mem_cons_of_mem _ hx) (List.mem_cons_self _ _) hsep c3 (by omega)
        hbR f4 hq'
      have hfree := free_of_add_block fuel (header_maps bs) t1 p n hf' e
      obtain ⟨n', j1, j2, j3, j4, j5⟩ := inv_free fuel (header_maps bs) _ p D l hinv hfree
      have hn' : n' = n := by rw [hf'] at j1; exact (Option.some.inj j1).symm
      subst hn'
      have hag2 := agree_erase (p :: starts l) s1 t1 p hag
      refine ⟨n', ⟨Inv_transfer (p :: starts l) D _ _ _ hag2 ?_ j2, ge_ins 16 p n' l h16 g16,
        gD⟩, hag2.2.1.trans j3, j5⟩
      intro x hx
      obtain ⟨c, hc, rfl⟩ := List.mem_map.1 hx
      rcases mem_ins_start p n' l c hc with e1 | e1
      · rw [e1]; exact List.mem_cons_self _ _
      · exact List.mem_cons_of_mem _ e1

theorem bytes_inv_free_fast (bs bs1 : Bytes.CustomMemManager) (p : Nat)
    (D l : List (Nat × Nat)) (hfit : Fit D bs l)
    (h : Bytes.free_fast bs p = Bytes.Res.ok () bs1) :
    ∃ n, Fit D bs1 ((p, n) :: l) ∧ bs1.align_size = bs.align_size := by
  obtain ⟨f1, f2, f3, f4, f5, f6⟩ := Fit_facts D l bs hfit
  obtain ⟨hinv, g16, gD⟩ := hfit
  unfold Bytes.free_fast at h
  cases hf : tbl_find bs.alloc_blocks p with
  | none => simp [hf] at h
  | some n =>
    simp only [hf] at h
    cases hq : Bytes.add_block_fast bs p n with
    | diverge => simp [hq] at h
    | raise e s1 => simp [hq] at h
    | ok v s1 =>
      simp only [hq, Bytes.Res.ok.injEq, true_and] at h
      subst h
      have hf' : tbl_find (header_maps bs).alloc_blocks p = some n := hf
      obtain ⟨c1, c2, c3, c4, c5, c6, c7⟩ := inv_free_common (header_maps bs) p n D l hinv hf'
      have hq' : Bytes.add_block_fast bs p n = Bytes.Res.ok () s1 := by cases v; exact hq
      have h16 := bytes_add_block_fast_guard bs s1 p n (by omega) hq'
      have hbR : p + n < size_t_range := f5 (p, n) (tbl_find_mem _ p n hf)
      have hdisj : ∀ c ∈ l, Disj (p, n) c := by
        apply disj_of_cnt
        intro x
        have := c6 x; have := hinv.2.2.2.2.1 x; omega
      have hsep : Separated (p :: starts l) := separated_cons_block l p n f3 g16 h16 hdisj
      obtain ⟨t1, e, hag⟩ := add_block_fast_agree (p :: starts l) bs s1 p n
        (List.mem_cons_self _ _) hsep (top_lt (header_maps bs) l hinv.1 f4) (by omega) hq'
      have hfree := free_fast_of_add_block_fast (header_maps bs) t1 p n hf' e
      obtain ⟨n', j1, j2, j3, j4⟩ := inv_free_fast (header_maps bs) _ p D l hinv hfree
      have hn' : n' = n := by rw [hf'] at j1; exact (Option.some.inj j1).symm
      subst hn'
      have hag2 := agree_erase (p :: starts l) s1 t1 p hag
      refine ⟨n', ⟨Inv_transfer (p :: starts l) D _ _ _ hag2 ?_ j2, ?_, gD⟩,
        hag2.2.1.trans j3⟩
      · intro x hx
        simpa [starts] using hx
      · intro c hc
        rcases List.mem_cons.1 hc with rfl | hc
        · exact h16
        · exact g16 c hc

theorem bytes_inv_defrag (fuel : Nat) (bs bs1 : Bytes.CustomMemManager)
    (D l : List (Nat × Nat)) (hfit : Fit D bs l)
    (h : Bytes.defrag fuel bs = Bytes.Res.ok () bs1) :
    Fit D bs1 (reinsert [] l) ∧ bs1.align_size = bs.align_size ∧ Gap (reinsert [] l) := by
  obtain ⟨f1, f2, f3, f4, f5, f6⟩ := Fit_facts D l bs hfit
  obtain ⟨hinv, g16, gD⟩ := hfit
  obtain ⟨h1, h2, h3, h4, h5, h6, h7⟩ := hinv
  have hB : ∀ x, 0 < cnt l x → x + 1 < size_t_range := by
    intro x hx
    obtain ⟨d, hd, k1, k2⟩ := exists_of_cnt_pos D x (by have := h4 x; omega)
    have := gD d hd
    omega
  obtain ⟨k1, k2, k3⟩ := bytes_defrag_sim fuel bs bs1 l h1 g16 f1 hB h
  have k2' : (header_maps bs1).alloc_blocks = (header_maps bs).alloc_blocks := k2
  refine ⟨⟨⟨k1, pos_reinsert [] l (by simp) h2, by rw [k2']; exact h3, ?_, h5, h6, ?_⟩,
    ge_reinsert 16 l [] (by simp) g16, gD⟩, k3, ?_⟩
  · intro x
    rw [cnt_reinsert, k2']
    simp only [cnt]
    have := h4 x
    omega
  · rw [total_reinsert, k2']
    simp only [total, List.map_nil, List.sum_nil] at h7 ⊢
    omega
  · apply gap_reinsert [] l (by simp [Gap]) (by simp) h2
    intro x
    simp only [cnt]
    have := f1 x
    omega

theorem bytes_inv_exec (fuel : Nat) (bs bs1 : Bytes.CustomMemManager) (c : Call) (v : Nat)
    (D l : List (Nat × Nat)) (hfit : Fit D bs l)
    (hdon : ∀ x, cnt D x + cnt (donated [c]) x ≤ 1) (hnull : cnt (donated [c]) 0 = 0)
    (hbR : ∀ d ∈ donated [c], d.1 + d.2 < size_t_range)
    (hrem : Bytes.remainder_fits fuel bs c = true)
    (h : Bytes.exec fuel bs c = Bytes.Res.ok v bs1) :
    ∃ l', Fit (D ++ donated [c]) bs1 l' ∧ bs1.align_size = bs.align_size ∧
      (∀ o : Bool, (o = true → Gap l) → ordered_path o [c] = true → Gap l') := by
  cases c with
  | add_block b n =>
    simp only [Bytes.exec] at h
    cases hq : Bytes.add_block fuel bs b n with
    | diverge => simp [hq] at h
    | raise e s1 => simp [hq] at h
    | ok u s1 =>
      simp only [hq, Bytes.Res.ok.injEq] at h
      obtain ⟨-, rfl⟩ := h
      obtain ⟨k1, k2, k4⟩ := bytes_inv_add_block fuel bs s1 b n D l hfit hdon hnull
        (hbR (b, n) (by simp [donated])) (by cases u; exact hq)
      exact ⟨_, k1, k2, fun o ho hp => k4 (ho (by simpa [ordered_path] using hp))⟩
  | add_block_fast b n =>
    simp only [Bytes.exec] at h
    cases hq : Bytes.add_block_fast bs b n with
    | diverge => simp [hq] at h
    | raise e s1 => simp [hq] at h
    | ok u s1 =>
      simp only [hq, Bytes.Res.ok.injEq] at h
      obtain ⟨-, rfl⟩ := h
      obtain ⟨k1, k2⟩ := bytes_inv_add_block_fast bs s1 b n D l hfit hdon hnull
        (hbR (b, n) (by simp [donated])) (by cases u; exact hq)
      exact ⟨_, k1, k2, fun o _ hp => by simp [ordered_path] at hp⟩
  | malloc N k =>
    simp only [Bytes.exec] at h
    obtain ⟨l', -, k1, k2, k4⟩ := bytes_inv_malloc fuel bs bs1 N k v D l hfit hrem h
    refine ⟨l', by simpa [donated] using k1, k2,
      fun o ho hp => k4 (ho (by simpa [ordered_path] using hp))⟩
  | free p =>
    simp only [Bytes.exec] at h
    cases hq : Bytes.free fuel bs p with
    | diverge => simp [hq] at h
    | raise e s1 => simp [hq] at h
    | ok u s1 =>
      simp only [hq, Bytes.Res.ok.injEq] at h
      obtain ⟨-, rfl⟩ := h
      obtain ⟨n, k1, k2, k4⟩ := bytes_inv_free fuel bs s1 p D l hfit (by cases u; exact hq)
      refine ⟨_, by simpa [donated] using k1, k2,
        fun o ho hp => k4 (ho (by simpa [ordered_path] using hp))⟩
  | free_fast p =>
    simp only [Bytes.exec] at h
    cases hq : Bytes.free_fast bs p with
    | diverge => simp [hq] at h
    | raise e s1 => simp [hq] at h
    | ok u s1 =>
      simp only [hq, Bytes.Res.ok.injEq] at h
      obtain ⟨-, rfl⟩ := h
      obtain ⟨n, k1, k2⟩ := bytes_inv_free_fast bs s1 p D l hfit (by cases u; exact hq)
      exact ⟨_, by simpa [donated] using k1, k2, fun o _ hp => by simp [ordered_path] at hp⟩
  | defrag =>
    simp only [Bytes.exec] at h
    cases hq : Bytes.defrag fuel bs with
    | diverge => simp [hq] at h
    | raise e s1 => simp [hq] at h
    | ok u s1 =>
      simp only [hq, Bytes.Res.ok.injEq] at h
      obtain ⟨-, rfl⟩ := h
      obtain ⟨k1, k2, k4⟩ := bytes_inv_defrag fuel bs s1 D l hfit (by cases u; exact hq)
      exact ⟨_, by simpa [donated] using k1, k2, fun _ _ _ => k4⟩

theorem bytes_run_cons_some (fuel : Nat) (bs bs' : Bytes.CustomMemManager) (c : Call)
    (cs : List Call) (ps : List Nat) (h : Bytes.run fuel bs (c :: cs) = some (bs', ps)) :
    ∃ v s1 ps1, Bytes.exec fuel bs c = Bytes.Res.ok v s1 ∧
      Bytes.run fuel s1 cs = some (bs', ps1) := by
  simp only [Bytes.run] at h
  cases hq : Bytes.exec fuel bs c with
  | diverge => simp [hq] at h
  | raise e s1 => simp [hq] at h
  | ok v s1 =>
    simp only [hq] at h
    cases hr : Bytes.run fuel s1 cs with
    | none => simp [hr] at h
    | some r =>
      obtain ⟨s2, ps1⟩ := r
      simp only [hr] at h
      refine ⟨v, s1, ps1, rfl, ?_⟩
      have : s2 = bs' := by
        cases c <;> simp at h <;> exact h.1
      rw [hr, this]

theorem bytes_inv_run (fuel : Nat) (cs : List Call) :
    ∀ (bs bs' : Bytes.CustomMemManager) (ps : List Nat) (D l : List (Nat × Nat)) (o : Bool),
    Fit D bs l → (o = true → Gap l) →
    (∀ x, cnt D x + cnt (donated cs) x ≤ 1) → cnt (donated cs) 0 = 0 →
    (∀ d ∈ donated cs, d.1 + d.2 < size_t_range) →
    Bytes.remainders_fit fuel bs cs = true →
    Bytes.run fuel bs cs = some (bs', ps) →
    ∃ l', Fit (D ++ donated cs) bs' l' ∧ bs'.align_size = bs.align_size ∧
      (ordered_path o cs = true → Gap l') := by
  induction cs with
  | nil =>
    intro bs bs' ps D l o hfit hg _ _ _ _ h
    simp only [Bytes.run, Option.some.injEq, Prod.mk.injEq] at h
    obtain ⟨rfl, -⟩ := h
    exact ⟨l, by simpa [donated] using hfit, rfl,
      fun ho => hg (by simpa [ordered_path] using ho)⟩
  | cons c cs ih =>
    intro bs bs' ps D l o hfit hg hdon hnull hbR hrem h
    obtain ⟨v, s1, ps1, h1, h2⟩ := bytes_run_cons_some fuel bs bs' c cs ps h
    rw [donated_cons] at hdon hnull hbR
    have hdon1 : ∀ x, cnt D x + cnt (donated [c]) x ≤ 1 := by
      intro x; have := hdon x; rw [cnt_append] at this; omega
    have hnull1 : cnt (donated [c]) 0 = 0 := by
      rw [cnt_append] at hnull; omega
    simp only [Bytes.remainders_fit, h1, Bool.and_eq_true] at hrem
    obtain ⟨l1, k1, k2, k3⟩ := bytes_inv_exec fuel bs s1 c v D l hfit hdon1 hnull1
      (fun d hd => hbR d (List.mem_append_left _ hd)) hrem.1 h1
    obtain ⟨l2, m1, m2, m3⟩ := ih s1 bs' ps1 (D ++ donated [c]) l1 (ordered_path o [c]) k1
      (fun ho => k3 o hg ho)
      (by intro x; have := hdon x; rw [cnt_append] at this ⊢; omega)
      (by rw [cnt_append] at hnull; omega)
      (fun d hd => hbR d (List.mem_append_right _ hd)) hrem.2 h2
    refine ⟨l2, ?_, m2.trans k2, ?_⟩
    · rw [donated_cons, ← List.append_assoc]; exact m1
    · rw [ordered_path_cons]; exact m3

theorem Fit_fresh (a : Nat) (mem : Nat → Nat) : Fit [] (Bytes.fresh a mem) [] :=
  ⟨Inv_fresh a _ _, by simp, by simp⟩

/-- Every state of the byte memory reached from a fresh allocator by
successful calls on pairwise disjoint donated regions inside the address space,
none starting at the null address, in which no `malloc` leaves a remainder
below the header size, holds a free list whose blocks all have at least 16
bytes and that satisfies the invariant. -/
theorem bytes_reach (a fuel : Nat) (mem : Nat → Nat) (cs : List Call)
    (bs : Bytes.CustomMemManager) (ps : List Nat)
    (hnull : ∀ r ∈ donated cs, r.2 ≠ 0 → r.1 ≠ 0) (hdisj : (donated cs).Pairwise Disj)
    (hbR : ∀ d ∈ donated cs, d.1 + d.2 < size_t_range)
    (hrem : Bytes.remainders_fit fuel (Bytes.fresh a mem) cs = true)
    (hrun : Bytes.run fuel (Bytes.fresh a mem) cs = some (bs, ps)) :
    ∃ l, Fit (donated cs) bs l ∧ bs.align_size = a ∧
      (ordered_path true cs = true → Gap l) := by
  obtain ⟨l, h1, h2, h3⟩ := bytes_inv_run fuel cs (Bytes.fresh a mem) bs ps [] [] true
    (Fit_fresh a mem) (fun _ => by simp [Gap])
    (fun x => by simp only [cnt]; have := cnt_le_one_of_pairwise _ hdisj x; omega)
    (cnt_zero_of_nonnull _ hnull) hbR hrem hrun
  exact ⟨l, by simpa using h1, h2, h3⟩

theorem bytes_free_list_of_Fit (D l : List (Nat × Nat)) (bs : Bytes.CustomMemManager)
    (h : Fit D bs l) (f : Nat) (hf : l.length < f) : Bytes.free_list f bs = some l := by
  rw [bytes_free_list]
  exact free_list_from_of_IsList (header_maps bs) l bs.top f h.1.1 hf

/-- On the byte memory: from a fresh allocator, after any sequence of
successful calls on pairwise disjoint donated regions inside the address space
(none starting at the null address) in which every malloc takes a whole free
block or leaves a remainder of at least 16 bytes, the byte ranges of the free
blocks and of the allocation records are pairwise disjoint and non-empty,
every free block can hold the list header, and the free sizes plus the
allocated sizes equal the donated sizes. -/
theorem bytes_blocks_when_remainders_fit (a fuel : Nat) (mem : Nat → Nat)
    (cs : List Call) (bs : Bytes.CustomMemManager) (ps : List Nat)
    (hnull : ∀ r ∈ donated cs, r.2 ≠ 0 → r.1 ≠ 0) (hdisj : (donated cs).Pairwise Disj)
    (hspace : ∀ r ∈ donated cs, r.1 + r.2 < size_t_range)
    (hfit : Bytes.remainders_fit fuel (Bytes.fresh a mem) cs = true)
    (hrun : Bytes.run fuel (Bytes.fresh a mem) cs = some (bs, ps)) :
    ∃ l, (∀ f, l.length < f → Bytes.free_list f bs = some l) ∧
      (l ++ bs.alloc_blocks).Pairwise Disj ∧ (∀ b ∈ l ++ bs.alloc_blocks, 0 < b.2) ∧
      (∀ c ∈ l, sizeof_ptr + sizeof_size_t ≤ c.2) ∧
      total l + total bs.alloc_blocks = total (donated cs) := by
  obtain ⟨l, hF, -, -⟩ := bytes_reach a fuel mem cs bs ps hnull hdisj hspace hfit hrun
  obtain ⟨⟨h1, h2, h3, h4, h5, h6, h7⟩, g16, -⟩ := id hF
  refine ⟨l, fun f hf => bytes_free_list_of_Fit _ l bs hF f hf, ?_, ?_, g16, h7⟩
  · apply pairwise_of_cnt_le_one
    intro x
    rw [cnt_append]
    have := h4 x; have := h5 x
    show cnt l x + cnt (header_maps bs).alloc_blocks x ≤ 1
    omega
  · intro b hb
    rw [List.mem_append] at hb
    rcases hb with hb | hb
    · exact h2 b hb
    · exact h3 b hb

/-! ## Ordering and the fast push on the byte memory -/

/-- C8 (counterexample). Evaluated on the byte memory with alignment 8. After
two fast donations, an ordered donation succeeds and leaves the free list
[(8192,16), (4096,16), (12288,16)], which is not ascending; and when the same
region is donated twice, a successful defrag leaves a head block whose
successor is the head block itself. -/
theorem C8_counterexample :
    (Bytes.free_list 8 (Bytes.run_state 8 (Bytes.fresh 8 zero_mem)
      [Call.add_block_fast 4096 16, Call.add_block_fast 8192 16, Call.add_block 12288 16])
      = some [(8192, 16), (4096, 16), (12288, 16)] ∧
     ¬ ordered_ok [(8192, 16), (4096, 16), (12288, 16)]) ∧
    ((Bytes.run 8 (Bytes.fresh 8 zero_mem)
      [Call.add_block 4096 16, Call.add_block 4096 16, Call.defrag]).isSome = true ∧
     (Bytes.run_state 8 (Bytes.fresh 8 zero_mem)
      [Call.add_block 4096 16, Call.add_block 4096 16, Call.defrag]).top = 4096 ∧
     Bytes.get_next (Bytes.run_state 8 (Bytes.fresh 8 zero_mem)
      [Call.add_block 4096 16, Call.add_block 4096 16, Call.defrag]) 4096 = 4096) := by
  refine ⟨⟨by decide, ?_⟩, by decide⟩
  simp [ordered_ok]

/-- C8 (amended). On the byte memory: from a fresh allocator, after any
sequence of successful calls on pairwise disjoint donated regions inside the
address space (none starting at the null address) in which every malloc takes
a whole free block or leaves a remainder of at least 16 bytes, and in which no
add_block_fast or free_fast call comes after the last defrag (or, without a
defrag, occurs at all), the free list is strictly ascending by start address,
no two list-adjacent blocks are memory-adjacent, and every free block can hold
the list header. -/
theorem C8_ordered_after_ordered_path (a fuel : Nat) (mem : Nat → Nat)
    (cs : List Call) (bs : Bytes.CustomMemManager) (ps : List Nat)
    (hnull : ∀ r ∈ donated cs, r.2 ≠ 0 → r.1 ≠ 0) (hdisj : (donated cs).Pairwise Disj)
    (hspace : ∀ r ∈ donated cs, r.1 + r.2 < size_t_range)
    (hfit : Bytes.remainders_fit fuel (Bytes.fresh a mem) cs = true)
    (hord : ordered_path true cs = true)
    (hrun : Bytes.run fuel (Bytes.fresh a mem) cs = some (bs, ps)) :
    ∃ l, (∀ f, l.length < f → Bytes.free_list f bs = some l) ∧ ordered_ok l ∧
      ∀ c ∈ l, sizeof_ptr + sizeof_size_t ≤ c.2 := by
  obtain ⟨l, hF, -, hg⟩ := bytes_reach a fuel mem cs bs ps hnull hdisj hspace hfit hrun
  exact ⟨l, fun f hf => bytes_free_list_of_Fit _ l bs hF f hf, ordered_ok_of_gap l (hg hord),
    hF.2.1⟩

/-- Witness for C8 (amended): two fast donations and an ordered one, an
allocation that splits a block and leaves 32 bytes, then defrag. -/
theorem C8_ordered_after_ordered_path_witness :
    ∃ l, (∀ f, l.length < f → Bytes.free_list f (Bytes.run_state 8 (Bytes.fresh 8 zero_mem)
        [Call.add_block_fast 4096 16, Call.add_block_fast 8192 64, Call.add_block 12288 16,
          Call.malloc 32 1, Call.defrag]) = some l) ∧ ordered_ok l ∧
      ∀ c ∈ l, sizeof_ptr + sizeof_size_t ≤ c.2 :=
  C8_ordered_after_ordered_path 8 8 zero_mem
    [Call.add_block_fast 4096 16, Call.add_block_fast 8192 64, Call.add_block 12288 16,
      Call.malloc 32 1, Call.defrag] _ [8192]
    (by decide) (by decide) (by decide) (by decide) (by decide) rfl

theorem header_frame (bs : Bytes.CustomMemManager) (b v w x : Nat)
    (hx : x + 16 ≤ b ∨ b + 16 ≤ x) :
    Bytes.get_next (Bytes.set_size (Bytes.set_next bs b v) b w) x = Bytes.get_next bs x ∧
    Bytes.get_size (Bytes.set_size (Bytes.set_next bs b v) b w) x = Bytes.get_size bs x := by
  constructor
  · rw [get_next_set_size _ b w x (by omega), get_next_set_next_far bs b v x (by omega)]
  · rw [get_size_set_size_far _ b w x (by omega), get_size_set_next bs b v x (by omega)]

theorem header_written (bs : Bytes.CustomMemManager) (b v w : Nat)
    (hv : v < size_t_range) (hw : w < size_t_range) :
    Bytes.get_next (Bytes.set_size (Bytes.set_next bs b v) b w) b = v ∧
    Bytes.get_size (Bytes.set_size (Bytes.set_next bs b v) b w) b = w := by
  constructor
  · rw [get_next_set_size _ b w b (Or.inl rfl), get_next_set_next_same bs b v hv]
  · exact get_size_set_size_same _ b w hw

theorem bytes_add_block_fast_of_valid (bs : Bytes.CustomMemManager) (b n : Nat)
    (h0 : n ≠ 0) (h1 : ¬ n < sizeof_ptr + sizeof_size_t)
    (h2 : Bytes.check_alignment bs b = false) :
    Bytes.add_block_fast bs b n =
      Bytes.Res.ok () { Bytes.set_size (Bytes.set_next bs b bs.top) b n with top := b } := by
  unfold Bytes.add_block_fast
  rw [if_neg h0, if_neg h1, h2, if_neg (by simp)]

/-- C16 (amended). On the byte memory: in a state whose free list `l`
consists of blocks large enough for their header, add_block_fast of a valid
block (size at least the header size, pointer a multiple of align_size) that
does not start at the null address and is disjoint from every block of `l`
returns normally and leaves the free list `(ptr, size) :: l`: the new block is
the head, the old blocks keep start, size and order, nothing is merged; the
allocation table and the alignment are unchanged. The member `top` and the
argument `size` are 64-bit values. -/
theorem C16_fast_push (f : Nat) (bs : Bytes.CustomMemManager) (ptr size : Nat)
    (l : List (Nat × Nat)) (hfl : Bytes.free_list f bs = some l)
    (hhdr : ∀ c ∈ l, sizeof_ptr + sizeof_size_t ≤ c.2)
    (hsize : sizeof_ptr + sizeof_size_t ≤ size) (hal : ptr % bs.align_size = 0)
    (hnull : ptr ≠ 0) (hdisj : ∀ c ∈ l, Disj (ptr, size) c)
    (htop : bs.top < size_t_range) (hsz : size < size_t_range) :
    ∃ bs', Bytes.add_block_fast bs ptr size = Bytes.Res.ok () bs' ∧
      Bytes.free_list (f + 1) bs' = some ((ptr, size) :: l) ∧
      (∀ c ∈ (ptr, size) :: l, sizeof_ptr + sizeof_size_t ≤ c.2) ∧
      bs'.alloc_blocks = bs.alloc_blocks ∧ bs'.align_size = bs.align_size := by
  rw [bytes_free_list] at hfl
  obtain ⟨hl, hlen⟩ := free_list_spec f (header_maps bs) l hfl
  simp only [sizeof_ptr, sizeof_size_t] at hsize hhdr
  have hn : ¬ size = 0 := by omega
  have hs : ¬ size < sizeof_ptr + sizeof_size_t := by
    simp only [sizeof_ptr, sizeof_size_t]; omega
  have hc : Bytes.check_alignment bs ptr = false := by simp [Bytes.check_alignment, hal]
  have hs' := bytes_add_block_fast_of_valid bs ptr size hn hs hc
  refine ⟨_, hs', ?_, ?_, rfl, rfl⟩
  · rw [bytes_free_list]
    apply free_list_from_of_IsList _ _ _ (f + 1) _ (by simp only [List.length_cons]; omega)
    obtain ⟨w1, w2⟩ := header_written bs ptr bs.top size htop hsz
    refine ⟨rfl, hnull, w2, ?_⟩
    show IsList _ (Bytes.get_next (Bytes.set_size (Bytes.set_next bs ptr bs.top) ptr size) ptr) l
    rw [w1]
    apply IsList_congr (header_maps bs) _ l _ _ hl
    intro x hx
    obtain ⟨z, hz⟩ := mem_of_mem_starts l x hx
    have h16 := hhdr _ hz
    have hd := hdisj _ hz
    unfold Disj at hd
    simp only at hd h16
    exact header_frame bs ptr bs.top size x (by omega)
  · intro c hc
    simp only [sizeof_ptr, sizeof_size_t]
    rcases List.mem_cons.1 hc with rfl | hc
    · exact hsize
    · exact hhdr c hc

/-- Witness for C16 (amended): a block pushed right behind a free block it is
memory-adjacent to; the two are not merged. -/
theorem C16_fast_push_witness :
    ∃ bs', Bytes.add_block_fast
        (Bytes.run_state 8 (Bytes.fresh 8 zero_mem) [Call.add_block 4096 16]) 4112 16
          = Bytes.Res.ok () bs' ∧
      Bytes.free_list (8 + 1) bs' = some ((4112, 16) :: [(4096, 16)]) ∧
      (∀ c ∈ (4112, 16) :: [(4096, 16)], sizeof_ptr + sizeof_size_t ≤ c.2) ∧
      bs'.alloc_blocks =
        (Bytes.run_state 8 (Bytes.fresh 8 zero_mem) [Call.add_block 4096 16]).alloc_blocks ∧
      bs'.align_size =
        (Bytes.run_state 8 (Bytes.fresh 8 zero_mem) [Call.add_block 4096 16]).align_size :=
  C16_fast_push 8 _ 4112 16 [(4096, 16)] (by decide) (by decide) (by decide) (by decide)
    (by decide) (by decide) (by decide) (by decide)

end ChronusQ
